import Mathlib

/-!
# Trapezoidal decomposition and triangulated paths (`juce_OpenGLHelpers.cpp`)

A shallow embedding of `TriangulatedPath::TrapezoidedPath` (the decomposer that turns the
line segments of a flattened path into horizontal slices of winding-annotated x-intervals)
and of `TriangulatedPath` (the vertex blocks filled from the decomposer and drawn with
oversampling).

Conventions of the embedding.

* C++ `int` values (coordinates, windings, the oversampling level) are `Int`; they are
  taken in the range in which the 32-bit computations of the source do not overflow, so
  `+ - *` are exact and `/` is the truncating division `Int.tdiv`.  The `(int64)` products
  are exact as well.  The one product of the decomposer that the source takes in 32 bits,
  `intersectionY * dx2` in `HorizontalSlice::addLine`, overflows for paths of a few hundred
  pixels; it is embedded with its wrap-around (`wrap32`).  The loop of
  `HorizontalSlice::addLine` is embedded a second time with every operation wrapped
  (`place32`).
* The singly linked chain `firstSlice, next, next, ...` is a `List HorizontalSlice`; the
  `next` pointer of a slice is its successor in the list.
* `Array<LineSegment>` is a `List LineSegment`.
* The calls a `Consumer` receives are recorded in order as a list of `ConsumerCall`s, with
  the fixed-point integer of every coordinate (the source passes each one through
  `intToFloat`, the conversion to `float` and a scaling by `1 / factor`).
* `GLfloat` values are rationals; the conversion of an `int` to `float` rounds to 24
  significant bits (`roundToFloat`).
-/

namespace Juce

/-- The record `HorizontalSlice::LineSegment`: an x-interval `x1` (at the top of the slice)
to `x2` (at the bottom) with its winding. -/
structure LineSegment where
  x1 : Int
  x2 : Int
  winding : Int
  deriving DecidableEq

/-- The record `HorizontalSlice` without its `next` pointer: the band `[y1, y2)` and its
segments. -/
structure HorizontalSlice where
  y1 : Int
  y2 : Int
  segments : List LineSegment
  deriving DecidableEq

/-- The constructor `HorizontalSlice (next_, x1, y1_, x2, y2_, winding)`: a slice holding one
segment. -/
def HorizontalSlice.single (x1 y1 x2 y2 winding : Int) : HorizontalSlice :=
  { y1 := y1, y2 := y2, segments := [{ x1 := x1, x2 := x2, winding := winding }] }

/-- The method `HorizontalSlice::split (newY)`.  The first component is the slice itself
after the call (`y2 = newY`, every `l.x2 = newX`), the second the new successor built by the
copying constructor (`y1 = newY`, every `x1 = newX`). -/
def HorizontalSlice.split (s : HorizontalSlice) (newY : Int) :
    HorizontalSlice × HorizontalSlice :=
  let dy1 := newY - s.y1
  let dy2 := s.y2 - s.y1
  let newX := fun (l : LineSegment) => l.x1 + Int.tdiv (dy1 * (l.x2 - l.x1)) dy2
  ({ y1 := s.y1, y2 := newY, segments := s.segments.map fun l => { l with x2 := newX l } },
   { y1 := newY, y2 := s.y2, segments := s.segments.map fun l => { l with x1 := newX l } })

/-- The effect of `s->split (newY)` on the chain from `s` on: the statement
`next = new HorizontalSlice (*this, next, newY, y2)` puts the new slice between `s` and the
old successor of `s`. -/
def HorizontalSlice.splitInChain : List HorizontalSlice → Int → List HorizontalSlice
  | [], _ => []
  | s :: next, newY => (s.split newY).1 :: (s.split newY).2 :: next

/-- A value as a C++ `int` holds it: reduced to the range `[-2^31, 2^31)` by
two's-complement wrap-around.  (Overflow of a signed operation is undefined in C++; the
wrap-around is what the usual targets compute.) -/
def wrap32 (n : Int) : Int := (n + 2147483648) % 4294967296 - 2147483648

/-- Outcome of the `for` loop of `HorizontalSlice::addLine`: either it found a crossing
that needs a split (`intersectionY`, `intersectionX`), or it stored the new segment
(`segments.insert (i, ...)` or `segments.add (...)`), giving the new segment list. -/
inductive Placement where
  | crossing (intersectionY intersectionX : Int)
  | placed (segments : List LineSegment)
  deriving DecidableEq

/-- The `for` loop of `HorizontalSlice::addLine (x1, x2, winding)` over the segments from
index `i` on, with `dy = y2 - y1`.  The product of `intersectionY` has an `(int64)`
operand and is exact; the product `intersectionY * dx2` of `intersectionX` has none, both
operands are `int` and it is taken in 32 bits (`wrap32`). -/
def HorizontalSlice.place (dy x1 x2 winding : Int) : List LineSegment → Placement
  | [] => .placed [{ x1 := x1, x2 := x2, winding := winding }]
  | l :: rest =>
    let diff1 := l.x1 - x1
    let diff2 := l.x2 - x2
    let found : Option (Int × Int) :=
      if (diff1 < 0 ↔ diff2 > 0) then
        let dx1 := l.x2 - l.x1
        let dx2 := x2 - x1
        let dxDiff := dx2 - dx1
        if dxDiff ≠ 0 then
          let intersectionY := Int.tdiv (dy * diff1) dxDiff
          if intersectionY > 0 ∧ intersectionY < dy then
            some (intersectionY, x1 + Int.tdiv (wrap32 (intersectionY * dx2)) dy)
          else none
        else none
      else none
    match found with
    | some (intersectionY, intersectionX) => .crossing intersectionY intersectionX
    | none =>
      if diff1 + diff2 > 0 then
        .placed ({ x1 := x1, x2 := x2, winding := winding } :: l :: rest)
      else
        match HorizontalSlice.place dy x1 x2 winding rest with
        | .crossing intersectionY intersectionX => .crossing intersectionY intersectionX
        | .placed segments => .placed (l :: segments)

/-- The recursion of `HorizontalSlice::addLine`, bounded by a recursion budget.  The result
lists the slice itself and the successors its splits put behind it, in chain order.  On a
crossing the slice is split at `intersectionY + y1`, the new successor receives
`(intersectionX, x2)` and the shortened slice `(x1, intersectionX)`. -/
def HorizontalSlice.addLineFuel :
    Nat → HorizontalSlice → Int → Int → Int → List HorizontalSlice
  | fuel, s, x1, x2, winding =>
    match HorizontalSlice.place (s.y2 - s.y1) x1 x2 winding s.segments with
    | .placed segments => [{ s with segments := segments }]
    | .crossing intersectionY intersectionX =>
      match fuel with
      | 0 => [s]
      | fuel + 1 =>
        let halves := s.split (intersectionY + s.y1)
        HorizontalSlice.addLineFuel fuel halves.1 x1 intersectionX winding
          ++ HorizontalSlice.addLineFuel fuel halves.2 intersectionX x2 winding

/-- The method `HorizontalSlice::addLine (x1, x2, winding)`.  Every recursive call is on a
slice at least one unit lower than its caller, so the height of the slice bounds the
recursion depth (`addLineFuel_budget`). -/
def HorizontalSlice.addLine (s : HorizontalSlice) (x1 x2 winding : Int) :
    List HorizontalSlice :=
  HorizontalSlice.addLineFuel (s.y2 - s.y1).toNat s x1 x2 winding

/-- The `while (y2 > y1)` loop of `TrapezoidedPath::addLine`, one iteration per unit of
`budget`.  `before` holds the slices in front of `s` (the pointer `last` is its last
element, `nullptr` when it is empty), the second list the chain from `s` on, so
`insert (last, newOne)` puts `newOne` between the two.  After `s->split (y1)` the first
half joins `before` (`last` itself is not read again before `last = s`).  After
`s->addLine`, `s->next` is the first slice that call has put behind `s`; the call leaves at
least the slice itself (`addLineFuel_length`).  The loop never runs out of `budget`
(`loop_eq_walk`). -/
def TrapezoidedPath.loop (winding x2 y2 : Int) :
    Nat → List HorizontalSlice → List HorizontalSlice → Int → Int → List HorizontalSlice
  | 0, before, chain, _, _ => before ++ chain
  | budget + 1, before, chain, x1, y1 =>
    if y2 > y1 then
      match chain with
      | [] => before ++ [HorizontalSlice.single x1 y1 x2 y2 winding]
      | s :: next =>
        if s.y2 > y1 then
          if y1 < s.y1 then
            if y2 ≤ s.y1 then
              before ++ HorizontalSlice.single x1 y1 x2 y2 winding :: s :: next
            else
              let newX := x1 + Int.tdiv ((s.y1 - y1) * (x2 - x1)) (y2 - y1)
              TrapezoidedPath.loop winding x2 y2 budget
                (before ++ [HorizontalSlice.single x1 y1 newX s.y1 winding]) (s :: next)
                newX s.y1
          else
            let before := if y1 > s.y1 then before ++ [(s.split y1).1] else before
            let s := if y1 > s.y1 then (s.split y1).2 else s
            if y2 > s.y2 then
              let newY := s.y2
              let newX := x1 + Int.tdiv ((newY - y1) * (x2 - x1)) (y2 - y1)
              match s.addLine x1 newX winding with
              | [] => before ++ next
              | first :: inserted =>
                TrapezoidedPath.loop winding x2 y2 budget (before ++ [first])
                  (inserted ++ next) newX newY
            else
              if y2 < s.y2 then
                before ++
                  ((s.split y2).1.addLine x1 x2 winding ++ (s.split y2).2 :: next)
              else
                before ++ (s.addLine x1 x2 winding ++ next)
        else
          TrapezoidedPath.loop winding x2 y2 budget (before ++ [s]) next x1 y1
    else
      before ++ chain

/-- The class `TrapezoidedPath`: the slice chain starting at `firstSlice` and the winding
mask (`-1` for a path using non-zero winding, `1` otherwise). -/
structure TrapezoidedPath where
  firstSlice : List HorizontalSlice
  windingMask : Int
  deriving DecidableEq

/-- The method `TrapezoidedPath::addLine (x1, y1, x2, y2)`: the end points are swapped and
the winding negated when `y2 < y1`, then the loop runs from `last = nullptr`,
`s = firstSlice`.  The budget covers every iteration the loop can make: two per slice of
the chain and one per unit of height of the line. -/
def TrapezoidedPath.addLine (t : TrapezoidedPath) (x1 y1 x2 y2 : Int) : TrapezoidedPath :=
  if y2 < y1 then
    let budget := 2 * t.firstSlice.length + (y1 - y2).toNat + 1
    { t with firstSlice := TrapezoidedPath.loop (-1) x1 y1 budget [] t.firstSlice x2 y2 }
  else
    let budget := 2 * t.firstSlice.length + (y2 - y1).toNat + 1
    { t with firstSlice := TrapezoidedPath.loop 1 x2 y2 budget [] t.firstSlice x1 y1 }

/-- A directed input line `(x1, y1) → (x2, y2)` in fixed-point coordinates, as produced by
`floatToInt` from one step of the path flattening iterator. -/
structure Line where
  x1 : Int
  y1 : Int
  x2 : Int
  y2 : Int
  deriving DecidableEq

/-- A sequence of `addLine` calls, in order. -/
def TrapezoidedPath.addLines (t : TrapezoidedPath) (lines : List Line) : TrapezoidedPath :=
  lines.foldl (fun acc l => acc.addLine l.x1 l.y1 l.x2 l.y2) t

/-- The constructor `TrapezoidedPath (p, transform)`: an empty chain, the mask chosen by
`p.isUsingNonZeroWinding ()`, then `addLine` for every line of the flattened path. -/
def TrapezoidedPath.ofLines (isUsingNonZeroWinding : Bool) (lines : List Line) :
    TrapezoidedPath :=
  TrapezoidedPath.addLines
    { firstSlice := [], windingMask := if isUsingNonZeroWinding then -1 else 1 } lines

/-- The operator `&` on `int`, in two's complement of unbounded width (it agrees with the
32-bit operator on 32-bit values, and with `Int.land`, see `bitAnd_eq_land`). -/
def bitAnd : Int → Int → Int
  | .ofNat m, .ofNat n => Int.ofNat (m &&& n)
  | .ofNat m, .negSucc n => Int.ofNat (m ^^^ (m &&& n))
  | .negSucc m, .ofNat n => Int.ofNat (n ^^^ (n &&& m))
  | .negSucc m, .negSucc n => Int.negSucc (m ||| n)

/-- A call received by the `Consumer` of `iterate`, over the coordinate type `α`.  The
arguments are in the order of the C++ signatures `addTriangle (x1, y1, x2, y2, x3, y3)` and
`addTrapezoid (y1, y2, x1, x2, x3, x4)`.  The decomposer is embedded with `α = Int`: each
argument is the fixed-point integer whose `intToFloat` image the source passes. -/
inductive ConsumerCall (α : Type) where
  | addTriangle (x1 y1 x2 y2 x3 y3 : α)
  | addTrapezoid (y1 y2 x1 x2 x3 x4 : α)
  deriving DecidableEq

/-- The loop `for (int i = segments.size(); --i > 0;)` of `HorizontalSlice::iterate`, with
the pointers `s1`, `s2` kept as indices into `segments`.  The list argument holds the
segments behind `s2`.  The result lists, in order, the pairs `(s1, s2)` for which the body
of `if ((winding & windingMask) == 0)` runs. -/
def HorizontalSlice.spans (windingMask : Int) :
    List LineSegment → Nat → Nat → Int → List (Nat × Nat)
  | [], _, _, _ => []
  | l :: rest, s1, s2, winding =>
    if bitAnd (winding + l.winding) windingMask = 0 then
      (s1, s2 + 1) ::
        HorizontalSlice.spans windingMask rest (s2 + 1 + 1) (s2 + 1) (winding + l.winding)
    else
      HorizontalSlice.spans windingMask rest s1 (s2 + 1) (winding + l.winding)

/-- The body of `if ((winding & windingMask) == 0)` in `HorizontalSlice::iterate`: the call
made for the segments `s1` and `s2` of the slice `[y1, y2)`. -/
def HorizontalSlice.emit (y1 y2 : Int) (s1 s2 : LineSegment) : ConsumerCall Int :=
  if s1.x1 = s2.x1 then
    .addTriangle s1.x1 y1 s1.x2 y2 s2.x2 y2
  else if s1.x2 = s2.x2 then
    .addTriangle s1.x1 y1 s2.x1 y1 s1.x2 y2
  else
    .addTrapezoid y1 y2 s1.x1 s1.x2 s2.x1 s2.x2

/-- The pairs `(s1, s2)` of segment indices for which `HorizontalSlice::iterate` calls the
consumer: `s1 = s2 = 0`, `winding = s1->winding`, then the loop.  (A slice without
segments, excluded by the `jassert`, yields no call.) -/
def HorizontalSlice.iterateSpans (s : HorizontalSlice) (windingMask : Int) :
    List (Nat × Nat) :=
  match s.segments with
  | [] => []
  | l :: rest => HorizontalSlice.spans windingMask rest 0 0 l.winding

/-- The method `HorizontalSlice::iterate (consumer, windingMask)`: the consumer calls it
makes, in order. -/
def HorizontalSlice.iterate (s : HorizontalSlice) (windingMask : Int) :
    List (ConsumerCall Int) :=
  (s.iterateSpans windingMask).filterMap fun span =>
    match s.segments.get? span.1, s.segments.get? span.2 with
    | some s1, some s2 => some (HorizontalSlice.emit s.y1 s.y2 s1 s2)
    | _, _ => none

/-- The method `TrapezoidedPath::iterate (consumer)`: every slice of the chain in order. -/
def TrapezoidedPath.iterate (t : TrapezoidedPath) : List (ConsumerCall Int) :=
  t.firstSlice.flatMap fun s => s.iterate t.windingMask

/-- The type `GLfloat`, taken as exact rationals. -/
abbrev GLfloat := ℚ

/-- The constant `factor = 128` of the fixed-point coordinates. -/
def factor : Int := 128

/-- The conversion of an `int` to `float` (binary32, 24 significant bits).  A value of
magnitude up to `2^24` is exact.  A larger one has `Nat.log2 m + 1` bits, of which the
upper 24 are kept: it is rounded to a multiple of `2^e`, `e = Nat.log2 m - 23`, the nearest
one, and of two equally near ones the even multiple.  (C++ leaves the choice between the
two neighbouring floats to the implementation; this is the rounding of the usual
targets.) -/
def roundToFloat (n : Int) : GLfloat :=
  let m := n.natAbs
  if m ≤ 16777216 then (n : ℚ)
  else
    let e := Nat.log2 m - 23
    let q := m / 2 ^ e
    let r := m % 2 ^ e
    let rounded := if 2 * r > 2 ^ e ∨ (2 * r = 2 ^ e ∧ q % 2 = 1) then q + 1 else q
    ((n.sign * ((rounded * 2 ^ e : Nat) : Int) : Int) : ℚ)

/-- The function `intToFloat (n) = n * (1.0f / (float) factor)`: `n` is converted to
`float`, and the product with `1.0f / 128`, a power of two, is exact. -/
def intToFloat (n : Int) : GLfloat := roundToFloat n * (1 / (factor : ℚ))

/-- The arguments of a consumer call as the `TriangulatedPath` receives them. -/
def ConsumerCall.toFloat : ConsumerCall Int → ConsumerCall GLfloat
  | .addTriangle x1 y1 x2 y2 x3 y3 =>
    .addTriangle (intToFloat x1) (intToFloat y1) (intToFloat x2) (intToFloat y2)
      (intToFloat x3) (intToFloat y3)
  | .addTrapezoid y1 y2 x1 x2 x3 x4 =>
    .addTrapezoid (intToFloat y1) (intToFloat y2) (intToFloat x1) (intToFloat x2)
      (intToFloat x3) (intToFloat x4)

/-- The record `TriangulatedPath::TriangleBlock`: `numVertices` counts the floats in use,
`triangles` is the heap block, one list element per allocated float. -/
structure TriangleBlock where
  numVertices : Nat
  triangles : List GLfloat
  deriving DecidableEq

/-- The constant `maxVerticesPerBlock = 256 * 6`. -/
def TriangleBlock.maxVerticesPerBlock : Nat := 256 * 6

/-- The constructor `TriangleBlock ()`: no vertex in use, `maxVerticesPerBlock` floats
allocated (their unspecified initial content is taken as `0`). -/
def TriangleBlock.fresh : TriangleBlock :=
  { numVertices := 0, triangles := List.replicate TriangleBlock.maxVerticesPerBlock 0 }

/-- The method `TriangleBlock::optimiseStorage ()`: `triangles.realloc (numVertices)`.
The heap block then holds `numVertices` floats: the floats it held before are kept up to
the new size, and floats added by a growing reallocation (unspecified in the source) are
taken as `0`. -/
def TriangleBlock.optimiseStorage (b : TriangleBlock) : TriangleBlock :=
  { b with triangles := b.triangles.take b.numVertices
      ++ List.replicate (b.numVertices - b.triangles.length) 0 }

/-- One write `*t++ = v` at index `i` of a heap block; `none` when the index is not below
the number of allocated floats. -/
def storeAt (buffer : List GLfloat) (i : Nat) (v : GLfloat) : Option (List GLfloat) :=
  if i < buffer.length then some (buffer.set i v) else none

/-- The writes `*t++ = v` for the values `vs` in turn, the first at index `i`. -/
def storeAll : List GLfloat → Nat → List GLfloat → Option (List GLfloat)
  | buffer, _, [] => some buffer
  | buffer, i, v :: vs => (storeAt buffer i v).bind fun b => storeAll b (i + 1) vs

/-- The class `TriangulatedPath`: the owned array `blocks` and the pointer `currentBlock`,
kept as the index in `blocks` of the block it points to. -/
structure TriangulatedPath where
  blocks : List TriangleBlock
  currentBlock : Nat
  deriving DecidableEq

/-- The method `TriangulatedPath::startNewBlock ()`. -/
def TriangulatedPath.startNewBlock (p : TriangulatedPath) : TriangulatedPath :=
  { blocks := p.blocks ++ [TriangleBlock.fresh], currentBlock := p.blocks.length }

/-- The state of a `TriangulatedPath` in its constructor after `startNewBlock ()`, before
the decomposer output is iterated into it. -/
def TriangulatedPath.fresh : TriangulatedPath :=
  TriangulatedPath.startNewBlock { blocks := [], currentBlock := 0 }

/-- The common tail of `addTriangle` and `addTrapezoid`: the values `vs` are written from
`currentBlock->getNextTriangle ()` on, then `numVertices` grows by their number.  The result
is `none` when `currentBlock` points to no block or a write falls outside the heap block. -/
def TriangulatedPath.append (p : TriangulatedPath) (vs : List GLfloat) :
    Option TriangulatedPath :=
  (p.blocks.get? p.currentBlock).bind fun cur =>
    (storeAll cur.triangles cur.numVertices vs).map fun written =>
      let block : TriangleBlock :=
        { numVertices := cur.numVertices + vs.length, triangles := written }
      { p with blocks := p.blocks.set p.currentBlock block }

/-- The method `TriangulatedPath::addTriangle (x1, y1, x2, y2, x3, y3)`. -/
def TriangulatedPath.addTriangle (p : TriangulatedPath) (x1 y1 x2 y2 x3 y3 : GLfloat) :
    Option TriangulatedPath :=
  (p.blocks.get? p.currentBlock).bind fun cur =>
    let q := if cur.numVertices ≥ TriangleBlock.maxVerticesPerBlock then p.startNewBlock else p
    q.append [x1, y1, x2, y2, x3, y3]

/-- The method `TriangulatedPath::addTrapezoid (y1, y2, x1, x2, x3, x4)`. -/
def TriangulatedPath.addTrapezoid (p : TriangulatedPath) (y1 y2 x1 x2 x3 x4 : GLfloat) :
    Option TriangulatedPath :=
  (p.blocks.get? p.currentBlock).bind fun cur =>
    let q :=
      if cur.numVertices ≥ TriangleBlock.maxVerticesPerBlock - 6 then p.startNewBlock else p
    q.append [x1, y1, x2, y2, x3, y1, x4, y2, x2, y2, x3, y1]

/-- One consumer call made on a `TriangulatedPath`. -/
def TriangulatedPath.call (p : TriangulatedPath) : ConsumerCall GLfloat →
    Option TriangulatedPath
  | .addTriangle x1 y1 x2 y2 x3 y3 => p.addTriangle x1 y1 x2 y2 x3 y3
  | .addTrapezoid y1 y2 x1 x2 x3 x4 => p.addTrapezoid y1 y2 x1 x2 x3 x4

/-- A sequence of consumer calls made on a `TriangulatedPath`, in order. -/
def TriangulatedPath.calls : TriangulatedPath → List (ConsumerCall GLfloat) →
    Option TriangulatedPath
  | p, [] => some p
  | p, c :: cs => (p.call c).bind fun q => TriangulatedPath.calls q cs

/-- The constructor `TriangulatedPath (path, transform)`, on the lines of the flattened
path: `startNewBlock ()`, then the decomposer iterates into the new object. -/
def TriangulatedPath.ofLines (isUsingNonZeroWinding : Bool) (lines : List Line) :
    Option TriangulatedPath :=
  TriangulatedPath.calls TriangulatedPath.fresh
    ((TrapezoidedPath.ofLines isUsingNonZeroWinding lines).iterate.map ConsumerCall.toFloat)

/-- The method `TriangulatedPath::optimiseStorage ()`: `currentBlock->optimiseStorage ()`;
`none` when `currentBlock` points at no block of the path. -/
def TriangulatedPath.optimiseStorage (p : TriangulatedPath) : Option TriangulatedPath :=
  (p.blocks.get? p.currentBlock).map fun cur =>
    { p with blocks := p.blocks.set p.currentBlock cur.optimiseStorage }

/-- The calls made on the rendering sink, in the order of their issue. -/
inductive GLCall where
  | glColor4f (red green blue alpha : GLfloat)
  | glTranslatef (x y z : GLfloat)
  | glVertexPointer (size stride : Nat) (pointer : List GLfloat)
  | glDrawArrays (first count : Nat)
  deriving DecidableEq

/-- The method `TriangleBlock::draw ()`: `glVertexPointer (2, GL_FLOAT, 0, triangles)` and
`glDrawArrays (GL_TRIANGLES, 0, numVertices / 2)`. -/
def TriangleBlock.draw (b : TriangleBlock) : List GLCall :=
  [.glVertexPointer 2 0 b.triangles, .glDrawArrays 0 (b.numVertices / 2)]

/-- The loop `for (int i = 0; i < blocks.size (); ++i) blocks.getUnchecked (i)->draw ()`. -/
def TriangulatedPath.drawBlocks (p : TriangulatedPath) : List GLCall :=
  p.blocks.flatMap TriangleBlock.draw

/-- The loop `for (int x = oversamplingLevel; --x >= 0;)` of `draw` with the given number of
rounds left. -/
def TriangulatedPath.drawRow (p : TriangulatedPath) (inc : GLfloat) : Nat → List GLCall
  | 0 => []
  | x + 1 => .glTranslatef inc 0 0 :: (p.drawBlocks ++ TriangulatedPath.drawRow p inc x)

/-- The loop `for (int y = oversamplingLevel; --y >= 0;)` of `draw` with the given number of
rounds left. -/
def TriangulatedPath.drawRows (p : TriangulatedPath) (oversamplingLevel : Int)
    (inc : GLfloat) : Nat → List GLCall
  | 0 => []
  | y + 1 =>
    p.drawRow inc oversamplingLevel.toNat ++
      (.glTranslatef (-1) inc 0 :: TriangulatedPath.drawRows p oversamplingLevel inc y)

/-- The method `TriangulatedPath::draw (oversamplingLevel)`: the calls it makes on the
sink.  Both loops count down from `oversamplingLevel - 1` to `0`. -/
def TriangulatedPath.draw (p : TriangulatedPath) (oversamplingLevel : Int) : List GLCall :=
  .glColor4f 1 1 1 (1 / ((oversamplingLevel * oversamplingLevel : Int) : ℚ)) ::
    .glTranslatef (-(1 / 2)) (-(1 / 2)) 0 ::
      p.drawRows oversamplingLevel (1 / (oversamplingLevel : ℚ)) oversamplingLevel.toNat

/-! ## Notions used to state and prove the properties -/

/-- The body of the `while` loop of `TrapezoidedPath::addLine` from `jassert (y1 == s->y1)`
on, for the slice `s` followed by `tail`, together with the rest of the loop.  When the
line reaches below the slice, the part inside it is stored and the loop goes on from
`(newX, newY)`; `continueWith` is the rest of the loop on `tail`: the successors that
`s->addLine` put behind `s` end at or above `newY` (`addLineFuel_upper`), so the test
`s->y2 > y1` fails on each of them and the loop steps over them unchanged. -/
def TrapezoidedPath.aligned (winding x2 y2 : Int) (s : HorizontalSlice)
    (tail : List HorizontalSlice) (continueWith : Int → Int → List HorizontalSlice)
    (x1 y1 : Int) : List HorizontalSlice :=
  if y2 > s.y2 then
    let newY := s.y2
    let newX := x1 + Int.tdiv ((newY - y1) * (x2 - x1)) (y2 - y1)
    s.addLine x1 newX winding ++ continueWith newX newY
  else
    if y2 < s.y2 then
      let halves := s.split y2
      halves.1.addLine x1 x2 winding ++ halves.2 :: tail
    else
      s.addLine x1 x2 winding ++ tail

/-- The loop of `TrapezoidedPath::addLine` by recursion on the chain from the current slice
`s` on: what the loop turns that part of the chain into (`loop_eq_walk`).  After the
`continue` the body runs once more on the same slice with `x1 = newX`, `y1 = s->y1`. -/
def TrapezoidedPath.walk (winding x2 y2 : Int) :
    List HorizontalSlice → Int → Int → List HorizontalSlice
  | [], x1, y1 =>
    if y2 > y1 then [HorizontalSlice.single x1 y1 x2 y2 winding] else []
  | s :: tail, x1, y1 =>
    if y2 > y1 then
      if s.y2 > y1 then
        if y1 < s.y1 then
          if y2 ≤ s.y1 then
            HorizontalSlice.single x1 y1 x2 y2 winding :: s :: tail
          else
            let newX := x1 + Int.tdiv ((s.y1 - y1) * (x2 - x1)) (y2 - y1)
            HorizontalSlice.single x1 y1 newX s.y1 winding ::
              (if s.y2 > s.y1 then
                TrapezoidedPath.aligned winding x2 y2 s tail
                  (fun a b => TrapezoidedPath.walk winding x2 y2 tail a b) newX s.y1
              else
                s :: TrapezoidedPath.walk winding x2 y2 tail newX s.y1)
        else if y1 > s.y1 then
          let halves := s.split y1
          halves.1 :: TrapezoidedPath.aligned winding x2 y2 halves.2 tail
            (fun a b => TrapezoidedPath.walk winding x2 y2 tail a b) x1 y1
        else
          TrapezoidedPath.aligned winding x2 y2 s tail
            (fun a b => TrapezoidedPath.walk winding x2 y2 tail a b) x1 y1
      else
        s :: TrapezoidedPath.walk winding x2 y2 tail x1 y1
    else
      s :: tail

/-- Sum of the windings of the first `n` segments. -/
def windingSum (segments : List LineSegment) (n : Nat) : Int :=
  ((segments.take n).map LineSegment.winding).sum

/-- The gap `k`, between the segments `k` and `k + 1`, lies in one of the spans
`(s1, s2)`: a primitive emitted for the segments `s1..s2` covers the gaps `s1..s2 - 1`. -/
def gapCovered (spans : List (Nat × Nat)) (k : Nat) : Prop :=
  ∃ span ∈ spans, span.1 ≤ k ∧ k < span.2

/-- Area of the triangle with the given corners. -/
def triangleArea (x1 y1 x2 y2 x3 y3 : ℚ) : ℚ :=
  |(x2 - x1) * (y3 - y1) - (x3 - x1) * (y2 - y1)| / 2

/-- Area of the primitive of a consumer call, in squared fixed-point units: of the triangle
for `addTriangle`, of the two triangles `addTrapezoid` stores,
`(x1, y1) (x2, y2) (x3, y1)` and `(x4, y2) (x2, y2) (x3, y1)`, for `addTrapezoid`. -/
def ConsumerCall.area : ConsumerCall Int → ℚ
  | .addTriangle x1 y1 x2 y2 x3 y3 => triangleArea x1 y1 x2 y2 x3 y3
  | .addTrapezoid y1 y2 x1 x2 x3 x4 =>
    triangleArea x1 y1 x2 y2 x3 y1 + triangleArea x4 y2 x2 y2 x3 y1

/-- Area of the primitive a consumer receives, on the `GLfloat` coordinates of the call:
of the triangle for `addTriangle`, of the two triangles `addTrapezoid` stores for
`addTrapezoid`. -/
def ConsumerCall.floatArea : ConsumerCall GLfloat → ℚ
  | .addTriangle x1 y1 x2 y2 x3 y3 => triangleArea x1 y1 x2 y2 x3 y3
  | .addTrapezoid y1 y2 x1 x2 x3 x4 =>
    triangleArea x1 y1 x2 y2 x3 y1 + triangleArea x4 y2 x2 y2 x3 y1

/-- Sum of the areas of the primitives of a sequence of consumer calls. -/
def totalArea (calls : List (ConsumerCall Int)) : ℚ :=
  (calls.map ConsumerCall.area).sum

/-- The values a consumer call makes `addTriangle` or `addTrapezoid` write, in the order of
the writes `*t++ = ...`. -/
def ConsumerCall.values {α : Type} : ConsumerCall α → List α
  | .addTriangle x1 y1 x2 y2 x3 y3 => [x1, y1, x2, y2, x3, y3]
  | .addTrapezoid y1 y2 x1 x2 x3 x4 => [x1, y1, x2, y2, x3, y1, x4, y2, x2, y2, x3, y1]

/-- Number of floats a consumer call appends. -/
def ConsumerCall.size {α : Type} : ConsumerCall α → Nat
  | .addTriangle .. => 6
  | .addTrapezoid .. => 12

/-- Number of `addTriangle` calls in a sequence of consumer calls. -/
def numTriangles {α : Type} : List (ConsumerCall α) → Nat
  | [] => 0
  | .addTriangle .. :: cs => numTriangles cs + 1
  | .addTrapezoid .. :: cs => numTriangles cs

/-- Number of `addTrapezoid` calls in a sequence of consumer calls. -/
def numTrapezoids {α : Type} : List (ConsumerCall α) → Nat
  | [] => 0
  | .addTriangle .. :: cs => numTrapezoids cs
  | .addTrapezoid .. :: cs => numTrapezoids cs + 1

/-- The slices of a chain part lie in order between `lo` and `hi`: each one has
`y1 < y2`, starts at or after `lo` and at or after the end of the one before it, and the
last one ends at or before `hi`. -/
def Chained : Int → Int → List HorizontalSlice → Prop
  | lo, hi, [] => lo ≤ hi
  | lo, hi, s :: tail => lo ≤ s.y1 ∧ s.y1 < s.y2 ∧ Chained s.y2 hi tail

/-- The test of the loop of `HorizontalSlice::addLine` on one segment `l`: whether the new
interval `(x1, x2)` crosses it strictly inside a slice of height `dy`. -/
def crossesInside (dy x1 x2 : Int) (l : LineSegment) : Prop :=
  ((l.x1 - x1 < 0 ↔ l.x2 - x2 > 0) ∧ x2 - x1 - (l.x2 - l.x1) ≠ 0) ∧
    Int.tdiv (dy * (l.x1 - x1)) (x2 - x1 - (l.x2 - l.x1)) > 0 ∧
    Int.tdiv (dy * (l.x1 - x1)) (x2 - x1 - (l.x2 - l.x1)) < dy

/-- The closed path of the rectangle with the corners `(x0, y0)` and `(x1, y1)`, from
`(x0, y0)` along the edge `y = y0` first. -/
def rectangleEdges (x0 y0 x1 y1 : Int) : List Line :=
  [⟨x0, y0, x1, y0⟩, ⟨x1, y0, x1, y1⟩, ⟨x1, y1, x0, y1⟩, ⟨x0, y1, x0, y0⟩]

/-- A closed path run in the opposite direction. -/
def reversePath (lines : List Line) : List Line :=
  lines.reverse.map fun l => ⟨l.x2, l.y2, l.x1, l.y1⟩

/-- The rectangle as a closed path in either direction, starting at its corner number
`start`. -/
def rectanglePath (x0 y0 x1 y1 : Int) (reversed : Bool) (start : Nat) : List Line :=
  (if reversed then reversePath (rectangleEdges x0 y0 x1 y1)
    else rectangleEdges x0 y0 x1 y1).rotate start

/-- The bowtie `(0, 0) → (w, h) → (w, 0) → (0, h) → close`. -/
def bowtie (w h : Int) : List Line :=
  [⟨0, 0, w, h⟩, ⟨w, h, w, 0⟩, ⟨w, 0, 0, h⟩, ⟨0, h, 0, 0⟩]

/-- A slice with two nested contours: windings `-1, +1, +1, -1`. -/
def nestedSlice : HorizontalSlice :=
  { y1 := 0, y2 := 5, segments := [⟨0, 0, -1⟩, ⟨4, 4, 1⟩, ⟨6, 6, 1⟩, ⟨10, 10, -1⟩] }

/-- A block as the append operations keep it: the full allocation, a multiple of 6 floats
in use, no more than the allocation. -/
def TriangleBlock.WF (b : TriangleBlock) : Prop :=
  b.numVertices % 6 = 0 ∧ b.numVertices ≤ TriangleBlock.maxVerticesPerBlock ∧
    b.triangles.length = TriangleBlock.maxVerticesPerBlock

/-- Invariant of the block list: `currentBlock` points to the last block and every block is
well formed. -/
def TriangulatedPath.WF (p : TriangulatedPath) : Prop :=
  (∃ earlier cur, p.blocks = earlier ++ [cur] ∧ p.currentBlock = earlier.length) ∧
    ∀ b ∈ p.blocks, b.WF

/-- Sum of `numVertices` over all blocks. -/
def TriangulatedPath.totalVertices (p : TriangulatedPath) : Nat :=
  (p.blocks.map TriangleBlock.numVertices).sum

/-- Whether a sink call sets the fill colour. -/
def GLCall.isColour : GLCall → Bool
  | .glColor4f .. => true
  | _ => false

/-- Whether a sink call belongs to the submission of a block (`TriangleBlock::draw`). -/
def GLCall.isSubmission : GLCall → Bool
  | .glVertexPointer .. => true
  | .glDrawArrays .. => true
  | _ => false

/-- Whether a sink call draws a vertex array. -/
def GLCall.isDrawArrays : GLCall → Bool
  | .glDrawArrays .. => true
  | _ => false

/-- The translation accumulated by the `glTranslatef` calls at the moment of every
`glDrawArrays` call, starting from the translation `origin`. -/
def submissionOrigins : List GLCall → GLfloat × GLfloat → List (GLfloat × GLfloat)
  | [], _ => []
  | .glTranslatef x y _ :: cs, origin => submissionOrigins cs (origin.1 + x, origin.2 + y)
  | .glDrawArrays _ _ :: cs, origin => origin :: submissionOrigins cs origin
  | .glColor4f _ _ _ _ :: cs, origin => submissionOrigins cs origin
  | .glVertexPointer _ _ _ :: cs, origin => submissionOrigins cs origin

/-! ### Templates: slices with the windings of inserted segments left open -/


/-- A segment whose winding is either known (`some`) or left open (`none`): the open
ones stand for the segments one `addLine` call inserts. -/
structure SegmentTemplate where
  x1 : Int
  x2 : Int
  winding : Option Int
  deriving DecidableEq

/-- A slice of segment templates. -/
structure SliceTemplate where
  y1 : Int
  y2 : Int
  segments : List SegmentTemplate
  deriving DecidableEq

/-- The segment of a template with the open winding set to `w`. -/
def SegmentTemplate.fill (w : Int) (l : SegmentTemplate) : LineSegment :=
  { x1 := l.x1, x2 := l.x2, winding := l.winding.getD w }

/-- The slice of a template with every open winding set to `w`. -/
def SliceTemplate.fill (w : Int) (s : SliceTemplate) : HorizontalSlice :=
  { y1 := s.y1, y2 := s.y2, segments := s.segments.map (SegmentTemplate.fill w) }

/-- A segment as a template without open winding. -/
def SegmentTemplate.ofSegment (l : LineSegment) : SegmentTemplate :=
  { x1 := l.x1, x2 := l.x2, winding := some l.winding }

/-- A slice as a template without open winding. -/
def SliceTemplate.ofSlice (s : HorizontalSlice) : SliceTemplate :=
  { y1 := s.y1, y2 := s.y2, segments := s.segments.map SegmentTemplate.ofSegment }

/-- Number of open windings in a chain of slice templates. -/
def SliceTemplate.inserted (chain : List SliceTemplate) : Nat :=
  (chain.map fun s => (s.segments.filter fun l => l.winding.isNone).length).sum

/-- The segment of a template when its winding is known; `none` for an open one. -/
def SegmentTemplate.kept (l : SegmentTemplate) : Option LineSegment :=
  l.winding.map fun v => { x1 := l.x1, x2 := l.x2, winding := v }

/-- The slice of a template without its open segments. -/
def SliceTemplate.kept (p : SliceTemplate) : HorizontalSlice :=
  { y1 := p.y1, y2 := p.y2, segments := p.segments.filterMap SegmentTemplate.kept }

/-- Number of open windings of a slice template. -/
def SliceTemplate.openSegments (p : SliceTemplate) : Nat :=
  (p.segments.filter fun l => l.winding.isNone).length

/-- The chain `new` is the chain `old` refined: every slice of `old` is in `new`, in order,
either as it is or as the two slices `split` makes of it at a height inside it (each of
which may be split again), and the other slices of `new` hold no segment. -/
inductive Refines : List HorizontalSlice → List HorizontalSlice → Prop where
  | nil : Refines [] []
  | keep (s : HorizontalSlice) {old new : List HorizontalSlice} :
      Refines old new → Refines (s :: old) (s :: new)
  | split (s : HorizontalSlice) (y : Int) {old new : List HorizontalSlice} :
      s.y1 < y → y < s.y2 →
      Refines ((s.split y).1 :: (s.split y).2 :: old) new → Refines (s :: old) new
  | added (p : HorizontalSlice) {old new : List HorizontalSlice} :
      p.segments = [] → Refines old new → Refines old (p :: new)

/-! ### The decomposer with its assertions, divisors and loop bounds checked -/

/-- The division `a / b` of the source with its divisor checked: `none` for a zero
divisor. -/
def checkedDiv (a b : Int) : Option Int :=
  if b = 0 then none else some (Int.tdiv a b)

/-- The constructor `HorizontalSlice (next_, x1, y1_, x2, y2_, winding)` with its
`jassert (y2 > y1)`; `none` when the assertion is violated.  (`jassert (next != this)`
compares the new object with an older one and cannot fail.) -/
def HorizontalSlice.singleChecked (x1 y1 x2 y2 winding : Int) : Option HorizontalSlice :=
  if y2 > y1 then some (HorizontalSlice.single x1 y1 x2 y2 winding) else none

/-- The `for` loop of `HorizontalSlice::split` with the divisor of every division checked:
the segments of the slice itself and of its new successor. -/
def HorizontalSlice.splitSegments (dy1 dy2 : Int) :
    List LineSegment → Option (List LineSegment × List LineSegment)
  | [] => some ([], [])
  | l :: rest =>
    (checkedDiv (dy1 * (l.x2 - l.x1)) dy2).bind fun q =>
      (HorizontalSlice.splitSegments dy1 dy2 rest).map fun halves =>
        ({ l with x2 := l.x1 + q } :: halves.1, { l with x1 := l.x1 + q } :: halves.2)

/-- The method `HorizontalSlice::split (newY)` with its `jassert (newY > y1 && newY < y2)`
and with every divisor checked. -/
def HorizontalSlice.splitChecked (s : HorizontalSlice) (newY : Int) :
    Option (HorizontalSlice × HorizontalSlice) :=
  if newY > s.y1 ∧ newY < s.y2 then
    (HorizontalSlice.splitSegments (newY - s.y1) (s.y2 - s.y1) s.segments).map fun halves =>
      ({ y1 := s.y1, y2 := newY, segments := halves.1 },
       { y1 := newY, y2 := s.y2, segments := halves.2 })
  else none

/-- The `for` loop of `HorizontalSlice::addLine` with every divisor checked. -/
def HorizontalSlice.placeChecked (dy x1 x2 winding : Int) :
    List LineSegment → Option Placement
  | [] => some (.placed [{ x1 := x1, x2 := x2, winding := winding }])
  | l :: rest =>
    let diff1 := l.x1 - x1
    let diff2 := l.x2 - x2
    let found : Option (Option (Int × Int)) :=
      if (diff1 < 0 ↔ diff2 > 0) then
        let dx1 := l.x2 - l.x1
        let dx2 := x2 - x1
        let dxDiff := dx2 - dx1
        if dxDiff ≠ 0 then
          (checkedDiv (dy * diff1) dxDiff).bind fun intersectionY =>
            if intersectionY > 0 ∧ intersectionY < dy then
              (checkedDiv (wrap32 (intersectionY * dx2)) dy).map fun q =>
                some (intersectionY, x1 + q)
            else some none
        else some none
      else some none
    found.bind fun
      | some (intersectionY, intersectionX) => some (.crossing intersectionY intersectionX)
      | none =>
        if diff1 + diff2 > 0 then
          some (.placed ({ x1 := x1, x2 := x2, winding := winding } :: l :: rest))
        else
          (HorizontalSlice.placeChecked dy x1 x2 winding rest).map fun
            | .crossing intersectionY intersectionX => .crossing intersectionY intersectionX
            | .placed segments => .placed (l :: segments)

/-- The method `HorizontalSlice::addLine` with the assertions and divisors of everything it
calls checked and with a bound `depth` on the nesting of its recursive calls: `none` when an
assertion is violated, a divisor is zero or the recursion would nest deeper than `depth`.
As in the source the new successor is served before the slice itself. -/
def HorizontalSlice.addLineChecked :
    Nat → HorizontalSlice → Int → Int → Int → Option (List HorizontalSlice)
  | depth, s, x1, x2, winding =>
    (HorizontalSlice.placeChecked (s.y2 - s.y1) x1 x2 winding s.segments).bind fun
      | .placed segments => some [{ s with segments := segments }]
      | .crossing intersectionY intersectionX =>
        match depth with
        | 0 => none
        | depth + 1 =>
          (s.splitChecked (intersectionY + s.y1)).bind fun halves =>
            (HorizontalSlice.addLineChecked depth halves.2 intersectionX x2 winding).bind
              fun behind =>
                (HorizontalSlice.addLineChecked depth halves.1 x1 intersectionX
                  winding).map fun front => front ++ behind

/-- The `while (y2 > y1)` loop of `TrapezoidedPath::addLine` with the assertions and
divisors of the loop and of everything it calls checked, one iteration per unit of
`budget`: `none` when an assertion is violated (`jassert (y1 == s->y1)`,
`jassert (y2 == s->y2)`, those of the constructor and of `split`), a divisor is zero, or
the loop needs more than `budget` iterations.  After `s->split (y1)` the chain from `s`
on is the first half, the new successor and the old successors; `s = s->next` takes the
head of what follows the first half, and `jassert (s != nullptr)` fails when there is
none. -/
def TrapezoidedPath.loopChecked (winding x2 y2 : Int) :
    Nat → List HorizontalSlice → List HorizontalSlice → Int → Int →
      Option (List HorizontalSlice)
  | budget, before, chain, x1, y1 =>
    if y2 > y1 then
      match budget with
      | 0 => none
      | budget + 1 =>
        match chain with
        | [] =>
          (HorizontalSlice.singleChecked x1 y1 x2 y2 winding).map fun newOne =>
            before ++ [newOne]
        | s :: next =>
          if s.y2 > y1 then
            if y1 < s.y1 then
              if y2 ≤ s.y1 then
                (HorizontalSlice.singleChecked x1 y1 x2 y2 winding).map fun newOne =>
                  before ++ newOne :: s :: next
              else
                (checkedDiv ((s.y1 - y1) * (x2 - x1)) (y2 - y1)).bind fun q =>
                  (HorizontalSlice.singleChecked x1 y1 (x1 + q) s.y1 winding).bind
                    fun newSlice =>
                      TrapezoidedPath.loopChecked winding x2 y2 budget
                        (before ++ [newSlice]) (s :: next) (x1 + q) s.y1
            else
              (if y1 > s.y1 then
                  (s.splitChecked y1).bind fun halves =>
                    (List.head? (halves.2 :: next)).map fun successor =>
                      (before ++ [halves.1], successor)
                else some (before, s)).bind fun state =>
                if y1 = state.2.y1 then
                  if y2 > state.2.y2 then
                    (checkedDiv ((state.2.y2 - y1) * (x2 - x1)) (y2 - y1)).bind fun q =>
                      (state.2.addLineChecked (state.2.y2 - state.2.y1).toNat x1 (x1 + q)
                          winding).bind fun
                        | [] => none
                        | first :: inserted =>
                          TrapezoidedPath.loopChecked winding x2 y2 budget
                            (state.1 ++ [first]) (inserted ++ next) (x1 + q) state.2.y2
                  else
                    (if y2 < state.2.y2 then
                        (state.2.splitChecked y2).map fun halves => (halves.1, [halves.2])
                      else some (state.2, [])).bind fun last =>
                      if y2 = last.1.y2 then
                        (last.1.addLineChecked (last.1.y2 - last.1.y1).toNat x1 x2
                            winding).map fun pieces =>
                          state.1 ++ (pieces ++ (last.2 ++ next))
                      else none
                else none
          else
            TrapezoidedPath.loopChecked winding x2 y2 budget (before ++ [s]) next x1 y1
    else
      some (before ++ chain)

/-- The method `TrapezoidedPath::addLine` with all assertions and divisors checked and the
loop limited to `budget` iterations. -/
def TrapezoidedPath.addLineChecked (t : TrapezoidedPath) (budget : Nat)
    (x1 y1 x2 y2 : Int) : Option TrapezoidedPath :=
  if y2 < y1 then
    (TrapezoidedPath.loopChecked (-1) x1 y1 budget [] t.firstSlice x2 y2).map fun chain =>
      { t with firstSlice := chain }
  else
    (TrapezoidedPath.loopChecked 1 x2 y2 budget [] t.firstSlice x1 y1).map fun chain =>
      { t with firstSlice := chain }

/-- A sequence of checked `addLine` calls, each with the loop budget of
`TrapezoidedPath.addLine`. -/
def TrapezoidedPath.addLinesChecked : TrapezoidedPath → List Line → Option TrapezoidedPath
  | t, [] => some t
  | t, l :: lines =>
    (t.addLineChecked (2 * t.firstSlice.length + (l.y2 - l.y1).natAbs + 1)
        l.x1 l.y1 l.x2 l.y2).bind fun next => TrapezoidedPath.addLinesChecked next lines

/-- The method `HorizontalSlice::iterate` with its `jassert (segments.size () > 0)`. -/
def HorizontalSlice.iterateChecked (s : HorizontalSlice) (windingMask : Int) :
    Option (List (ConsumerCall Int)) :=
  if s.segments.length > 0 then some (s.iterate windingMask) else none

/-- The loop of `TrapezoidedPath::iterate` over the chain with the assertion of every
`HorizontalSlice::iterate` checked. -/
def TrapezoidedPath.iterateSlicesChecked (windingMask : Int) :
    List HorizontalSlice → Option (List (ConsumerCall Int))
  | [] => some []
  | s :: next =>
    (s.iterateChecked windingMask).bind fun calls =>
      (TrapezoidedPath.iterateSlicesChecked windingMask next).map fun rest => calls ++ rest

/-- The method `TrapezoidedPath::iterate` with the assertion of every
`HorizontalSlice::iterate` checked. -/
def TrapezoidedPath.iterateChecked (t : TrapezoidedPath) : Option (List (ConsumerCall Int)) :=
  TrapezoidedPath.iterateSlicesChecked t.windingMask t.firstSlice

/-! ### Vertices, stored floats and covered points -/

/-- The vertices of a float array as `glVertexPointer (2, GL_FLOAT, 0, triangles)` reads
it: two consecutive floats `(x, y)` per vertex. -/
def vertexPairs {α : Type} : List α → List (α × α)
  | x :: y :: rest => (x, y) :: vertexPairs rest
  | _ => []

/-- The vertices a consumer call stores, in the order of storage. -/
def ConsumerCall.vertices {α : Type} (c : ConsumerCall α) : List (α × α) :=
  vertexPairs c.values

/-- The floats in use of all blocks of a path in the order `draw` submits them: of each
block the first `numVertices` floats. -/
def TriangulatedPath.stored (p : TriangulatedPath) : List GLfloat :=
  p.blocks.flatMap fun b => b.triangles.take b.numVertices

/-- The point `p` lies in the closed triangle with the corners `a`, `b`, `c`: it is a
convex combination of them. -/
def inTriangle (a b c p : ℚ × ℚ) : Prop :=
  ∃ u v w : ℚ, 0 ≤ u ∧ 0 ≤ v ∧ 0 ≤ w ∧ u + v + w = 1 ∧
    p.1 = u * a.1 + v * b.1 + w * c.1 ∧ p.2 = u * a.2 + v * b.2 + w * c.2

/-- The point `p` lies in one of the triangles that `glDrawArrays (GL_TRIANGLES, ...)`
draws for a vertex list: each three consecutive vertices make one triangle. -/
def coveredBy : List (ℚ × ℚ) → ℚ × ℚ → Prop
  | a :: b :: c :: rest, p => inTriangle a b c p ∨ coveredBy rest p
  | _, _ => False

/-- The point `p` lies in the span of the slice `[y1, y2)` bounded by the segments `s1` and
`s2`: at some height `(1 - t) * y1 + t * y2` of the slice, between the points of the two
segments at that height. -/
def betweenSegments (y1 y2 : Int) (s1 s2 : LineSegment) (p : ℚ × ℚ) : Prop :=
  ∃ t u : ℚ, 0 ≤ t ∧ t ≤ 1 ∧ 0 ≤ u ∧ u ≤ 1 ∧ p.2 = (1 - t) * y1 + t * y2 ∧
    p.1 = (1 - u) * ((1 - t) * s1.x1 + t * s1.x2) + u * ((1 - t) * s2.x1 + t * s2.x2)

/-- The chain invariant: every slice has `y1 < y2`, holds at least one segment and only
segments of winding `+1` or `-1`, and ends at or before the start of its successor. -/
def ChainInvariant (chain : List HorizontalSlice) : Prop :=
  (∀ s ∈ chain, s.y1 < s.y2 ∧ s.segments ≠ [] ∧
    ∀ l ∈ s.segments, l.winding = 1 ∨ l.winding = -1) ∧
  ∀ (i : Nat) (a b : HorizontalSlice),
    chain.get? i = some a → chain.get? (i + 1) = some b → a.y2 ≤ b.y1

/-! ### Windings and segments at a height -/

/-- The slice of a chain whose range `[y1, y2)` contains `y`, the first one if there are
several. -/
def sliceAt (chain : List HorizontalSlice) (y : Int) : Option HorizontalSlice :=
  chain.find? fun s => decide (s.y1 ≤ y ∧ y < s.y2)

/-- The winding `W (chain, y)`: the sum of the windings of all segments of the slice whose
range contains `y`, and `0` when no slice contains `y`. -/
def windingAt (chain : List HorizontalSlice) (y : Int) : Int :=
  match sliceAt chain y with
  | some s => (s.segments.map LineSegment.winding).sum
  | none => 0

/-- The number of segments of the slice whose range contains `y`, and `0` when no slice
contains `y`. -/
def segmentsAt (chain : List HorizontalSlice) (y : Int) : Nat :=
  match sliceAt chain y with
  | some s => s.segments.length
  | none => 0

/-- The sum of `g winding` over the segments of a slice. -/
def sliceMeasure (g : Int → Int) (s : HorizontalSlice) : Int :=
  (s.segments.map fun l => g l.winding).sum

/-- The sum of `sliceMeasure g` over all slices of a chain whose range contains `y`. -/
def measureAt (g : Int → Int) : List HorizontalSlice → Int → Int
  | [], _ => 0
  | s :: tail, y => (if s.y1 ≤ y ∧ y < s.y2 then sliceMeasure g s else 0) + measureAt g tail y

/-! ### Closed polygons -/

/-- The directed edges between the consecutive vertices of an open path. -/
def pathEdges : List (Int × Int) → List Line
  | a :: b :: rest => ⟨a.1, a.2, b.1, b.2⟩ :: pathEdges (b :: rest)
  | _ => []

/-- The directed edges of a closed polygon given by its vertices `(x, y)` in order: those
between consecutive vertices and the closing edge from the last vertex to the first. -/
def closedEdges : List (Int × Int) → List Line
  | [] => []
  | v :: rest => pathEdges (v :: rest ++ [v])

/-- What one line adds to the measure at `y`: `g 1` on the range of a line given
downwards, `g (-1)` on the range of a line given upwards. -/
def contribution (g : Int → Int) (y : Int) (l : Line) : Int :=
  if l.y1 ≤ y ∧ y < l.y2 then g 1 else if l.y2 ≤ y ∧ y < l.y1 then g (-1) else 0

/-- Whether a vertex lies below the height `y` (at a greater y-coordinate), as `1` or
`0`. -/
def below (y : Int) (v : Int × Int) : Int := if v.2 > y then 1 else 0

/-- The floats in use of a block are the values of a group of calls, in order. -/
def TriangleBlock.holds (b : TriangleBlock) (group : List (ConsumerCall GLfloat)) : Prop :=
  b.triangles.take b.numVertices = group.flatMap ConsumerCall.values

/-! ### The interpolations in the arithmetic of the source -/

/-- A value as an `int64` holds it: reduced to the range `[-2^63, 2^63)` by
two's-complement wrap-around. -/
def wrap64 (n : Int) : Int :=
  (n + 9223372036854775808) % 18446744073709551616 - 9223372036854775808

/-- The expression `x1 + (int) (a * (int64) b / c)` of `TrapezoidedPath::addLine` (twice,
for `newX`) and of `HorizontalSlice::split`, on `int` values `x1`, `a`, `b`, `c`: the
product and the quotient in 64 bits, the cast and the sum in 32 bits. -/
def newX32 (x1 a b c : Int) : Int :=
  wrap32 (x1 + wrap32 (wrap64 (Int.tdiv (wrap64 (a * b)) c)))

/-- The expression `(int) ((dy * (int64) diff1) / dxDiff)` of `HorizontalSlice::addLine`. -/
def intersectionY32 (dy diff1 dxDiff : Int) : Int :=
  wrap32 (wrap64 (Int.tdiv (wrap64 (dy * diff1)) dxDiff))

/-- The expression `x1 + (intersectionY * dx2) / dy` of `HorizontalSlice::addLine`: all
operands are `int`, so the product is taken in 32 bits. -/
def intersectionX32 (x1 intersectionY dx2 dy : Int) : Int :=
  wrap32 (x1 + wrap32 (Int.tdiv (wrap32 (intersectionY * dx2)) dy))

/-- The `for` loop of `HorizontalSlice::addLine` with the arithmetic of the source: every
`int` operation wraps at 32 bits, the two products with an `(int64)` operand are taken in
64 bits. -/
def HorizontalSlice.place32 (dy x1 x2 winding : Int) : List LineSegment → Placement
  | [] => .placed [{ x1 := x1, x2 := x2, winding := winding }]
  | l :: rest =>
    let diff1 := wrap32 (l.x1 - x1)
    let diff2 := wrap32 (l.x2 - x2)
    let found : Option (Int × Int) :=
      if (diff1 < 0 ↔ diff2 > 0) then
        let dx1 := wrap32 (l.x2 - l.x1)
        let dx2 := wrap32 (x2 - x1)
        let dxDiff := wrap32 (dx2 - dx1)
        if dxDiff ≠ 0 then
          let intersectionY := intersectionY32 dy diff1 dxDiff
          if intersectionY > 0 ∧ intersectionY < dy then
            some (intersectionY, intersectionX32 x1 intersectionY dx2 dy)
          else none
        else none
      else none
    match found with
    | some (intersectionY, intersectionX) => .crossing intersectionY intersectionX
    | none =>
      if wrap32 (diff1 + diff2) > 0 then
        .placed ({ x1 := x1, x2 := x2, winding := winding } :: l :: rest)
      else
        match HorizontalSlice.place32 dy x1 x2 winding rest with
        | .crossing intersectionY intersectionX => .crossing intersectionY intersectionX
        | .placed segments => .placed (l :: segments)

/-! # Properties -/

/-! ## The operator `&` -/

theorem bitAnd_neg_one (w : Int) : bitAnd w (-1) = w := by
  cases w with
  | ofNat m => show Int.ofNat (m ^^^ (m &&& 0)) = Int.ofNat m; simp
  | negSucc m => show Int.negSucc (m ||| 0) = Int.negSucc m; simp

theorem bitAnd_one (w : Int) : bitAnd w 1 = w % 2 := by
  cases w with
  | ofNat m =>
    show Int.ofNat (m &&& 1) = _
    rw [Nat.and_one_is_mod]; rfl
  | negSucc m =>
    show Int.ofNat (1 ^^^ (1 &&& m)) = _
    have h1 : 1 &&& m = m % 2 := by rw [Nat.land_comm, Nat.and_one_is_mod]
    rw [h1]
    have h2 : Int.negSucc m = -((m : Int) + 1) := Int.negSucc_eq m
    rw [h2]
    rcases Nat.mod_two_eq_zero_or_one m with h | h
    · rw [h]; simp; omega
    · rw [h]; simp; omega

/-- The embedded `&` is `Int.land`. -/
theorem bitAnd_eq_land (a b : Int) : bitAnd a b = Int.land a b := by
  cases a with
  | ofNat m =>
    cases b with
    | ofNat n => rfl
    | negSucc n =>
      show Int.ofNat (m ^^^ (m &&& n)) = ((Nat.ldiff m n : Nat) : Int)
      congr 1
      apply Nat.eq_of_testBit_eq
      intro i
      rw [Nat.testBit_xor, Nat.testBit_land, Nat.testBit_ldiff]
      cases m.testBit i <;> cases n.testBit i <;> rfl
  | negSucc m =>
    cases b with
    | ofNat n =>
      show Int.ofNat (n ^^^ (n &&& m)) = ((Nat.ldiff n m : Nat) : Int)
      congr 1
      apply Nat.eq_of_testBit_eq
      intro i
      rw [Nat.testBit_xor, Nat.testBit_land, Nat.testBit_ldiff]
      cases m.testBit i <;> cases n.testBit i <;> rfl
    | negSucc n => rfl

/-! ## The winding rules of `HorizontalSlice::iterate` -/

theorem windingSum_cons (l : LineSegment) (rest : List LineSegment) (n : Nat) :
    windingSum (l :: rest) (n + 1) = l.winding + windingSum rest n := by
  simp [windingSum]

theorem windingSum_zero (segments : List LineSegment) : windingSum segments 0 = 0 := by
  simp [windingSum]

theorem gapCovered_cons (span : Nat × Nat) (spans : List (Nat × Nat)) (k : Nat) :
    gapCovered (span :: spans) k ↔ (span.1 ≤ k ∧ k < span.2) ∨ gapCovered spans k := by
  simp [gapCovered]

theorem spans_covered (mask : Int) : ∀ (rest : List LineSegment) (s1 s2 : Nat) (w : Int),
    (bitAnd w mask = 0 → s1 = s2 + 1) → s1 ≤ s2 + 1 →
    bitAnd (w + windingSum rest rest.length) mask = 0 →
    ∀ k, gapCovered (HorizontalSlice.spans mask rest s1 s2 w) k ↔
      (s1 ≤ k ∧ k ≤ s2) ∨ (s2 < k ∧ bitAnd (w + windingSum rest (k - s2)) mask ≠ 0)
  | [], s1, s2, w, hclosed, _, hfinal, k => by
    have hw : bitAnd w mask = 0 := by simpa [windingSum] using hfinal
    have := hclosed hw
    simp only [HorizontalSlice.spans, gapCovered, List.not_mem_nil, false_and, exists_false,
      false_iff, not_or, not_and]
    refine ⟨by omega, fun _ => ?_⟩
    simpa [windingSum] using hw
  | l :: rest, s1, s2, w, hclosed, hle, hfinal, k => by
    have hfinal2 : bitAnd (w + l.winding + windingSum rest rest.length) mask = 0 := by
      rw [List.length_cons, windingSum_cons, ← add_assoc] at hfinal
      exact hfinal
    have hshift : ∀ j, s2 < j →
        w + windingSum (l :: rest) (j - s2) = w + l.winding + windingSum rest (j - (s2 + 1)) := by
      intro j hj
      have : j - s2 = (j - (s2 + 1)) + 1 := by omega
      rw [this, windingSum_cons, add_assoc]
    unfold HorizontalSlice.spans
    by_cases hc : bitAnd (w + l.winding) mask = 0
    · rw [if_pos hc, gapCovered_cons,
        spans_covered mask rest (s2 + 1 + 1) (s2 + 1) (w + l.winding) (fun _ => rfl)
          (by omega) hfinal2 k]
      constructor
      · rintro (⟨h1, h2⟩ | ⟨h1, h2⟩ | ⟨h1, h2⟩)
        · exact Or.inl ⟨h1, by simp only at h2; omega⟩
        · omega
        · exact Or.inr ⟨by omega, by rw [hshift k (by omega)]; exact h2⟩
      · rintro (⟨h1, h2⟩ | ⟨h1, h2⟩)
        · exact Or.inl ⟨h1, by simp only; omega⟩
        · rw [hshift k h1] at h2
          by_cases hk : k = s2 + 1
          · subst hk
            simp only [Nat.sub_self, windingSum_zero, add_zero] at h2
            exact absurd hc h2
          · exact Or.inr (Or.inr ⟨by omega, h2⟩)
    · rw [if_neg hc,
        spans_covered mask rest s1 (s2 + 1) (w + l.winding) (fun h => absurd h hc)
          (by omega) hfinal2 k]
      constructor
      · rintro (⟨h1, h2⟩ | ⟨h1, h2⟩)
        · by_cases hk : k = s2 + 1
          · subst hk
            refine Or.inr ⟨by omega, ?_⟩
            rw [hshift _ (by omega)]
            simpa [windingSum_zero] using hc
          · exact Or.inl ⟨h1, by omega⟩
        · exact Or.inr ⟨by omega, by rw [hshift k (by omega)]; exact h2⟩
      · rintro (⟨h1, h2⟩ | ⟨h1, h2⟩)
        · exact Or.inl ⟨h1, by omega⟩
        · by_cases hk : k = s2 + 1
          · exact Or.inl ⟨by omega, by omega⟩
          · exact Or.inr ⟨by omega, by rw [← hshift k h1]; exact h2⟩

theorem spans_bounds (mask : Int) : ∀ (rest : List LineSegment) (s1 s2 : Nat) (w : Int),
    s1 ≤ s2 + 1 → ∀ span ∈ HorizontalSlice.spans mask rest s1 s2 w,
      s1 ≤ span.1 ∧ span.1 ≤ span.2 ∧ span.2 ≤ s2 + rest.length
  | [], _, _, _, _, span, h => by simp [HorizontalSlice.spans] at h
  | l :: rest, s1, s2, w, hle, span, h => by
    unfold HorizontalSlice.spans at h
    split at h
    · rcases List.mem_cons.1 h with rfl | h
      · simp only [List.length_cons]; omega
      · have := spans_bounds mask rest _ _ _ (by omega) span h
        simp only [List.length_cons]; omega
    · have := spans_bounds mask rest _ _ _ (by omega) span h
      simp only [List.length_cons]; omega

theorem iterateSpans_covered (s : HorizontalSlice) (mask : Int)
    (hfirst : ∀ l ∈ s.segments.head?, bitAnd l.winding mask ≠ 0)
    (hfinal : bitAnd (windingSum s.segments s.segments.length) mask = 0) (k : Nat) :
    gapCovered (s.iterateSpans mask) k ↔ bitAnd (windingSum s.segments (k + 1)) mask ≠ 0 := by
  unfold HorizontalSlice.iterateSpans
  cases hseg : s.segments with
  | nil =>
    rw [hseg] at hfinal
    simp only [gapCovered, List.not_mem_nil, false_and, exists_false, false_iff, not_not]
    simpa [windingSum] using hfinal
  | cons l rest =>
    rw [hseg] at hfinal hfirst
    have hl : bitAnd l.winding mask ≠ 0 := hfirst l (by simp)
    simp only
    rw [spans_covered mask rest 0 0 l.winding (fun h => absurd h hl) (by omega)
      (by rw [List.length_cons, windingSum_cons] at hfinal; exact hfinal) k, windingSum_cons]
    constructor
    · rintro (⟨_, h2⟩ | ⟨_, h2⟩)
      · have : k = 0 := by omega
        subst this
        simpa [windingSum_zero] using hl
      · simpa using h2
    · intro h
      by_cases hk : k = 0
      · exact Or.inl ⟨by omega, by omega⟩
      · exact Or.inr ⟨by omega, by simpa using h⟩

theorem filterMap_forall2 {α β : Type} (f : α → Option β) (R : β → α → Prop) :
    ∀ l : List α, (∀ x ∈ l, ∃ y, f x = some y ∧ R y x) → List.Forall₂ R (l.filterMap f) l
  | [], _ => List.Forall₂.nil
  | x :: l, h => by
    obtain ⟨y, hy, hR⟩ := h x (by simp)
    rw [List.filterMap_cons, hy]
    exact List.Forall₂.cons hR (filterMap_forall2 f R l fun x hx => h x (by simp [hx]))

/-- Every span of `iterateSpans` lies inside the segment list and gives one consumer
call. -/
theorem iterate_spans (s : HorizontalSlice) (mask : Int) :
    List.Forall₂
      (fun call span => span.1 ≤ span.2 ∧ ∃ a b, s.segments.get? span.1 = some a ∧
        s.segments.get? span.2 = some b ∧ call = HorizontalSlice.emit s.y1 s.y2 a b)
      (s.iterate mask) (s.iterateSpans mask) := by
  unfold HorizontalSlice.iterate
  apply filterMap_forall2
  intro span hspan
  unfold HorizontalSlice.iterateSpans at hspan
  cases hseg : s.segments with
  | nil => rw [hseg] at hspan; simp at hspan
  | cons l rest =>
    rw [hseg] at hspan
    simp only at hspan
    have hb := spans_bounds mask rest 0 0 l.winding (by omega) span hspan
    have h2 : span.2 < (l :: rest).length := by simp only [List.length_cons]; omega
    have h1 : span.1 < (l :: rest).length := by omega
    refine ⟨_, ?_, hb.2.1, _, _, List.get?_eq_get h1, List.get?_eq_get h2, rfl⟩
    rw [List.get?_eq_get h1, List.get?_eq_get h2]

/-- C2. `HorizontalSlice::iterate` implements the two winding rules.  For a slice whose
segments all have winding `+1` or `-1` and whose windings sum to zero, with `W k` the sum of
the windings of the segments `0..k`: under `windingMask = -1` the gaps covered by an emitted
primitive are exactly those with `W k ≠ 0`, under `windingMask = 1` exactly those with `W k`
odd.  The last part says that the spans are the emitted primitives: every span `(s1, s2)`
lies inside the segment list and gives the one call made for the segments `s1` and `s2`. -/
theorem iterate_implements_winding_rules (s : HorizontalSlice)
    (hunit : ∀ l ∈ s.segments, l.winding = 1 ∨ l.winding = -1)
    (hzero : windingSum s.segments s.segments.length = 0) :
    (∀ k, gapCovered (s.iterateSpans (-1)) k ↔ windingSum s.segments (k + 1) ≠ 0) ∧
    (∀ k, gapCovered (s.iterateSpans 1) k ↔ windingSum s.segments (k + 1) % 2 = 1) ∧
    (∀ mask, List.Forall₂
      (fun call span => span.1 ≤ span.2 ∧ ∃ a b, s.segments.get? span.1 = some a ∧
        s.segments.get? span.2 = some b ∧ call = HorizontalSlice.emit s.y1 s.y2 a b)
      (s.iterate mask) (s.iterateSpans mask)) := by
  refine ⟨fun k => ?_, fun k => ?_, iterate_spans s⟩
  · rw [iterateSpans_covered s (-1) _ (by rw [hzero]; rfl) k, bitAnd_neg_one]
    intro l hl
    rw [bitAnd_neg_one]
    rcases hunit l (List.mem_of_mem_head? hl) with h | h <;> rw [h] <;> decide
  · rw [iterateSpans_covered s 1 _ (by rw [hzero]; rfl) k, bitAnd_one]
    · omega
    · intro l hl
      rw [bitAnd_one]
      rcases hunit l (List.mem_of_mem_head? hl) with h | h <;> rw [h] <;> decide

/-- Witness for C2: the slice `nestedSlice`. -/
theorem iterate_winding_rules_witness :
    (∀ l ∈ nestedSlice.segments, l.winding = 1 ∨ l.winding = -1) ∧
      windingSum nestedSlice.segments nestedSlice.segments.length = 0 ∧
      (∀ k, gapCovered (nestedSlice.iterateSpans (-1)) k ↔
        windingSum nestedSlice.segments (k + 1) ≠ 0) :=
  ⟨by decide, by decide,
    (iterate_implements_winding_rules nestedSlice (by decide) (by decide)).1⟩

theorem spans_agree : ∀ (rest : List LineSegment) (s1 s2 : Nat) (w : Int),
    (∀ j < rest.length, -1 ≤ w + windingSum rest (j + 1) ∧ w + windingSum rest (j + 1) ≤ 1) →
    HorizontalSlice.spans (-1) rest s1 s2 w = HorizontalSlice.spans 1 rest s1 s2 w
  | [], _, _, _, _ => rfl
  | l :: rest, s1, s2, w, h => by
    have h0 := h 0 (by simp)
    rw [windingSum_cons, windingSum_zero, add_zero] at h0
    have hrest : ∀ j < rest.length, -1 ≤ w + l.winding + windingSum rest (j + 1) ∧
        w + l.winding + windingSum rest (j + 1) ≤ 1 := by
      intro j hj
      have := h (j + 1) (by simp only [List.length_cons]; omega)
      rw [windingSum_cons, ← add_assoc] at this
      exact this
    have htest : bitAnd (w + l.winding) (-1) = 0 ↔ bitAnd (w + l.winding) 1 = 0 := by
      rw [bitAnd_neg_one, bitAnd_one]; omega
    unfold HorizontalSlice.spans
    by_cases hc : bitAnd (w + l.winding) (-1) = 0
    · rw [if_pos hc, if_pos (htest.1 hc), spans_agree rest _ _ _ hrest]
    · rw [if_neg hc, if_neg (fun h => hc (htest.2 h)), spans_agree rest _ _ _ hrest]

theorem iterate_agree (s : HorizontalSlice)
    (h : ∀ k < s.segments.length,
      -1 ≤ windingSum s.segments (k + 1) ∧ windingSum s.segments (k + 1) ≤ 1) :
    s.iterate (-1) = s.iterate 1 := by
  have hs : s.iterateSpans (-1) = s.iterateSpans 1 := by
    unfold HorizontalSlice.iterateSpans
    cases hseg : s.segments with
    | nil => rfl
    | cons l rest =>
      rw [hseg] at h
      simp only
      apply spans_agree
      intro j hj
      have := h (j + 1) (by simp only [List.length_cons]; omega)
      rw [windingSum_cons] at this
      exact this
  unfold HorizontalSlice.iterate
  rw [hs]

/-- C4. The two winding rules agree where no sub-contours overlap: on a chain in which
every sum of the first windings of every slice lies in `{-1, 0, 1}`, `iterate` makes the
same consumer calls in the same order under `windingMask = -1` and `windingMask = 1`, hence
the same total area. -/
theorem winding_rules_agree_on_simple_paths (chain : List HorizontalSlice)
    (h : ∀ s ∈ chain, ∀ k < s.segments.length,
      -1 ≤ windingSum s.segments (k + 1) ∧ windingSum s.segments (k + 1) ≤ 1) :
    TrapezoidedPath.iterate { firstSlice := chain, windingMask := -1 }
        = TrapezoidedPath.iterate { firstSlice := chain, windingMask := 1 }
      ∧ totalArea (TrapezoidedPath.iterate { firstSlice := chain, windingMask := -1 })
        = totalArea (TrapezoidedPath.iterate { firstSlice := chain, windingMask := 1 }) := by
  have heq : TrapezoidedPath.iterate { firstSlice := chain, windingMask := -1 }
      = TrapezoidedPath.iterate { firstSlice := chain, windingMask := 1 } := by
    unfold TrapezoidedPath.iterate
    simp only
    induction chain with
    | nil => rfl
    | cons s tail ih =>
      rw [List.flatMap_cons, List.flatMap_cons, iterate_agree s (h s (by simp)),
        ih (fun s hs => h s (by simp [hs]))]
  exact ⟨heq, by rw [heq]⟩

/-- Witness for C4: the chain of a rectangle. -/
theorem winding_rules_agree_witness :
    (∀ s ∈ [({ y1 := 0, y2 := 5, segments := [⟨0, 0, -1⟩, ⟨10, 10, 1⟩] } : HorizontalSlice)],
      ∀ k < s.segments.length,
        -1 ≤ windingSum s.segments (k + 1) ∧ windingSum s.segments (k + 1) ≤ 1) ∧
    TrapezoidedPath.iterate
        { firstSlice := [{ y1 := 0, y2 := 5, segments := [⟨0, 0, -1⟩, ⟨10, 10, 1⟩] }],
          windingMask := -1 }
      = TrapezoidedPath.iterate
        { firstSlice := [{ y1 := 0, y2 := 5, segments := [⟨0, 0, -1⟩, ⟨10, 10, 1⟩] }],
          windingMask := 1 } :=
  ⟨by decide, (winding_rules_agree_on_simple_paths _ (by decide)).1⟩

/-! ## Order of the slice chain -/

theorem chained_le : ∀ {chain : List HorizontalSlice} {lo hi : Int},
    Chained lo hi chain → lo ≤ hi
  | [], _, _, h => h
  | s :: tail, lo, hi, h => by
    have := chained_le h.2.2
    have h1 := h.1
    have h2 := h.2.1
    omega

theorem chained_mono : ∀ {chain : List HorizontalSlice} {lo hi lo2 hi2 : Int},
    Chained lo hi chain → lo2 ≤ lo → hi ≤ hi2 → Chained lo2 hi2 chain
  | [], lo, hi, lo2, hi2, h, h1, h2 => by
    have : lo ≤ hi := h
    show lo2 ≤ hi2
    omega
  | s :: tail, lo, hi, lo2, hi2, h, h1, h2 =>
    ⟨by have := h.1; omega, h.2.1, chained_mono h.2.2 (le_refl _) h2⟩

theorem chained_append : ∀ {front back : List HorizontalSlice} {lo mid hi : Int},
    Chained lo mid front → Chained mid hi back → Chained lo hi (front ++ back)
  | [], _, _, _, _, h1, h2 => chained_mono h2 h1 (le_refl _)
  | _ :: _, _, _, _, _, h1, h2 => ⟨h1.1, h1.2.1, chained_append h1.2.2 h2⟩

/-- A crossing reported by the loop of `HorizontalSlice::addLine` lies strictly inside the
slice. -/
theorem place_crossing (dy x1 x2 winding : Int) : ∀ (segments : List LineSegment)
    (iy ix : Int), HorizontalSlice.place dy x1 x2 winding segments = .crossing iy ix →
    0 < iy ∧ iy < dy
  | [], iy, ix, h => by simp [HorizontalSlice.place] at h
  | l :: rest, iy, ix, h => by
    unfold HorizontalSlice.place at h
    simp only at h
    split at h
    · rename_i y x hfound
      cases h
      split at hfound
      · split at hfound
        · split at hfound
          · rename_i hy
            cases hfound
            exact hy
          · cases hfound
        · cases hfound
      · cases hfound
    · split at h
      · cases h
      · split at h
        · rename_i y x hrec
          cases h
          exact place_crossing dy x1 x2 winding rest _ _ hrec
        · cases h

theorem split_fst_y (s : HorizontalSlice) (newY : Int) :
    (s.split newY).1.y1 = s.y1 ∧ (s.split newY).1.y2 = newY := ⟨rfl, rfl⟩

theorem split_snd_y (s : HorizontalSlice) (newY : Int) :
    (s.split newY).2.y1 = newY ∧ (s.split newY).2.y2 = s.y2 := ⟨rfl, rfl⟩

/-- The slices `HorizontalSlice::addLine` leaves in place of a slice `[y1, y2)` tile
`[y1, y2)`. -/
theorem addLineFuel_chained : ∀ (fuel : Nat) (s : HorizontalSlice) (x1 x2 winding : Int),
    s.y1 < s.y2 → Chained s.y1 s.y2 (HorizontalSlice.addLineFuel fuel s x1 x2 winding)
  | fuel, s, x1, x2, winding, hs => by
    unfold HorizontalSlice.addLineFuel
    split
    · exact ⟨le_refl _, hs, le_refl _⟩
    · rename_i iy ix hplace
      have hb := place_crossing _ _ _ _ _ _ _ hplace
      cases fuel with
      | zero => exact ⟨le_refl _, hs, le_refl _⟩
      | succ fuel =>
        simp only
        have h1 := addLineFuel_chained fuel (s.split (iy + s.y1)).1 x1 ix winding
          (by rw [(split_fst_y _ _).1, (split_fst_y _ _).2]; omega)
        have h2 := addLineFuel_chained fuel (s.split (iy + s.y1)).2 ix x2 winding
          (by rw [(split_snd_y _ _).1, (split_snd_y _ _).2]; omega)
        rw [(split_fst_y _ _).1, (split_fst_y _ _).2] at h1
        rw [(split_snd_y _ _).1, (split_snd_y _ _).2] at h2
        exact chained_append h1 h2

theorem addLine_chained (s : HorizontalSlice) (x1 x2 winding : Int) (hs : s.y1 < s.y2) :
    Chained s.y1 s.y2 (s.addLine x1 x2 winding) :=
  addLineFuel_chained _ s x1 x2 winding hs

/-- The recursion budget of `HorizontalSlice.addLine` is never used up: any budget of at
least the height of the slice gives the same result. -/
theorem addLineFuel_budget : ∀ (fuel1 fuel2 : Nat) (s : HorizontalSlice) (x1 x2 winding : Int),
    (s.y2 - s.y1).toNat ≤ fuel1 → (s.y2 - s.y1).toNat ≤ fuel2 →
    HorizontalSlice.addLineFuel fuel1 s x1 x2 winding
      = HorizontalSlice.addLineFuel fuel2 s x1 x2 winding
  | fuel1, fuel2, s, x1, x2, winding, h1, h2 => by
    unfold HorizontalSlice.addLineFuel
    split
    · rfl
    · rename_i iy ix hplace
      have hb := place_crossing _ _ _ _ _ _ _ hplace
      cases fuel1 with
      | zero => omega
      | succ fuel1 =>
        cases fuel2 with
        | zero => omega
        | succ fuel2 =>
          simp only
          rw [addLineFuel_budget fuel1 fuel2 (s.split (iy + s.y1)).1 x1 ix winding
              (by rw [(split_fst_y _ _).1, (split_fst_y _ _).2]; omega)
              (by rw [(split_fst_y _ _).1, (split_fst_y _ _).2]; omega),
            addLineFuel_budget fuel1 fuel2 (s.split (iy + s.y1)).2 ix x2 winding
              (by rw [(split_snd_y _ _).1, (split_snd_y _ _).2]; omega)
              (by rw [(split_snd_y _ _).1, (split_snd_y _ _).2]; omega)]

/-- No slice that `HorizontalSlice::addLine` leaves in place of `s` ends below `s`. -/
theorem addLineFuel_upper : ∀ (fuel : Nat) (s : HorizontalSlice) (x1 x2 winding : Int),
    ∀ piece ∈ HorizontalSlice.addLineFuel fuel s x1 x2 winding, piece.y2 ≤ s.y2
  | fuel, s, x1, x2, winding, piece, hp => by
    unfold HorizontalSlice.addLineFuel at hp
    split at hp
    · rw [List.mem_singleton] at hp
      rw [hp]
    · rename_i iy ix hplace
      have hb := place_crossing _ _ _ _ _ _ _ hplace
      cases fuel with
      | zero =>
        rw [List.mem_singleton] at hp
        rw [hp]
      | succ fuel =>
        simp only [List.mem_append] at hp
        rcases hp with hp | hp
        · have := addLineFuel_upper fuel _ _ _ _ piece hp
          rw [(split_fst_y _ _).2] at this
          omega
        · have := addLineFuel_upper fuel _ _ _ _ piece hp
          rw [(split_snd_y _ _).2] at this
          exact this

/-- `HorizontalSlice::addLine` leaves at least one slice and at most one per unit of
height. -/
theorem addLineFuel_length : ∀ (fuel : Nat) (s : HorizontalSlice) (x1 x2 winding : Int),
    1 ≤ (HorizontalSlice.addLineFuel fuel s x1 x2 winding).length ∧
      (HorizontalSlice.addLineFuel fuel s x1 x2 winding).length ≤ max 1 (s.y2 - s.y1).toNat
  | fuel, s, x1, x2, winding => by
    unfold HorizontalSlice.addLineFuel
    split
    · simp
    · rename_i iy ix hplace
      have hb := place_crossing _ _ _ _ _ _ _ hplace
      cases fuel with
      | zero => simp
      | succ fuel =>
        have h1 := addLineFuel_length fuel (s.split (iy + s.y1)).1 x1 ix winding
        have h2 := addLineFuel_length fuel (s.split (iy + s.y1)).2 ix x2 winding
        have e1 : (s.split (iy + s.y1)).1.y2 - (s.split (iy + s.y1)).1.y1 = iy := by
          show iy + s.y1 - s.y1 = iy
          omega
        have e2 : (s.split (iy + s.y1)).2.y2 - (s.split (iy + s.y1)).2.y1
            = s.y2 - s.y1 - iy := by
          show s.y2 - (iy + s.y1) = s.y2 - s.y1 - iy
          omega
        rw [e1] at h1
        rw [e2] at h2
        simp only [List.length_append]
        omega

theorem loop_skip (winding x2 y2 : Int) : ∀ (inserted : List HorizontalSlice) (budget : Nat)
    (before next : List HorizontalSlice) (x1 y1 : Int), y2 > y1 →
    (∀ p ∈ inserted, p.y2 ≤ y1) →
    TrapezoidedPath.loop winding x2 y2 (inserted.length + budget) before (inserted ++ next)
        x1 y1
      = TrapezoidedPath.loop winding x2 y2 budget (before ++ inserted) next x1 y1
  | [], budget, before, next, x1, y1, _, _ => by simp
  | p :: ps, budget, before, next, x1, y1, hy, hp => by
    have hlen : (p :: ps).length + budget = (ps.length + budget) + 1 := by
      simp only [List.length_cons]; omega
    have hpy : ¬ p.y2 > y1 := by have := hp p (by simp); omega
    rw [hlen, List.cons_append, TrapezoidedPath.loop, if_pos hy]
    simp only [hpy, if_false]
    rw [loop_skip winding x2 y2 ps budget (before ++ [p]) next x1 y1 hy
      (fun q hq => hp q (by simp [hq]))]
    simp


/-- The part of the loop body behind `jassert (y1 == s->y1)`, followed by the rest of the
loop, is `aligned`. -/
theorem loop_aligned (winding x2 y2 : Int) (s : HorizontalSlice)
    (next before : List HorizontalSlice) (x1 y1 : Int) (budget : Nat)
    (hs1 : s.y1 = y1) (hs2 : s.y2 > y1)
    (hbudget : 2 * next.length + (y2 - y1).toNat ≤ budget)
    (ih : ∀ (n : Nat) (before : List HorizontalSlice) (x1 y1 : Int),
      2 * next.length + (y2 - y1).toNat + 1 ≤ n →
      TrapezoidedPath.loop winding x2 y2 n before next x1 y1
        = before ++ TrapezoidedPath.walk winding x2 y2 next x1 y1) :
    (if y2 > s.y2 then
        match s.addLine x1 (x1 + Int.tdiv ((s.y2 - y1) * (x2 - x1)) (y2 - y1)) winding with
        | [] => before ++ next
        | first :: inserted =>
          TrapezoidedPath.loop winding x2 y2 budget (before ++ [first]) (inserted ++ next)
            (x1 + Int.tdiv ((s.y2 - y1) * (x2 - x1)) (y2 - y1)) s.y2
      else
        if y2 < s.y2 then
          before ++ ((s.split y2).1.addLine x1 x2 winding ++ (s.split y2).2 :: next)
        else
          before ++ (s.addLine x1 x2 winding ++ next))
      = before ++ TrapezoidedPath.aligned winding x2 y2 s next
          (fun a b => TrapezoidedPath.walk winding x2 y2 next a b) x1 y1 := by
  unfold TrapezoidedPath.aligned
  by_cases hbelow : y2 > s.y2
  · rw [if_pos hbelow, if_pos hbelow]
    have hlen := addLineFuel_length (s.y2 - s.y1).toNat s x1
      (x1 + Int.tdiv ((s.y2 - y1) * (x2 - x1)) (y2 - y1)) winding
    have hup := addLineFuel_upper (s.y2 - s.y1).toNat s x1
      (x1 + Int.tdiv ((s.y2 - y1) * (x2 - x1)) (y2 - y1)) winding
    unfold HorizontalSlice.addLine
    cases hpieces : HorizontalSlice.addLineFuel (s.y2 - s.y1).toNat s x1
        (x1 + Int.tdiv ((s.y2 - y1) * (x2 - x1)) (y2 - y1)) winding with
    | nil => rw [hpieces] at hlen; simp at hlen
    | cons first inserted =>
      rw [hpieces] at hlen hup
      simp only [List.length_cons] at hlen
      simp only
      obtain ⟨j, hj⟩ : ∃ j, budget = inserted.length + j :=
        ⟨budget - inserted.length, by omega⟩
      rw [hj, loop_skip winding x2 y2 inserted j _ next _ _ hbelow
        (fun p hp => hup p (by simp [hp])), ih j _ _ _ (by omega), hpieces]
      simp
  · rw [if_neg hbelow, if_neg hbelow]
    split <;> rfl

theorem loop_eq_walk (winding x2 y2 : Int) : ∀ (chain : List HorizontalSlice) (n : Nat)
    (before : List HorizontalSlice) (x1 y1 : Int),
    2 * chain.length + (y2 - y1).toNat + 1 ≤ n →
    TrapezoidedPath.loop winding x2 y2 n before chain x1 y1
      = before ++ TrapezoidedPath.walk winding x2 y2 chain x1 y1
  | [], n, before, x1, y1, hn => by
    obtain ⟨m, rfl⟩ : ∃ m, n = m + 1 := ⟨n - 1, by omega⟩
    rw [TrapezoidedPath.loop, TrapezoidedPath.walk]
    split <;> rfl
  | s :: next, n, before, x1, y1, hn => by
    have ih := loop_eq_walk winding x2 y2 next
    simp only [List.length_cons] at hn
    obtain ⟨m, rfl⟩ : ∃ m, n = m + 1 := ⟨n - 1, by omega⟩
    rw [TrapezoidedPath.loop, TrapezoidedPath.walk]
    by_cases hy : y2 > y1
    · rw [if_pos hy, if_pos hy]
      simp only
      by_cases hsy : s.y2 > y1
      · rw [if_pos hsy, if_pos hsy]
        by_cases hb : y1 < s.y1
        · rw [if_pos hb, if_pos hb]
          by_cases he : y2 ≤ s.y1
          · rw [if_pos he, if_pos he]
          · rw [if_neg he, if_neg he]
            obtain ⟨k, rfl⟩ : ∃ k, m = k + 1 := ⟨m - 1, by omega⟩
            have hy2 : y2 > s.y1 := by omega
            rw [TrapezoidedPath.loop, if_pos hy2]
            simp only
            by_cases hs : s.y2 > s.y1
            · rw [if_pos hs, if_pos hs, if_neg (lt_irrefl _)]
              simp only [gt_iff_lt, lt_self_iff_false, if_false]
              have := loop_aligned winding x2 y2 s next
                (before ++ [HorizontalSlice.single x1 y1
                  (x1 + Int.tdiv ((s.y1 - y1) * (x2 - x1)) (y2 - y1)) s.y1 winding])
                (x1 + Int.tdiv ((s.y1 - y1) * (x2 - x1)) (y2 - y1)) s.y1 k rfl hs
                (by omega) ih
              simp only [gt_iff_lt] at this
              rw [this]
              simp
            · rw [if_neg hs, if_neg hs, ih k _ _ _ (by omega)]
              simp
        · rw [if_neg hb, if_neg hb]
          by_cases hin : y1 > s.y1
          · simp only [if_pos hin]
            have := loop_aligned winding x2 y2 (s.split y1).2 next
              (before ++ [(s.split y1).1]) x1 y1 m rfl hsy (by omega) ih
            rw [this]
            simp
          · simp only [if_neg hin]
            exact loop_aligned winding x2 y2 s next before x1 y1 m (by omega) hsy
              (by omega) ih
      · rw [if_neg hsy, if_neg hsy, ih m _ _ _ (by omega)]
        simp
    · rw [if_neg hy, if_neg hy]

/-- `TrapezoidedPath::addLine` through the recursive form of its loop. -/
theorem addLine_eq_walk (t : TrapezoidedPath) (x1 y1 x2 y2 : Int) :
    t.addLine x1 y1 x2 y2
      = if y2 < y1 then
          { t with firstSlice := TrapezoidedPath.walk (-1) x1 y1 t.firstSlice x2 y2 }
        else
          { t with firstSlice := TrapezoidedPath.walk 1 x2 y2 t.firstSlice x1 y1 } := by
  unfold TrapezoidedPath.addLine
  split
  · simp only
    rw [loop_eq_walk _ _ _ _ _ _ _ _ (le_refl _)]
    rfl
  · simp only
    rw [loop_eq_walk _ _ _ _ _ _ _ _ (le_refl _)]
    rfl

theorem aligned_chained (winding x2 y2 : Int) (s : HorizontalSlice)
    (tail : List HorizontalSlice) (continueWith : Int → Int → List HorizontalSlice)
    (x1 y1 hi : Int) (hs : s.y1 < s.y2) (hy : s.y1 < y2) (htail : Chained s.y2 hi tail)
    (hcont : ∀ x, Chained s.y2 (max hi y2) (continueWith x s.y2)) :
    Chained s.y1 (max hi y2)
      (TrapezoidedPath.aligned winding x2 y2 s tail continueWith x1 y1) := by
  unfold TrapezoidedPath.aligned
  split
  · exact chained_append (addLine_chained s _ _ _ hs) (hcont _)
  · split
    · rename_i hlt
      have h1 := addLine_chained (s.split y2).1 x1 x2 winding
        (by rw [(split_fst_y _ _).1, (split_fst_y _ _).2]; exact hy)
      rw [(split_fst_y _ _).1, (split_fst_y _ _).2] at h1
      refine chained_append h1 ⟨?_, ?_, ?_⟩
      · rw [(split_snd_y _ _).1]
      · rw [(split_snd_y _ _).1, (split_snd_y _ _).2]; exact hlt
      · rw [(split_snd_y _ _).2]; exact chained_mono htail (le_refl _) (le_max_left _ _)
    · exact chained_append (addLine_chained s _ _ _ hs)
        (chained_mono htail (le_refl _) (le_max_left _ _))

theorem walk_chained (winding x2 y2 : Int) : ∀ (chain : List HorizontalSlice)
    (x1 y1 lo hi : Int), Chained lo hi chain → lo ≤ y1 →
    Chained lo (max hi y2) (TrapezoidedPath.walk winding x2 y2 chain x1 y1)
  | [], x1, y1, lo, hi, h, hlo => by
    unfold TrapezoidedPath.walk
    split
    · rename_i hy
      exact ⟨hlo, hy, le_max_right _ _⟩
    · exact chained_mono h (le_refl _) (le_max_left _ _)
  | s :: tail, x1, y1, lo, hi, h, hlo => by
    obtain ⟨hlos, hs, htail⟩ := h
    have hcont : ∀ x, Chained s.y2 (max hi y2)
        ((fun a b => TrapezoidedPath.walk winding x2 y2 tail a b) x s.y2) :=
      fun x => walk_chained winding x2 y2 tail x s.y2 s.y2 hi htail (le_refl _)
    unfold TrapezoidedPath.walk
    split
    · rename_i hy
      split
      · rename_i hsy
        split
        · rename_i hbefore
          split
          · rename_i hend
            exact ⟨hlo, hy, hend, hs, chained_mono htail (le_refl _) (le_max_left _ _)⟩
          · rename_i hend
            refine ⟨hlo, hbefore, ?_⟩
            show Chained s.y1 _ _
            exact aligned_chained winding x2 y2 s tail _ _ _ hi hs (by omega) htail hcont
        · split
          · rename_i hnb hinside
            refine ⟨hlos, hinside, ?_⟩
            have := aligned_chained winding x2 y2 (s.split y1).2 tail
              (fun a b => TrapezoidedPath.walk winding x2 y2 tail a b) x1 y1 hi
              (by rw [(split_snd_y _ _).1, (split_snd_y _ _).2]; exact hsy)
              (by rw [(split_snd_y _ _).1]; exact hy)
              (by rw [(split_snd_y _ _).2]; exact htail)
              (by rw [(split_snd_y _ _).2]; exact hcont)
            rw [(split_snd_y _ _).1] at this
            exact this
          · exact chained_mono
              (aligned_chained winding x2 y2 s tail _ _ _ hi hs (by omega) htail hcont)
              hlos (le_refl _)
      · rename_i hsy
        exact ⟨hlos, hs, walk_chained winding x2 y2 tail x1 y1 s.y2 hi htail (by omega)⟩
    · exact ⟨hlos, hs, chained_mono htail (le_refl _) (le_max_left _ _)⟩

/-- `TrapezoidedPath::addLine` keeps the chain ordered. -/
theorem addLine_chained_chain (t : TrapezoidedPath) (x1 y1 x2 y2 : Int)
    (h : ∃ lo hi, Chained lo hi t.firstSlice) :
    ∃ lo hi, Chained lo hi (t.addLine x1 y1 x2 y2).firstSlice := by
  obtain ⟨lo, hi, h⟩ := h
  rw [addLine_eq_walk]
  split
  · exact ⟨min lo y2, _, walk_chained _ _ _ _ _ _ _ _
      (chained_mono h (min_le_left _ _) (le_refl _)) (min_le_right _ _)⟩
  · exact ⟨min lo y1, _, walk_chained _ _ _ _ _ _ _ _
      (chained_mono h (min_le_left _ _) (le_refl _)) (min_le_right _ _)⟩

theorem addLines_chained : ∀ (lines : List Line) (t : TrapezoidedPath),
    (∃ lo hi, Chained lo hi t.firstSlice) →
    ∃ lo hi, Chained lo hi (t.addLines lines).firstSlice
  | [], _, h => h
  | l :: lines, t, h => by
    have := addLines_chained lines (t.addLine l.x1 l.y1 l.x2 l.y2)
      (addLine_chained_chain t _ _ _ _ h)
    simpa [TrapezoidedPath.addLines] using this

theorem chained_positive : ∀ {chain : List HorizontalSlice} {lo hi : Int},
    Chained lo hi chain → ∀ s ∈ chain, s.y1 < s.y2
  | [], _, _, _, s, hs => by simp at hs
  | a :: tail, _, _, h, s, hs => by
    rcases List.mem_cons.1 hs with rfl | hs
    · exact h.2.1
    · exact chained_positive h.2.2 s hs

theorem chained_successor : ∀ {chain : List HorizontalSlice} {lo hi : Int},
    Chained lo hi chain → ∀ (i : Nat) (a b : HorizontalSlice),
      chain.get? i = some a → chain.get? (i + 1) = some b → a.y2 ≤ b.y1
  | [], _, _, _, i, a, b, ha, _ => by simp at ha
  | [_], _, _, _, i, a, b, _, hb => by simp at hb
  | s :: t :: tail, _, _, h, 0, a, b, ha, hb => by
    simp only [List.get?_cons_zero, List.get?_cons_succ, Option.some.injEq] at ha hb
    subst ha hb
    exact h.2.2.1
  | s :: t :: tail, _, _, h, i + 1, a, b, ha, hb => by
    simp only [List.get?_cons_succ] at ha hb
    exact chained_successor h.2.2 i a b ha hb

/-- C1, as amended. After any sequence of `TrapezoidedPath::addLine` calls from the empty
chain, every slice has `y1 < y2` and ends at or before the start of its successor
(`y2 ≤ next.y1`): the chain is strictly increasing in y and has no overlaps.  (Gaps between
successive slices remain possible, see `slices_not_contiguous`.) -/
theorem slices_increasing_without_overlap (windingMask : Int) (lines : List Line) :
    (∀ s ∈ (TrapezoidedPath.addLines
        { firstSlice := [], windingMask := windingMask } lines).firstSlice, s.y1 < s.y2) ∧
    (∀ (i : Nat) (a b : HorizontalSlice),
      (TrapezoidedPath.addLines
        { firstSlice := [], windingMask := windingMask } lines).firstSlice.get? i = some a →
      (TrapezoidedPath.addLines
        { firstSlice := [], windingMask := windingMask } lines).firstSlice.get? (i + 1) = some b →
      a.y2 ≤ b.y1) := by
  obtain ⟨lo, hi, h⟩ := addLines_chained lines { firstSlice := [], windingMask := windingMask }
    ⟨0, 0, le_refl _⟩
  exact ⟨chained_positive h, chained_successor h⟩

/-- C1, counterexample to contiguity. The two lines `(0, 0) → (0, 10)` and
`(0, 20) → (0, 30)` leave the chain `[0, 10), [20, 30)`: the first slice ends at `10`,
its successor starts at `20`. -/
theorem slices_not_contiguous :
    ¬ (∀ (i : Nat) (a b : HorizontalSlice),
      (TrapezoidedPath.addLines { firstSlice := [], windingMask := -1 }
        [⟨0, 0, 0, 10⟩, ⟨0, 20, 0, 30⟩]).firstSlice.get? i = some a →
      (TrapezoidedPath.addLines { firstSlice := [], windingMask := -1 }
        [⟨0, 0, 0, 10⟩, ⟨0, 20, 0, 30⟩]).firstSlice.get? (i + 1) = some b →
      a.y2 = b.y1) := by
  intro h
  have := h 0 ⟨0, 10, [⟨0, 0, 1⟩]⟩ ⟨20, 30, [⟨0, 0, 1⟩]⟩ (by decide) (by decide)
  exact absurd this (by decide)

/-! ## Evaluation of the loop of `HorizontalSlice::addLine` -/

theorem wrap32_of_range (n : Int) (h : -2147483648 ≤ n ∧ n < 2147483648) : wrap32 n = n := by
  unfold wrap32
  omega

theorem place_nil (dy x1 x2 winding : Int) :
    HorizontalSlice.place dy x1 x2 winding [] = .placed [⟨x1, x2, winding⟩] := rfl

theorem place_cons_crossing (dy x1 x2 winding : Int) (l : LineSegment)
    (rest : List LineSegment) (h : crossesInside dy x1 x2 l) :
    HorizontalSlice.place dy x1 x2 winding (l :: rest)
      = .crossing (Int.tdiv (dy * (l.x1 - x1)) (x2 - x1 - (l.x2 - l.x1)))
          (x1 + Int.tdiv (wrap32 (Int.tdiv (dy * (l.x1 - x1)) (x2 - x1 - (l.x2 - l.x1))
            * (x2 - x1))) dy) := by
  obtain ⟨⟨h1, h2⟩, h3⟩ := h
  unfold HorizontalSlice.place
  simp only [h1, h2, h3, if_true, ne_eq, not_false_eq_true, and_self]

theorem place_cons_before (dy x1 x2 winding : Int) (l : LineSegment)
    (rest : List LineSegment) (h : ¬ crossesInside dy x1 x2 l)
    (hsum : l.x1 - x1 + (l.x2 - x2) > 0) :
    HorizontalSlice.place dy x1 x2 winding (l :: rest)
      = .placed (⟨x1, x2, winding⟩ :: l :: rest) := by
  unfold HorizontalSlice.place
  unfold crossesInside at h
  simp only
  split
  · rename_i iy ix hfound
    exfalso
    split at hfound
    · rename_i h1
      split at hfound
      · rename_i h2
        split at hfound
        · rename_i h3
          exact h ⟨⟨h1, h2⟩, h3⟩
        · cases hfound
      · cases hfound
    · cases hfound
  · rw [if_pos hsum]

theorem place_cons_after (dy x1 x2 winding : Int) (l : LineSegment)
    (rest segments : List LineSegment) (h : ¬ crossesInside dy x1 x2 l)
    (hsum : ¬ l.x1 - x1 + (l.x2 - x2) > 0)
    (hrest : HorizontalSlice.place dy x1 x2 winding rest = .placed segments) :
    HorizontalSlice.place dy x1 x2 winding (l :: rest) = .placed (l :: segments) := by
  unfold HorizontalSlice.place
  unfold crossesInside at h
  simp only
  split
  · rename_i iy ix hfound
    exfalso
    split at hfound
    · rename_i h1
      split at hfound
      · rename_i h2
        split at hfound
        · rename_i h3
          exact h ⟨⟨h1, h2⟩, h3⟩
        · cases hfound
      · cases hfound
    · cases hfound
  · rw [if_neg hsum, hrest]

theorem addLineFuel_placed (fuel : Nat) (y1 y2 x1 x2 winding : Int)
    (old new : List LineSegment)
    (h : HorizontalSlice.place (y2 - y1) x1 x2 winding old = .placed new) :
    HorizontalSlice.addLineFuel fuel { y1 := y1, y2 := y2, segments := old } x1 x2 winding
      = [{ y1 := y1, y2 := y2, segments := new }] := by
  unfold HorizontalSlice.addLineFuel
  simp only [h]

theorem addLineFuel_crossing (fuel : Nat) (s : HorizontalSlice) (x1 x2 winding iy ix : Int)
    (h : HorizontalSlice.place (s.y2 - s.y1) x1 x2 winding s.segments = .crossing iy ix) :
    HorizontalSlice.addLineFuel (fuel + 1) s x1 x2 winding
      = HorizontalSlice.addLineFuel fuel (s.split (iy + s.y1)).1 x1 ix winding
        ++ HorizontalSlice.addLineFuel fuel (s.split (iy + s.y1)).2 ix x2 winding := by
  rw [HorizontalSlice.addLineFuel]
  simp only [h]

/-! ## The rectangle -/

theorem walk_horizontal (winding x2 y : Int) (chain : List HorizontalSlice) (x1 : Int) :
    TrapezoidedPath.walk winding x2 y chain x1 y = chain := by
  cases chain <;> simp [TrapezoidedPath.walk]

/-- A vertical line over `[y0, y1)` added to the empty chain. -/
theorem walk_vertical_first (winding x y0 y1 : Int) (hy : y0 < y1) :
    TrapezoidedPath.walk winding x y1 [] x y0 = [HorizontalSlice.single x y0 x y1 winding] := by
  simp [TrapezoidedPath.walk, hy]

/-- A vertical line over `[y0, y1)` at `xb`, added to the one slice `[y0, y1)` holding a
vertical segment at `xa`, left of it. -/
theorem walk_vertical_right (wa wb xa xb y0 y1 : Int) (hx : xa < xb) (hy : y0 < y1) :
    TrapezoidedPath.walk wb xb y1 [HorizontalSlice.single xa y0 xa y1 wa] xb y0
      = [{ y1 := y0, y2 := y1, segments := [⟨xa, xa, wa⟩, ⟨xb, xb, wb⟩] }] := by
  have hplace : HorizontalSlice.place (y1 - y0) xb xb wb [⟨xa, xa, wa⟩]
      = .placed [⟨xa, xa, wa⟩, ⟨xb, xb, wb⟩] := by
    have h1 : xa - xb < 0 := by omega
    have h2 : ¬ (xa - xb > 0) := by omega
    have h3 : ¬ (xa - xb + (xa - xb) > 0) := by omega
    simp [HorizontalSlice.place, h1, h2, h3]
  simp [TrapezoidedPath.walk, TrapezoidedPath.aligned, HorizontalSlice.addLine, hy,
    HorizontalSlice.single]
  exact addLineFuel_placed _ _ _ _ _ _ _ _ hplace

theorem walk_vertical_left (wa wb xa xb y0 y1 : Int) (hx : xb < xa) (hy : y0 < y1) :
    TrapezoidedPath.walk wb xb y1 [HorizontalSlice.single xa y0 xa y1 wa] xb y0
      = [{ y1 := y0, y2 := y1, segments := [⟨xb, xb, wb⟩, ⟨xa, xa, wa⟩] }] := by
  have hplace : HorizontalSlice.place (y1 - y0) xb xb wb [⟨xa, xa, wa⟩]
      = .placed [⟨xb, xb, wb⟩, ⟨xa, xa, wa⟩] := by
    have h1 : ¬ (xa - xb < 0) := by omega
    have h2 : (xa - xb > 0) := by omega
    have h3 : (xa - xb + (xa - xb) > 0) := by omega
    simp [HorizontalSlice.place, h1, h2, h3]
  simp [TrapezoidedPath.walk, TrapezoidedPath.aligned, HorizontalSlice.addLine, hy,
    HorizontalSlice.single]
  exact addLineFuel_placed _ _ _ _ _ _ _ _ hplace

theorem rectanglePath_mod (x0 y0 x1 y1 : Int) (reversed : Bool) (start : Nat) :
    rectanglePath x0 y0 x1 y1 reversed start
      = rectanglePath x0 y0 x1 y1 reversed (start % 4) := by
  unfold rectanglePath
  have hlen : (if reversed then reversePath (rectangleEdges x0 y0 x1 y1)
      else rectangleEdges x0 y0 x1 y1).length = 4 := by
    cases reversed <;> rfl
  rw [← hlen, List.rotate_mod]

theorem rotate_four {α : Type} (a b c d : α) :
    [a, b, c, d].rotate 1 = [b, c, d, a] ∧ [a, b, c, d].rotate 2 = [c, d, a, b] ∧
      [a, b, c, d].rotate 3 = [d, a, b, c] :=
  ⟨rfl, rfl, rfl⟩

theorem rectangle_chain (x0 y0 x1 y1 : Int) (hx : x0 < x1) (hy : y0 < y1) (mask : Int)
    (reversed : Bool) (start : Nat) :
    (TrapezoidedPath.addLines { firstSlice := [], windingMask := mask }
        (rectanglePath x0 y0 x1 y1 reversed start))
      = { firstSlice := [{ y1 := y0, y2 := y1,
                           segments := [⟨x0, x0, if reversed then 1 else -1⟩,
                                        ⟨x1, x1, if reversed then -1 else 1⟩] }],
          windingMask := mask } := by
  rw [rectanglePath_mod]
  have hk : start % 4 < 4 := Nat.mod_lt _ (by decide)
  have h1 : ¬ y1 < y0 := by omega
  generalize start % 4 = k at hk
  cases reversed <;> interval_cases k <;>
    simp [rectanglePath, rectangleEdges, reversePath, TrapezoidedPath.addLines,
      addLine_eq_walk, walk_horizontal, h1, hy, walk_vertical_first _ _ _ _ hy,
      (rotate_four _ _ _ _).1, (rotate_four _ _ _ _).2.1, (rotate_four _ _ _ _).2.2,
      walk_vertical_left _ _ _ _ _ _ hx hy, walk_vertical_right _ _ _ _ _ _ hx hy]

theorem rectangle_area (x0 y0 x1 y1 : Int) (hx : x0 < x1) (hy : y0 < y1) :
    (ConsumerCall.addTrapezoid y0 y1 x0 x0 x1 x1).area = ((x1 - x0) * (y1 - y0) : Int) := by
  have hx' : (0 : ℚ) < (x1 : ℚ) - x0 := by exact_mod_cast sub_pos.2 hx
  have hy' : (0 : ℚ) < (y1 : ℚ) - y0 := by exact_mod_cast sub_pos.2 hy
  have hp : (0 : ℚ) < ((x1 : ℚ) - x0) * ((y1 : ℚ) - y0) := mul_pos hx' hy'
  simp only [ConsumerCall.area, triangleArea, sub_self, zero_mul, mul_zero, zero_sub, sub_zero,
    abs_neg]
  rw [abs_of_pos hp]
  have h2 : ((x0 : ℚ) - x1) * ((y0 : ℚ) - y1) = ((x1 : ℚ) - x0) * ((y1 : ℚ) - y0) := by ring
  rw [h2, abs_of_pos hp]
  push_cast
  ring

/-- C3. The four edges of an axis-aligned rectangle `x0 < x1`, `y0 < y1`, added in path
order in either direction and from any corner to the empty decomposer, give exactly one
slice, `[y0, y1)`, with the two vertical edges as its segments; under either winding mask
`iterate` makes exactly one call, `addTrapezoid (y0, y1, x0, x0, x1, x1)`, the trapezoid with
the corners `(x0, y0) (x1, y0) (x0, y1) (x1, y1)`, of area `(x1 - x0) * (y1 - y0)`. -/
theorem rectangle_yields_one_quad (x0 y0 x1 y1 : Int) (hx : x0 < x1) (hy : y0 < y1)
    (windingMask : Int) (hmask : windingMask = -1 ∨ windingMask = 1)
    (reversed : Bool) (start : Nat) :
    (∃ wl wr, (TrapezoidedPath.addLines { firstSlice := [], windingMask := windingMask }
        (rectanglePath x0 y0 x1 y1 reversed start)).firstSlice
          = [{ y1 := y0, y2 := y1, segments := [⟨x0, x0, wl⟩, ⟨x1, x1, wr⟩] }]) ∧
    (TrapezoidedPath.addLines { firstSlice := [], windingMask := windingMask }
        (rectanglePath x0 y0 x1 y1 reversed start)).iterate
      = [.addTrapezoid y0 y1 x0 x0 x1 x1] ∧
    (ConsumerCall.addTrapezoid y0 y1 x0 x0 x1 x1).values
      = [x0, y0, x0, y1, x1, y0, x1, y1, x0, y1, x1, y0] ∧
    totalArea ((TrapezoidedPath.addLines { firstSlice := [], windingMask := windingMask }
        (rectanglePath x0 y0 x1 y1 reversed start)).iterate)
      = ((x1 - x0) * (y1 - y0) : Int) := by
  have hne : x0 ≠ x1 := by omega
  have hit : (TrapezoidedPath.addLines { firstSlice := [], windingMask := windingMask }
        (rectanglePath x0 y0 x1 y1 reversed start)).iterate
      = [.addTrapezoid y0 y1 x0 x0 x1 x1] := by
    rw [rectangle_chain x0 y0 x1 y1 hx hy]
    rcases hmask with rfl | rfl <;> cases reversed <;>
      simp [TrapezoidedPath.iterate, HorizontalSlice.iterate, HorizontalSlice.iterateSpans,
        HorizontalSlice.spans, HorizontalSlice.emit, hne, bitAnd_neg_one, bitAnd_one]
  refine ⟨⟨_, _, congrArg TrapezoidedPath.firstSlice
    (rectangle_chain x0 y0 x1 y1 hx hy windingMask reversed start)⟩, hit, rfl, ?_⟩
  rw [hit]
  simp only [totalArea, List.map_cons, List.map_nil, List.sum_cons, List.sum_nil, add_zero]
  exact rectangle_area x0 y0 x1 y1 hx hy

/-- Witness for C3: the rectangle `[0, 10] × [0, 5]`, nonzero rule. -/
theorem rectangle_witness :
    (0 : Int) < 10 ∧ (0 : Int) < 5 ∧
    (TrapezoidedPath.addLines { firstSlice := [], windingMask := -1 }
        (rectanglePath 0 0 10 5 false 0)).iterate
      = [.addTrapezoid 0 5 0 0 10 10] :=
  ⟨by decide, by decide,
    (rectangle_yields_one_quad 0 0 10 5 (by decide) (by decide) (-1) (Or.inl rfl)
      false 0).2.1⟩

/-! ## The bowtie -/

theorem bowtie_place_diagonal (a b : Int) (ha : 0 < a) (hb : 0 < b)
    (hfit : 2 * a * b ≤ 2147483648) (winding : Int) :
    HorizontalSlice.place (2 * b - 0) (2 * a) 0 winding [⟨0, 2 * a, 1⟩, ⟨2 * a, 2 * a, -1⟩]
      = .crossing b a := by
  have hiy : Int.tdiv ((2 * b - 0) * (0 - 2 * a)) (0 - 2 * a - (2 * a - 0)) = b := by
    have h1 : (2 * b - 0) * (0 - 2 * a) = b * (-(4 * a)) := by ring
    have h2 : 0 - 2 * a - (2 * a - 0) = -(4 * a) := by ring
    rw [h1, h2]
    exact Int.mul_tdiv_cancel _ (by omega)
  have hix : 2 * a + Int.tdiv (wrap32 (b * (0 - 2 * a))) (2 * b - 0) = a := by
    have h1 : b * (0 - 2 * a) = (-a) * (2 * b) := by ring
    have h2 : 2 * b - 0 = 2 * b := by ring
    have hpos : 0 < a * b := mul_pos ha hb
    have hrange : -2147483648 ≤ b * (0 - 2 * a) ∧ b * (0 - 2 * a) < 2147483648 := by
      have e : b * (0 - 2 * a) = -(2 * a * b) := by ring
      have e2 : 2 * a * b = 2 * (a * b) := by ring
      rw [e]
      omega
    rw [wrap32_of_range _ hrange, h1, h2, Int.mul_tdiv_cancel _ (by omega)]
    ring
  have := place_cons_crossing (2 * b - 0) (2 * a) 0 winding ⟨0, 2 * a, 1⟩ [⟨2 * a, 2 * a, -1⟩]
    (by
      unfold crossesInside
      simp only
      rw [hiy]
      refine ⟨⟨?_, ?_⟩, ?_, ?_⟩ <;> omega)
  simp only at this
  rw [hiy, hix] at this
  exact this

theorem bowtie_split (a b : Int) (hb : 0 < b) :
    HorizontalSlice.split ⟨0, 2 * b, [⟨0, 2 * a, 1⟩, ⟨2 * a, 2 * a, -1⟩]⟩ (b + 0)
      = (⟨0, b, [⟨0, a, 1⟩, ⟨2 * a, 2 * a, -1⟩]⟩, ⟨b, 2 * b, [⟨a, 2 * a, 1⟩, ⟨2 * a, 2 * a, -1⟩]⟩) := by
  have h1 : Int.tdiv ((b - 0) * (2 * a - 0)) (2 * b - 0) = a := by
    have e1 : (b - 0) * (2 * a - 0) = a * (2 * b) := by ring
    have e2 : 2 * b - 0 = 2 * b := by ring
    rw [e1, e2]
    exact Int.mul_tdiv_cancel _ (by omega)
  have h2 : Int.tdiv ((b - 0) * (2 * a - 2 * a)) (2 * b - 0) = 0 := by
    rw [sub_self, mul_zero, Int.zero_tdiv]
  simp only [HorizontalSlice.split, List.map_cons, List.map_nil, h1, h2, add_zero, zero_add]

theorem bowtie_upper_diagonal (a b : Int) (ha : 0 < a) (winding : Int) :
    HorizontalSlice.place (b - 0) (2 * a) a winding [⟨0, a, 1⟩, ⟨2 * a, 2 * a, -1⟩]
      = .placed [⟨0, a, 1⟩, ⟨2 * a, a, winding⟩, ⟨2 * a, 2 * a, -1⟩] := by
  apply place_cons_after
  · unfold crossesInside; simp only; omega
  · simp only; omega
  · apply place_cons_before
    · unfold crossesInside; simp only; omega
    · simp only; omega

theorem bowtie_lower_diagonal (a b : Int) (ha : 0 < a) (winding : Int) :
    HorizontalSlice.place (2 * b - b) a 0 winding [⟨a, 2 * a, 1⟩, ⟨2 * a, 2 * a, -1⟩]
      = .placed [⟨a, 0, winding⟩, ⟨a, 2 * a, 1⟩, ⟨2 * a, 2 * a, -1⟩] := by
  apply place_cons_before
  · unfold crossesInside; simp only; omega
  · simp only; omega

theorem bowtie_upper_left (a b : Int) (ha : 0 < a) (winding : Int)
    (rest : List LineSegment) :
    HorizontalSlice.place (b - 0) 0 0 winding (⟨0, a, 1⟩ :: rest)
      = .placed (⟨0, 0, winding⟩ :: ⟨0, a, 1⟩ :: rest) := by
  apply place_cons_before
  · unfold crossesInside; simp only; omega
  · simp only; omega

theorem bowtie_lower_left (a b : Int) (ha : 0 < a) (winding : Int)
    (rest : List LineSegment) :
    HorizontalSlice.place (2 * b - b) 0 0 winding (⟨a, 0, 1⟩ :: rest)
      = .placed (⟨0, 0, winding⟩ :: ⟨a, 0, 1⟩ :: rest) := by
  apply place_cons_before
  · unfold crossesInside
    simp only
    have hiy : Int.tdiv ((2 * b - b) * (a - 0)) (0 - 0 - (0 - a)) = b := by
      have e1 : (2 * b - b) * (a - 0) = b * a := by ring
      have e2 : (0 : Int) - 0 - (0 - a) = a := by ring
      rw [e1, e2]
      exact Int.mul_tdiv_cancel _ (by omega)
    rw [hiy]
    omega
  · simp only; omega

theorem bowtie_right_edge (a b : Int) (ha : 0 < a) (winding : Int) :
    HorizontalSlice.place (2 * b - 0) (2 * a) (2 * a) winding [⟨0, 2 * a, 1⟩]
      = .placed [⟨0, 2 * a, 1⟩, ⟨2 * a, 2 * a, winding⟩] := by
  apply place_cons_after
  · unfold crossesInside; simp only; omega
  · simp only; omega
  · rfl

/-- The chain of the bowtie of width `2 * a` and height `2 * b`. -/
theorem bowtie_chain (a b : Int) (ha : 0 < a) (hb : 0 < b)
    (hfit : 2 * a * b ≤ 2147483648) (mask : Int) :
    TrapezoidedPath.addLines { firstSlice := [], windingMask := mask } (bowtie (2 * a) (2 * b))
      = { firstSlice :=
            [⟨0, b, [⟨0, 0, -1⟩, ⟨0, a, 1⟩, ⟨2 * a, a, 1⟩, ⟨2 * a, 2 * a, -1⟩]⟩,
             ⟨b, 2 * b, [⟨0, 0, -1⟩, ⟨a, 0, 1⟩, ⟨a, 2 * a, 1⟩, ⟨2 * a, 2 * a, -1⟩]⟩],
          windingMask := mask } := by
  have h2b : (0 : Int) < 2 * b := by omega
  have hn2b : ¬ (2 * b < 0) := by omega
  have hbb : b < 2 * b := by omega
  obtain ⟨n, hn⟩ : ∃ n, (2 * b - 0).toNat = n + 1 :=
    ⟨(2 * b - 0).toNat - 1, by omega⟩
  have hstep3 : HorizontalSlice.addLineFuel (2 * b - 0).toNat
      ⟨0, 2 * b, [⟨0, 2 * a, 1⟩, ⟨2 * a, 2 * a, -1⟩]⟩ (2 * a) 0 1
      = [⟨0, b, [⟨0, a, 1⟩, ⟨2 * a, a, 1⟩, ⟨2 * a, 2 * a, -1⟩]⟩,
         ⟨b, 2 * b, [⟨a, 0, 1⟩, ⟨a, 2 * a, 1⟩, ⟨2 * a, 2 * a, -1⟩]⟩] := by
    rw [hn, addLineFuel_crossing n _ _ _ _ b a (bowtie_place_diagonal a b ha hb hfit 1)]
    simp only [bowtie_split a b hb]
    rw [addLineFuel_placed _ _ _ _ _ _ _ _ (bowtie_upper_diagonal a b ha 1),
      addLineFuel_placed _ _ _ _ _ _ _ _ (bowtie_lower_diagonal a b ha 1)]
    rfl
  simp only [bowtie, TrapezoidedPath.addLines, List.foldl_cons, List.foldl_nil,
    addLine_eq_walk, h2b, hn2b, if_true, if_false, lt_self_iff_false]
  simp only [TrapezoidedPath.walk, TrapezoidedPath.aligned, HorizontalSlice.addLine,
    HorizontalSlice.single, gt_iff_lt, h2b, hbb, if_true, if_false, lt_self_iff_false,
    List.append_nil]
  rw [addLineFuel_placed _ _ _ _ _ _ _ _ (bowtie_right_edge a b ha (-1))]
  simp only [TrapezoidedPath.walk, TrapezoidedPath.aligned, HorizontalSlice.addLine,
    HorizontalSlice.single, gt_iff_lt, h2b, hbb, if_true, if_false, lt_self_iff_false,
    List.append_nil]
  rw [hstep3]
  have hx0 : (0 : Int) + Int.tdiv ((b - 0) * (0 - 0)) (2 * b - 0) = 0 := by
    rw [sub_self, mul_zero, Int.zero_tdiv, add_zero]
  simp only [TrapezoidedPath.walk, TrapezoidedPath.aligned, HorizontalSlice.addLine,
    HorizontalSlice.single, gt_iff_lt, h2b, hbb, hb, if_true, if_false, lt_self_iff_false,
    List.append_nil, hx0]
  rw [addLineFuel_placed _ _ _ _ _ _ _ _ (bowtie_upper_left a b ha (-1) _),
    addLineFuel_placed _ _ _ _ _ _ _ _ (bowtie_lower_left a b ha (-1) _)]
  rfl

theorem bowtie_iterate (a b : Int) (ha : 0 < a) (hb : 0 < b)
    (hfit : 2 * a * b ≤ 2147483648) (mask : Int) (hmask : mask = -1 ∨ mask = 1) :
    (TrapezoidedPath.addLines { firstSlice := [], windingMask := mask }
        (bowtie (2 * a) (2 * b))).iterate
      = [.addTriangle 0 0 0 b a b, .addTriangle (2 * a) 0 a b (2 * a) b,
         .addTriangle 0 b a b 0 (2 * b), .addTriangle a b (2 * a) b (2 * a) (2 * b)] := by
  have h1 : ¬ (0 = a) := by omega
  have h2 : ¬ (a = 2 * a) := by omega
  have h3 : ¬ (2 * a = a) := by omega
  rw [bowtie_chain a b ha hb hfit]
  rcases hmask with rfl | rfl <;>
    simp [TrapezoidedPath.iterate, HorizontalSlice.iterate, HorizontalSlice.iterateSpans,
      HorizontalSlice.spans, HorizontalSlice.emit, h1, h2, h3, bitAnd_neg_one, bitAnd_one]

/-- C6, as amended. For the bowtie `(0, 0) → (w, h) → (w, 0) → (0, h) → close` with
`w = 2 * a`, `h = 2 * b` even and positive, in the range of `int` (`2 * w` and `h` below
`2^31`, so that the sums and differences of coordinates fit) and with
`(h / 2) * w = 2 * a * b` at most `2^31`, the size up to which the 32-bit product
`intersectionY * dx2` of the crossing does not overflow: the chain is split at the height
`b` of the crossing into the slices `[0, b)` and `[b, 2 * b)`, and under both winding masks
`iterate` emits the same four triangles, the two triangles of the bowtie cut at the height
of the crossing, whose tips meet at the crossing `(a, b)`. -/
theorem bowtie_filled_alike_by_both_rules (a b : Int) (ha : 0 < a) (hb : 0 < b)
    (hfit : 4 * a < 2147483648 ∧ 2 * b < 2147483648 ∧ 2 * a * b ≤ 2147483648)
    (windingMask : Int) (hmask : windingMask = -1 ∨ windingMask = 1) :
    (TrapezoidedPath.addLines { firstSlice := [], windingMask := windingMask }
        (bowtie (2 * a) (2 * b))).firstSlice.map (fun s => (s.y1, s.y2))
      = [(0, b), (b, 2 * b)] ∧
    (TrapezoidedPath.addLines { firstSlice := [], windingMask := windingMask }
        (bowtie (2 * a) (2 * b))).iterate
      = [.addTriangle 0 0 0 b a b, .addTriangle (2 * a) 0 a b (2 * a) b,
         .addTriangle 0 b a b 0 (2 * b), .addTriangle a b (2 * a) b (2 * a) (2 * b)] := by
  refine ⟨?_, bowtie_iterate a b ha hb hfit.2.2 windingMask hmask⟩
  rw [bowtie_chain a b ha hb hfit.2.2]
  rfl

/-- Witness for C6: the bowtie of width and height `2`, even-odd rule. -/
theorem bowtie_witness :
    (0 : Int) < 1 ∧
    ((4 * 1 : Int) < 2147483648 ∧ (2 * 1 : Int) < 2147483648 ∧ (2 * 1 * 1 : Int) ≤ 2147483648) ∧
    (TrapezoidedPath.addLines { firstSlice := [], windingMask := 1 }
        (bowtie (2 * 1) (2 * 1))).iterate
      = [.addTriangle 0 0 0 1 1 1, .addTriangle (2 * 1) 0 1 1 (2 * 1) 1,
         .addTriangle 0 1 1 1 0 (2 * 1), .addTriangle 1 1 (2 * 1) 1 (2 * 1) (2 * 1)] :=
  ⟨by decide, by decide,
    (bowtie_filled_alike_by_both_rules 1 1 (by decide) (by decide) (by decide) 1
      (Or.inr rfl)).2⟩

/-- C6, counterexample. For the bowtie of width and height `4` the calls made under the
nonzero rule and under the even-odd rule are the same four triangles: the lists do not
differ at the crossing. -/
theorem bowtie_rules_do_not_differ :
    (TrapezoidedPath.ofLines true (bowtie 4 4)).iterate
        = (TrapezoidedPath.ofLines false (bowtie 4 4)).iterate
      ∧ (TrapezoidedPath.ofLines false (bowtie 4 4)).iterate
        = [.addTriangle 0 0 0 2 2 2, .addTriangle 4 0 2 2 4 2,
           .addTriangle 0 2 2 2 0 4, .addTriangle 2 2 4 2 4 4] := by
  decide

/-! ## Vertex blocks -/

theorem storeAll_fits : ∀ (vs : List GLfloat) (buffer : List GLfloat) (i : Nat),
    i + vs.length ≤ buffer.length →
    ∃ w, storeAll buffer i vs = some w ∧ w.length = buffer.length
  | [], buffer, i, _ => ⟨buffer, rfl, rfl⟩
  | v :: vs, buffer, i, h => by
    simp only [List.length_cons] at h
    have hi : i < buffer.length := by omega
    obtain ⟨w, hw, hl⟩ := storeAll_fits vs (buffer.set i v) (i + 1)
      (by simp only [List.length_set]; omega)
    refine ⟨w, ?_, by simpa using hl⟩
    simp [storeAll, storeAt, hi, hw]

theorem block_fresh_wf : TriangleBlock.fresh.WF :=
  ⟨rfl, Nat.zero_le _, List.length_replicate _ _⟩

theorem path_fresh_wf : TriangulatedPath.fresh.WF := by
  refine ⟨⟨[], TriangleBlock.fresh, rfl, rfl⟩, ?_⟩
  intro b hb
  have : b = TriangleBlock.fresh := by
    simpa [TriangulatedPath.fresh, TriangulatedPath.startNewBlock] using hb
  subst this
  exact block_fresh_wf

theorem startNewBlock_wf (p : TriangulatedPath) (h : ∀ b ∈ p.blocks, b.WF) :
    p.startNewBlock.WF := by
  refine ⟨⟨p.blocks, TriangleBlock.fresh, rfl, rfl⟩, ?_⟩
  intro b hb
  simp only [TriangulatedPath.startNewBlock, List.mem_append, List.mem_singleton] at hb
  rcases hb with hb | rfl
  · exact h b hb
  · exact block_fresh_wf

/-- Appending `vs` to a path whose last block `cur` is current and has room for them. -/
theorem append_fits (earlier : List TriangleBlock) (cur : TriangleBlock)
    (vs : List GLfloat) (hcur : cur.triangles.length = TriangleBlock.maxVerticesPerBlock)
    (hfit : cur.numVertices + vs.length ≤ TriangleBlock.maxVerticesPerBlock) :
    ∃ w, w.length = TriangleBlock.maxVerticesPerBlock ∧
      TriangulatedPath.append { blocks := earlier ++ [cur], currentBlock := earlier.length } vs
        = some { blocks := earlier ++ [{ numVertices := cur.numVertices + vs.length,
                                         triangles := w }],
                 currentBlock := earlier.length } := by
  obtain ⟨w, hw, hl⟩ := storeAll_fits vs cur.triangles cur.numVertices (by omega)
  refine ⟨w, by omega, ?_⟩
  simp [TriangulatedPath.append, hw]

theorem values_length {α : Type} (c : ConsumerCall α) :
    c.values.length = c.size := by
  cases c <;> rfl

/-- A call whose values fit behind those of the current (last) block `cur` is stored
there; otherwise a new block is started and receives them. -/
theorem call_last (earlier : List TriangleBlock) (cur : TriangleBlock)
    (c : ConsumerCall GLfloat) (hcur : cur.WF) :
    ∃ w, w.length = TriangleBlock.maxVerticesPerBlock ∧
      TriangulatedPath.call { blocks := earlier ++ [cur], currentBlock := earlier.length } c
        = some (if cur.numVertices + c.size ≤ TriangleBlock.maxVerticesPerBlock then
            { blocks := earlier ++ [{ numVertices := cur.numVertices + c.size,
                                      triangles := w }],
              currentBlock := earlier.length }
          else
            { blocks := (earlier ++ [cur]) ++ [{ numVertices := c.size, triangles := w }],
              currentBlock := earlier.length + 1 }) := by
  obtain ⟨h6, hmax, hlen⟩ := hcur
  have hM : TriangleBlock.maxVerticesPerBlock = 1536 := rfl
  by_cases hfit : cur.numVertices + c.size ≤ TriangleBlock.maxVerticesPerBlock
  · obtain ⟨w, hw, happ⟩ := append_fits earlier cur c.values hlen
      (by rw [values_length c]; exact hfit)
    refine ⟨w, hw, ?_⟩
    rw [if_pos hfit, ← values_length c, ← happ]
    cases c with
    | addTriangle x1 y1 x2 y2 x3 y3 =>
      have hlt : ¬ cur.numVertices ≥ TriangleBlock.maxVerticesPerBlock := by
        simp only [ConsumerCall.size] at hfit; omega
      simp [TriangulatedPath.call, TriangulatedPath.addTriangle, hlt, ConsumerCall.values]
    | addTrapezoid y1 y2 x1 x2 x3 x4 =>
      have hlt : ¬ TriangleBlock.maxVerticesPerBlock ≤ cur.numVertices + 6 := by
        simp only [ConsumerCall.size] at hfit; omega
      simp [TriangulatedPath.call, TriangulatedPath.addTrapezoid, hlt, ConsumerCall.values]
  · have hsz : c.size ≤ TriangleBlock.maxVerticesPerBlock := by
      cases c <;> simp [ConsumerCall.size, hM]
    obtain ⟨w, hw, happ⟩ := append_fits (earlier ++ [cur]) TriangleBlock.fresh
      c.values block_fresh_wf.2.2
      (by rw [values_length c]; simpa [TriangleBlock.fresh] using hsz)
    refine ⟨w, hw, ?_⟩
    rw [if_neg hfit]
    have happ2 : TriangulatedPath.append
        (TriangulatedPath.startNewBlock
          { blocks := earlier ++ [cur], currentBlock := earlier.length }) c.values
        = some { blocks := (earlier ++ [cur]) ++ [{ numVertices := c.size, triangles := w }],
                 currentBlock := earlier.length + 1 } := by
      have := happ
      simp only [TriangulatedPath.startNewBlock]
      rw [values_length c] at this
      simpa [TriangleBlock.fresh] using this
    rw [← happ2]
    cases c with
    | addTriangle x1 y1 x2 y2 x3 y3 =>
      have hge : cur.numVertices ≥ TriangleBlock.maxVerticesPerBlock := by
        simp only [ConsumerCall.size] at hfit; omega
      simp [TriangulatedPath.call, TriangulatedPath.addTriangle, hge, ConsumerCall.values]
    | addTrapezoid y1 y2 x1 x2 x3 x4 =>
      have hge : TriangleBlock.maxVerticesPerBlock ≤ cur.numVertices + 6 := by
        simp only [ConsumerCall.size] at hfit; omega
      simp [TriangulatedPath.call, TriangulatedPath.addTrapezoid, hge, ConsumerCall.values]

theorem call_wf (p : TriangulatedPath) (h : p.WF) (c : ConsumerCall GLfloat) :
    ∃ q, p.call c = some q ∧ q.WF ∧ q.totalVertices = p.totalVertices + c.size := by
  obtain ⟨⟨earlier, cur, hb, hc⟩, hall⟩ := h
  have hp : p = { blocks := earlier ++ [cur], currentBlock := earlier.length } := by
    cases p; simp_all
  subst hp
  have hearlier : ∀ b ∈ earlier, b.WF := fun b hb => hall b (by simp [hb])
  have hcur : cur.WF := hall cur (by simp)
  obtain ⟨w, hw, hcall⟩ := call_last earlier cur c hcur
  have hsz : c.size % 6 = 0 ∧ c.size ≤ TriangleBlock.maxVerticesPerBlock := by
    cases c <;> simp [ConsumerCall.size, TriangleBlock.maxVerticesPerBlock]
  refine ⟨_, hcall, ?_⟩
  split
  · rename_i hfit
    refine ⟨⟨⟨earlier, _, rfl, rfl⟩, ?_⟩, ?_⟩
    · intro b hb
      simp only [List.mem_append, List.mem_singleton] at hb
      rcases hb with hb | rfl
      · exact hearlier b hb
      · exact ⟨by have := hcur.1; simp only; omega, hfit, hw⟩
    · simp [TriangulatedPath.totalVertices]; omega
  · refine ⟨⟨⟨earlier ++ [cur], _, rfl, by simp⟩, ?_⟩, ?_⟩
    · intro b hb
      simp only [List.mem_append, List.mem_singleton] at hb
      rcases hb with (hb | rfl) | rfl
      · exact hearlier b hb
      · exact hcur
      · exact ⟨hsz.1, hsz.2, hw⟩
    · simp [TriangulatedPath.totalVertices]; omega

theorem calls_wf : ∀ (cs : List (ConsumerCall GLfloat)) (p : TriangulatedPath),
    p.WF → ∃ q, p.calls cs = some q ∧ q.WF ∧
      q.totalVertices = p.totalVertices + 6 * numTriangles cs + 12 * numTrapezoids cs
  | [], p, h => ⟨p, rfl, h, rfl⟩
  | c :: cs, p, h => by
    obtain ⟨q, hq, hwf, ht⟩ := call_wf p h c
    obtain ⟨r, hr, hrwf, hrt⟩ := calls_wf cs q hwf
    refine ⟨r, by simp [TriangulatedPath.calls, hq, hr], hrwf, ?_⟩
    rw [hrt, ht]
    cases c <;> simp [ConsumerCall.size, numTriangles, numTrapezoids] <;> omega

/-- C7. After any sequence of `addTriangle` and `addTrapezoid` calls on a freshly
constructed `TriangulatedPath`, in any interleaving, the sum of `numVertices` over all
blocks is `6 * T + 12 * Z` for `T` triangle calls and `Z` trapezoid calls. -/
theorem total_vertices_after_calls (cs : List (ConsumerCall GLfloat)) :
    ∃ p, TriangulatedPath.fresh.calls cs = some p ∧
      (p.blocks.map TriangleBlock.numVertices).sum
        = 6 * numTriangles cs + 12 * numTrapezoids cs := by
  obtain ⟨p, hp, _, ht⟩ := calls_wf cs TriangulatedPath.fresh path_fresh_wf
  refine ⟨p, hp, ?_⟩
  have h0 : TriangulatedPath.fresh.totalVertices = 0 := rfl
  rw [h0, Nat.zero_add] at ht
  exact ht

/-- C8. Vertex appends never overflow a block.  After any sequence `cs` of `addTriangle` and
`addTrapezoid` calls on a freshly constructed `TriangulatedPath` every write has landed
inside its heap block (the sequence yields a path `p`; a write at or beyond the allocation
would yield `none`), and every block has a multiple of 6 floats in use, at most
`maxVerticesPerBlock = 256 * 6 = 1536`, with all 1536 allocated.  A further call `c` keeps
this: when its values fit behind those of the current block `cur` they are stored there,
and when they would not fit a new block is started, receives them and becomes current. -/
theorem appends_never_overflow (cs : List (ConsumerCall GLfloat)) (c : ConsumerCall GLfloat) :
    ∃ p cur q, TriangulatedPath.fresh.calls cs = some p ∧
      p.blocks.get? p.currentBlock = some cur ∧ p.call c = some q ∧
      (∀ b ∈ p.blocks,
        b.numVertices % 6 = 0 ∧ b.numVertices ≤ 1536 ∧ b.triangles.length = 1536) ∧
      (∀ b ∈ q.blocks,
        b.numVertices % 6 = 0 ∧ b.numVertices ≤ 1536 ∧ b.triangles.length = 1536) ∧
      ∃ written, written.length = 1536 ∧
        q = (if cur.numVertices + c.size ≤ 1536 then
            { blocks := p.blocks.set p.currentBlock
                { numVertices := cur.numVertices + c.size, triangles := written },
              currentBlock := p.currentBlock }
          else
            { blocks := p.blocks ++ [{ numVertices := c.size, triangles := written }],
              currentBlock := p.blocks.length }) := by
  obtain ⟨p, hp, hwf, _⟩ := calls_wf cs TriangulatedPath.fresh path_fresh_wf
  obtain ⟨q, hq, hqwf, _⟩ := call_wf p hwf c
  obtain ⟨⟨earlier, cur, hb, hc⟩, hall⟩ := hwf
  have hpe : p = { blocks := earlier ++ [cur], currentBlock := earlier.length } := by
    cases p; simp_all
  have hcur : cur.WF := hall cur (by rw [hb]; simp)
  obtain ⟨w, hw, hcall⟩ := call_last earlier cur c hcur
  rw [← hpe, hq] at hcall
  refine ⟨p, cur, q, hp, ?_, hq, hall, hqwf.2, w, hw, ?_⟩
  · rw [hb, hc]; simp
  · rw [Option.some.inj hcall, hb, hc]
    have hM : TriangleBlock.maxVerticesPerBlock = 1536 := rfl
    rw [hM]
    split
    · simp
    · simp

/-! ## Oversampled drawing -/

theorem drawRow_eq (p : TriangulatedPath) (inc : GLfloat) : ∀ n : Nat,
    p.drawRow inc n = (List.replicate n (GLCall.glTranslatef inc 0 0 :: p.drawBlocks)).flatten
  | 0 => rfl
  | n + 1 => by
    simp [TriangulatedPath.drawRow, drawRow_eq p inc n, List.replicate_succ]

theorem drawRows_eq (p : TriangulatedPath) (N : Int) (inc : GLfloat) : ∀ n : Nat,
    p.drawRows N inc n = (List.replicate n
      ((List.replicate N.toNat (GLCall.glTranslatef inc 0 0 :: p.drawBlocks)).flatten
        ++ [GLCall.glTranslatef (-1) inc 0])).flatten
  | 0 => rfl
  | n + 1 => by
    simp [TriangulatedPath.drawRows, drawRows_eq p N inc n, List.replicate_succ, drawRow_eq]

theorem drawBlocks_isSubmission (p : TriangulatedPath) :
    p.drawBlocks.filter GLCall.isSubmission = p.drawBlocks := by
  rw [List.filter_eq_self]
  intro c hc
  simp only [TriangulatedPath.drawBlocks, List.mem_flatMap, TriangleBlock.draw] at hc
  obtain ⟨b, _, hb⟩ := hc
  simp at hb
  rcases hb with rfl | rfl <;> rfl

theorem drawBlocks_isColour (p : TriangulatedPath) :
    p.drawBlocks.filter GLCall.isColour = [] := by
  rw [List.filter_eq_nil_iff]
  intro c hc
  simp only [TriangulatedPath.drawBlocks, List.mem_flatMap, TriangleBlock.draw] at hc
  obtain ⟨b, _, hb⟩ := hc
  simp at hb
  rcases hb with rfl | rfl <;> simp [GLCall.isColour]

theorem drawBlocks_drawArrays (p : TriangulatedPath) :
    (p.drawBlocks.filter GLCall.isDrawArrays).length = p.blocks.length := by
  unfold TriangulatedPath.drawBlocks
  induction p.blocks with
  | nil => rfl
  | cons b bs ih =>
    simp [List.flatMap_cons, TriangleBlock.draw, List.filter_cons, GLCall.isDrawArrays] at ih ⊢
    simpa [TriangleBlock.draw] using ih

theorem flatten_replicate_replicate {α : Type} (l : List α) : ∀ m n : Nat,
    (List.replicate m (List.replicate n l).flatten).flatten
      = (List.replicate (m * n) l).flatten
  | 0, n => by simp
  | m + 1, n => by
    rw [List.replicate_succ, List.flatten_cons, flatten_replicate_replicate l m n,
      Nat.succ_mul, Nat.add_comm (m * n) n, List.replicate_add, List.flatten_append]

theorem length_flatten_replicate {α : Type} (l : List α) : ∀ n : Nat,
    (List.replicate n l).flatten.length = n * l.length
  | 0 => by simp
  | n + 1 => by
    rw [List.replicate_succ, List.flatten_cons, List.length_append,
      length_flatten_replicate l n, Nat.succ_mul, Nat.add_comm]

theorem filter_rows (f : GLCall → Bool) (blocks : List GLCall) (a b : GLCall)
    (ha : f a = false) (hb : f b = false) (m n : Nat) :
    (List.replicate m ((List.replicate n (a :: blocks)).flatten ++ [b])).flatten.filter f
      = (List.replicate (m * n) (blocks.filter f)).flatten := by
  rw [← flatten_replicate_replicate]
  simp [List.filter_flatten, List.map_replicate, List.filter_cons, ha, hb]

/-- C9. For an oversampling level `N ≥ 1`, `draw (N)` sets the fill colour once, with alpha
`1 / (N * N)`, and then makes `N` rows of `N` render passes, every pass being one
translation by `(1 / N, 0)` followed by the submission of every block once in block order:
`N * N` passes and `N * N * B` block submissions for `B` blocks. -/
theorem draw_issues_square_passes (p : TriangulatedPath) (oversamplingLevel : Int)
    (hN : 1 ≤ oversamplingLevel) :
    p.draw oversamplingLevel
        = .glColor4f 1 1 1 (1 / ((oversamplingLevel : ℚ) * (oversamplingLevel : ℚ))) ::
          .glTranslatef (-(1 / 2)) (-(1 / 2)) 0 ::
          (List.replicate oversamplingLevel.toNat
            ((List.replicate oversamplingLevel.toNat
                (GLCall.glTranslatef (1 / (oversamplingLevel : ℚ)) 0 0 :: p.drawBlocks)).flatten
              ++ [GLCall.glTranslatef (-1) (1 / (oversamplingLevel : ℚ)) 0])).flatten
      ∧ (p.draw oversamplingLevel).filter GLCall.isColour
        = [.glColor4f 1 1 1 (1 / ((oversamplingLevel : ℚ) * (oversamplingLevel : ℚ)))]
      ∧ (p.draw oversamplingLevel).filter GLCall.isSubmission
        = (List.replicate (oversamplingLevel.toNat * oversamplingLevel.toNat)
            p.drawBlocks).flatten
      ∧ ((p.draw oversamplingLevel).filter GLCall.isDrawArrays).length
        = oversamplingLevel.toNat * oversamplingLevel.toNat * p.blocks.length
      ∧ ((oversamplingLevel.toNat : Int) = oversamplingLevel) := by
  have hform : p.draw oversamplingLevel
        = .glColor4f 1 1 1 (1 / ((oversamplingLevel : ℚ) * (oversamplingLevel : ℚ))) ::
          .glTranslatef (-(1 / 2)) (-(1 / 2)) 0 ::
          (List.replicate oversamplingLevel.toNat
            ((List.replicate oversamplingLevel.toNat
                (GLCall.glTranslatef (1 / (oversamplingLevel : ℚ)) 0 0 :: p.drawBlocks)).flatten
              ++ [GLCall.glTranslatef (-1) (1 / (oversamplingLevel : ℚ)) 0])).flatten := by
    simp only [TriangulatedPath.draw, drawRows_eq, Int.cast_mul]
  refine ⟨hform, ?_, ?_, ?_, Int.toNat_of_nonneg (by omega)⟩
  · rw [hform, List.filter_cons, List.filter_cons, filter_rows _ _ _ _ rfl rfl,
      drawBlocks_isColour]
    simp [GLCall.isColour]
  · rw [hform, List.filter_cons, List.filter_cons, filter_rows _ _ _ _ rfl rfl,
      drawBlocks_isSubmission]
    simp [GLCall.isSubmission]
  · rw [hform, List.filter_cons, List.filter_cons, filter_rows _ _ _ _ rfl rfl]
    simp [GLCall.isDrawArrays, length_flatten_replicate, drawBlocks_drawArrays]

/-- Witness for C9: a path of one block drawn with oversampling level `2`. -/
theorem draw_passes_witness :
    (1 : Int) ≤ 2 ∧
    ((TriangulatedPath.fresh.draw 2).filter GLCall.isDrawArrays).length
      = (2 : Int).toNat * (2 : Int).toNat * TriangulatedPath.fresh.blocks.length :=
  ⟨by decide, (draw_issues_square_passes TriangulatedPath.fresh 2 (by decide)).2.2.2.1⟩

theorem submissionOrigins_drawBlocks (p : TriangulatedPath) (origin : GLfloat × GLfloat)
    (rest : List GLCall) :
    submissionOrigins (p.drawBlocks ++ rest) origin
      = List.replicate p.blocks.length origin ++ submissionOrigins rest origin := by
  unfold TriangulatedPath.drawBlocks
  induction p.blocks with
  | nil => rfl
  | cons b bs ih =>
    have hcons : (b :: bs).flatMap TriangleBlock.draw ++ rest
        = .glVertexPointer 2 0 b.triangles :: .glDrawArrays 0 (b.numVertices / 2) ::
            (bs.flatMap TriangleBlock.draw ++ rest) := by
      simp [List.flatMap_cons, TriangleBlock.draw]
    rw [hcons]
    simp only [submissionOrigins, List.length_cons, List.replicate_succ, List.cons_append]
    rw [ih]

theorem draw_one_form (p : TriangulatedPath) :
    p.draw 1 = .glColor4f 1 1 1 1 :: .glTranslatef (-(1 / 2)) (-(1 / 2)) 0 ::
      .glTranslatef 1 0 0 :: (p.drawBlocks ++ [.glTranslatef (-1) 1 0]) := by
  simp [TriangulatedPath.draw, TriangulatedPath.drawRows, TriangulatedPath.drawRow]

theorem draw_one_origins (p : TriangulatedPath) :
    submissionOrigins (p.draw 1) (0, 0)
      = List.replicate p.blocks.length (1 / 2, -(1 / 2)) := by
  rw [draw_one_form]
  simp only [submissionOrigins, submissionOrigins_drawBlocks, List.append_nil]
  norm_num

/-- C10, as amended. `draw (1)` sets the colour once with alpha `1`, submits every block
exactly once, and the translation accumulated at the moment of each submission is
`(1 / 2, -1 / 2)`: the initial translation `(-1 / 2, -1 / 2)` followed by one step
`(1 / N, 0) = (1, 0)`. -/
theorem draw_one_single_pass (p : TriangulatedPath) :
    (p.draw 1).filter GLCall.isColour = [.glColor4f 1 1 1 1]
      ∧ (p.draw 1).filter GLCall.isSubmission = p.drawBlocks
      ∧ submissionOrigins (p.draw 1) (0, 0) = List.replicate p.blocks.length (1 / 2, -(1 / 2)) := by
  refine ⟨?_, ?_, draw_one_origins p⟩
  · rw [draw_one_form]
    simp [List.filter_cons, GLCall.isColour, drawBlocks_isColour]
  · rw [draw_one_form]
    simp [List.filter_cons, GLCall.isSubmission, drawBlocks_isSubmission]

/-- C10, counterexample. For the path with one block, the translation accumulated when
`draw (1)` submits the block is not `(0, 0)`. -/
theorem draw_one_offset_not_zero :
    ¬ (submissionOrigins (TriangulatedPath.fresh.draw 1) (0, 0) = [((0 : GLfloat), (0 : GLfloat))]) := by
  rw [draw_one_origins]
  simp [TriangulatedPath.fresh, TriangulatedPath.startNewBlock]

/-! ## Storage optimisation -/

theorem block_optimiseStorage_length (b : TriangleBlock) :
    b.optimiseStorage.triangles.length = b.numVertices := by
  simp only [TriangleBlock.optimiseStorage, List.length_append, List.length_take,
    List.length_replicate]
  omega

theorem block_optimiseStorage_twice (b : TriangleBlock) :
    b.optimiseStorage.optimiseStorage = b.optimiseStorage := by
  have hlen := block_optimiseStorage_length b
  have hnv : b.optimiseStorage.numVertices = b.numVertices := rfl
  cases hb : b.optimiseStorage with
  | mk nv tr =>
    rw [hb] at hlen hnv
    simp only at hlen hnv
    subst hnv
    simp [TriangleBlock.optimiseStorage, hlen, List.take_of_length_le]

theorem block_optimiseStorage_keeps (b : TriangleBlock) (j : Nat) (v : GLfloat)
    (hj : j < b.numVertices) (hv : b.triangles.get? j = some v) :
    b.optimiseStorage.triangles.get? j = some v := by
  have hlt : j < b.triangles.length := by
    rcases List.get?_eq_some.1 hv with ⟨h, _⟩
    exact h
  simp only [TriangleBlock.optimiseStorage]
  rw [List.get?_eq_getElem?, List.getElem?_append_left (by simp; omega),
    List.getElem?_take_of_lt hj, ← List.get?_eq_getElem?]
  exact hv

/-- C11. `optimiseStorage` is idempotent and keeps the content: a second call in a row
returns the path of the first call (all blocks, their `numVertices`, their stored floats
and the size of the current block, which is its `numVertices`); the call is defined
exactly when `currentBlock` is a block of the path; and one call keeps the number of
blocks, the `numVertices` of every block and every stored float below `numVertices`. -/
theorem optimiseStorage_idempotent (p : TriangulatedPath) :
    p.optimiseStorage.bind TriangulatedPath.optimiseStorage = p.optimiseStorage ∧
    (p.optimiseStorage.isSome ↔ p.currentBlock < p.blocks.length) ∧
    ∀ q, p.optimiseStorage = some q →
      q.currentBlock = p.currentBlock ∧ q.blocks.length = p.blocks.length ∧
      q.blocks.map TriangleBlock.numVertices = p.blocks.map TriangleBlock.numVertices ∧
      (∀ c, q.blocks.get? q.currentBlock = some c → c.triangles.length = c.numVertices) ∧
      ∀ i b c, p.blocks.get? i = some b → q.blocks.get? i = some c →
        ∀ j v, j < b.numVertices → b.triangles.get? j = some v →
          c.triangles.get? j = some v := by
  unfold TriangulatedPath.optimiseStorage
  cases hcur : p.blocks.get? p.currentBlock with
  | none =>
    refine ⟨rfl, ?_, ?_⟩
    · have := List.get?_eq_none.1 hcur
      simp; omega
    · intro q hq; simp at hq
  | some cur =>
    have hlt : p.currentBlock < p.blocks.length := (List.get?_eq_some.1 hcur).1
    refine ⟨?_, ?_, ?_⟩
    · simp [hlt, block_optimiseStorage_twice]
    · simp [hlt]
    · intro q hq
      simp only [Option.map_some', Option.some.injEq] at hq
      subst hq
      have hget : ∀ i, (p.blocks.set p.currentBlock cur.optimiseStorage).get? i
          = (p.blocks.get? i).map TriangleBlock.optimiseStorage ∨
          (p.blocks.set p.currentBlock cur.optimiseStorage).get? i = p.blocks.get? i := by
        intro i
        by_cases hi : p.currentBlock = i
        · left
          subst hi
          rw [List.get?_eq_getElem?, List.getElem?_set_self hlt, hcur]
          rfl
        · right
          rw [List.get?_eq_getElem?, List.getElem?_set_ne hi, List.get?_eq_getElem?]
      refine ⟨rfl, by simp, ?_, ?_, ?_⟩
      · apply List.ext_get?
        intro n
        simp only [List.get?_eq_getElem?, List.getElem?_map]
        rcases hget n with h | h
        · simp only [List.get?_eq_getElem?] at h
          rw [h]; cases p.blocks[n]? <;> rfl
        · simp only [List.get?_eq_getElem?] at h
          rw [h]
      · intro c hc
        simp only at hc
        rw [List.get?_eq_getElem?, List.getElem?_set_self hlt] at hc
        cases hc
        exact block_optimiseStorage_length cur
      · intro i b c hb hc j v hj hv
        simp only at hc
        rcases hget i with h | h
        · rw [h, hb] at hc
          simp only [Option.map_some', Option.some.injEq] at hc
          subst hc
          exact block_optimiseStorage_keeps b j v hj hv
        · rw [h, hb] at hc
          cases hc
          exact hv

/-! ## Horizontal edges and edge direction -/

/-- C12. A horizontal edge is a no-op: for every slice chain and all `x1`, `x2`, `y` the
call `addLine (x1, y, x2, y)` returns the decomposer unchanged, so no slice is added,
split or modified. -/
theorem horizontal_edge_is_noop (t : TrapezoidedPath) (x1 x2 y : Int) :
    t.addLine x1 y x2 y = t := by
  rw [addLine_eq_walk, if_neg (lt_irrefl y), walk_horizontal]

theorem fill_ofSegment (w : Int) (l : LineSegment) :
    (SegmentTemplate.ofSegment l).fill w = l := rfl

theorem fill_ofSegments (w : Int) (segments : List LineSegment) :
    (segments.map SegmentTemplate.ofSegment).map (SegmentTemplate.fill w) = segments := by
  rw [List.map_map]
  exact List.map_id _

theorem fill_ofSlice (w : Int) (s : HorizontalSlice) :
    (SliceTemplate.ofSlice s).fill w = s := by
  cases s
  simp only [SliceTemplate.ofSlice, SliceTemplate.fill, fill_ofSegments]

theorem fill_ofSlices (w : Int) (chain : List HorizontalSlice) :
    (chain.map SliceTemplate.ofSlice).map (SliceTemplate.fill w) = chain := by
  rw [List.map_map]
  have : SliceTemplate.fill w ∘ SliceTemplate.ofSlice = id := funext (fill_ofSlice w)
  rw [this]
  exact List.map_id _

theorem kept_ofSegments : ∀ segments : List LineSegment,
    (segments.map SegmentTemplate.ofSegment).filterMap SegmentTemplate.kept = segments
  | [] => rfl
  | l :: rest => by
    rw [List.map_cons, List.filterMap_cons]
    simp only [SegmentTemplate.kept, SegmentTemplate.ofSegment, Option.map_some',
      kept_ofSegments rest]

theorem open_ofSegments : ∀ segments : List LineSegment,
    ((segments.map SegmentTemplate.ofSegment).filter fun l => l.winding.isNone) = []
  | [] => rfl
  | l :: rest => by
    rw [List.map_cons, List.filter_cons]
    simp only [SegmentTemplate.ofSegment, Option.isNone_some, Bool.false_eq_true, if_false,
      open_ofSegments rest]

theorem kept_ofSlice (s : HorizontalSlice) : (SliceTemplate.ofSlice s).kept = s := by
  cases s
  simp only [SliceTemplate.ofSlice, SliceTemplate.kept, kept_ofSegments]

theorem kept_ofSlices (chain : List HorizontalSlice) :
    (chain.map SliceTemplate.ofSlice).map SliceTemplate.kept = chain := by
  rw [List.map_map]
  have : SliceTemplate.kept ∘ SliceTemplate.ofSlice = id := funext kept_ofSlice
  rw [this]
  exact List.map_id _

theorem openSegments_ofSlice (s : HorizontalSlice) :
    (SliceTemplate.ofSlice s).openSegments = 0 := by
  simp only [SliceTemplate.openSegments, SliceTemplate.ofSlice, open_ofSegments,
    List.length_nil]

theorem inserted_append (a b : List SliceTemplate) :
    SliceTemplate.inserted (a ++ b) = SliceTemplate.inserted a + SliceTemplate.inserted b := by
  simp [SliceTemplate.inserted]

theorem inserted_cons (s : SliceTemplate) (b : List SliceTemplate) :
    SliceTemplate.inserted (s :: b)
      = (s.segments.filter fun l => l.winding.isNone).length + SliceTemplate.inserted b := by
  simp [SliceTemplate.inserted]

theorem refines_refl : ∀ chain : List HorizontalSlice, Refines chain chain
  | [] => .nil
  | s :: tail => .keep s (refines_refl tail)

theorem refines_append {a a2 : List HorizontalSlice} (h : Refines a a2) :
    ∀ {b b2 : List HorizontalSlice}, Refines b b2 → Refines (a ++ b) (a2 ++ b2) := by
  induction h with
  | nil => intro b b2 hb; exact hb
  | keep s _ ih => intro b b2 hb; exact .keep s (ih hb)
  | split s y h1 h2 _ ih => intro b b2 hb; exact .split s y h1 h2 (ih hb)
  | added p hp _ ih => intro b b2 hb; exact .added p hp (ih hb)

theorem place_cons_skip (dy x1 x2 winding : Int) (l : LineSegment)
    (rest : List LineSegment) (h : ¬ crossesInside dy x1 x2 l)
    (hsum : ¬ l.x1 - x1 + (l.x2 - x2) > 0) :
    HorizontalSlice.place dy x1 x2 winding (l :: rest)
      = match HorizontalSlice.place dy x1 x2 winding rest with
        | .crossing intersectionY intersectionX => .crossing intersectionY intersectionX
        | .placed segments => .placed (l :: segments) := by
  rw [HorizontalSlice.place]
  unfold crossesInside at h
  simp only
  split
  · rename_i iy ix hfound
    exfalso
    split at hfound
    · rename_i h1
      split at hfound
      · rename_i h2
        split at hfound
        · rename_i h3
          exact h ⟨⟨h1, h2⟩, h3⟩
        · cases hfound
      · cases hfound
    · cases hfound
  · rw [if_neg hsum]

/-- The loop of `HorizontalSlice::addLine` never reads a winding: it finds the same
crossing for every winding, or it stores the new segment at the same place for every
winding and keeps the segments of the slice as they are. -/
theorem place_template (dy x1 x2 : Int) : ∀ segments : List LineSegment,
    (∃ iy ix, ∀ w, HorizontalSlice.place dy x1 x2 w segments = .crossing iy ix) ∨
    (∃ T : List SegmentTemplate, (T.filter fun l => l.winding.isNone).length = 1 ∧
      T.filterMap SegmentTemplate.kept = segments ∧
      ∀ w, HorizontalSlice.place dy x1 x2 w segments = .placed (T.map (SegmentTemplate.fill w)))
  | [] => Or.inr ⟨[{ x1 := x1, x2 := x2, winding := none }], rfl, rfl, fun w => rfl⟩
  | l :: rest => by
    by_cases hc : crossesInside dy x1 x2 l
    · left
      exact ⟨_, _, fun w => place_cons_crossing dy x1 x2 w l rest hc⟩
    · by_cases hb : l.x1 - x1 + (l.x2 - x2) > 0
      · right
        refine ⟨{ x1 := x1, x2 := x2, winding := none } :: (l :: rest).map
          SegmentTemplate.ofSegment, ?_, ?_, fun w => ?_⟩
        · rw [List.filter_cons, open_ofSegments]
          rfl
        · rw [List.filterMap_cons, kept_ofSegments]
          rfl
        · rw [place_cons_before dy x1 x2 w l rest hc hb, List.map_cons, fill_ofSegments]
          rfl
      · rcases place_template dy x1 x2 rest with ⟨iy, ix, h⟩ | ⟨T, hT, hk, h⟩
        · left
          refine ⟨iy, ix, fun w => ?_⟩
          rw [place_cons_skip dy x1 x2 w l rest hc hb, h w]
        · right
          refine ⟨SegmentTemplate.ofSegment l :: T, ?_, ?_, fun w => ?_⟩
          · rw [List.filter_cons]
            simp only [SegmentTemplate.ofSegment, Option.isNone_some, Bool.false_eq_true,
              if_false]
            exact hT
          · rw [List.filterMap_cons]
            simp only [SegmentTemplate.kept, SegmentTemplate.ofSegment, Option.map_some', hk]
          · rw [place_cons_skip dy x1 x2 w l rest hc hb, h w]
            rfl

/-- The recursion of `HorizontalSlice::addLine` never reads a winding: its result is one
template filled with the winding.  Without its open segments the template is the slice
itself, split where the recursion split it; every slice of the template has at most one
open segment, and with a sufficient budget the template has one. -/
theorem addLineFuel_template : ∀ (fuel : Nat) (s : HorizontalSlice) (x1 x2 : Int),
    ∃ T : List SliceTemplate,
      Refines [s] (T.map SliceTemplate.kept) ∧ (∀ p ∈ T, p.openSegments ≤ 1) ∧
      ((s.y2 - s.y1).toNat ≤ fuel → 0 < SliceTemplate.inserted T) ∧
      ∀ w, HorizontalSlice.addLineFuel fuel s x1 x2 w = T.map (SliceTemplate.fill w)
  | fuel, s, x1, x2 => by
    rcases place_template (s.y2 - s.y1) x1 x2 s.segments with ⟨iy, ix, h⟩ | ⟨T, hT, hk, h⟩
    · have hb := place_crossing _ _ _ _ _ _ _ (h 0)
      cases fuel with
      | zero =>
        refine ⟨[SliceTemplate.ofSlice s], ?_, ?_, fun hf => by omega, fun w => ?_⟩
        · rw [List.map_cons, List.map_nil, kept_ofSlice]
          exact refines_refl _
        · intro p hp
          rw [List.mem_singleton] at hp
          rw [hp, openSegments_ofSlice]
          exact Nat.zero_le _
        · rw [HorizontalSlice.addLineFuel, h w]
          simp only [List.map_cons, List.map_nil, fill_ofSlice]
      | succ fuel =>
        obtain ⟨T1, hr1, ho1, hT1, h1⟩ :=
          addLineFuel_template fuel (s.split (iy + s.y1)).1 x1 ix
        obtain ⟨T2, hr2, ho2, _, h2⟩ := addLineFuel_template fuel (s.split (iy + s.y1)).2 ix x2
        refine ⟨T1 ++ T2, ?_, ?_, fun hf => ?_, fun w => ?_⟩
        · rw [List.map_append]
          exact .split s (iy + s.y1) (by omega) (by omega) (refines_append hr1 hr2)
        · intro p hp
          rcases List.mem_append.1 hp with hp | hp
          · exact ho1 p hp
          · exact ho2 p hp
        · rw [inserted_append]
          have := hT1 (by rw [(split_fst_y s _).1, (split_fst_y s _).2]; omega)
          omega
        · rw [addLineFuel_crossing fuel s x1 x2 w iy ix (h w), h1 w, h2 w, List.map_append]
    · refine ⟨[{ y1 := s.y1, y2 := s.y2, segments := T }], ?_, ?_, fun _ => ?_, fun w => ?_⟩
      · have hkept : SliceTemplate.kept { y1 := s.y1, y2 := s.y2, segments := T } = s := by
          cases s
          simp only [SliceTemplate.kept] at hk ⊢
          rw [hk]
        rw [List.map_cons, List.map_nil, hkept]
        exact refines_refl _
      · intro p hp
        rw [List.mem_singleton] at hp
        rw [hp, SliceTemplate.openSegments, hT]
      · rw [inserted_cons, hT]
        exact Nat.succ_pos _
      · rw [HorizontalSlice.addLineFuel, h w]
        rfl

theorem addLine_template (s : HorizontalSlice) (x1 x2 : Int) :
    ∃ T : List SliceTemplate,
      Refines [s] (T.map SliceTemplate.kept) ∧ (∀ p ∈ T, p.openSegments ≤ 1) ∧
      0 < SliceTemplate.inserted T ∧
      ∀ w, s.addLine x1 x2 w = T.map (SliceTemplate.fill w) := by
  obtain ⟨T, hr, ho, hT, h⟩ := addLineFuel_template (s.y2 - s.y1).toNat s x1 x2
  exact ⟨T, hr, ho, hT (le_refl _), h⟩

theorem aligned_template (x2 y2 : Int) (s : HorizontalSlice) (tail : List HorizontalSlice)
    (continueWith : Int → Int → Int → List HorizontalSlice) (x1 y1 : Int)
    (hlow : s.y1 < y2)
    (hcont : ∀ a b, ∃ T : List SliceTemplate,
      Refines tail (T.map SliceTemplate.kept) ∧ (∀ p ∈ T, p.openSegments ≤ 1) ∧
      ∀ w, continueWith w a b = T.map (SliceTemplate.fill w)) :
    ∃ T : List SliceTemplate,
      Refines (s :: tail) (T.map SliceTemplate.kept) ∧ (∀ p ∈ T, p.openSegments ≤ 1) ∧
      0 < SliceTemplate.inserted T ∧
      ∀ w, TrapezoidedPath.aligned w x2 y2 s tail (continueWith w) x1 y1
        = T.map (SliceTemplate.fill w) := by
  unfold TrapezoidedPath.aligned
  by_cases h1 : y2 > s.y2
  · obtain ⟨T, hr, ho, hT, h⟩ := addLine_template s x1
      (x1 + Int.tdiv ((s.y2 - y1) * (x2 - x1)) (y2 - y1))
    obtain ⟨C, hrC, hoC, hC⟩ :=
      hcont (x1 + Int.tdiv ((s.y2 - y1) * (x2 - x1)) (y2 - y1)) s.y2
    refine ⟨T ++ C, ?_, ?_, by rw [inserted_append]; omega, fun w => ?_⟩
    · rw [List.map_append]
      exact refines_append hr hrC
    · intro p hp
      rcases List.mem_append.1 hp with hp | hp
      · exact ho p hp
      · exact hoC p hp
    · rw [if_pos h1, List.map_append, ← h w, ← hC w]
  · by_cases h2 : y2 < s.y2
    · obtain ⟨T, hr, ho, hT, h⟩ := addLine_template (s.split y2).1 x1 x2
      refine ⟨T ++ ((s.split y2).2 :: tail).map SliceTemplate.ofSlice, ?_, ?_,
        by rw [inserted_append]; omega, fun w => ?_⟩
      · rw [List.map_append, kept_ofSlices]
        exact .split s y2 hlow h2 (refines_append hr (refines_refl _))
      · intro p hp
        rcases List.mem_append.1 hp with hp | hp
        · exact ho p hp
        · obtain ⟨q, _, rfl⟩ := List.mem_map.1 hp
          rw [openSegments_ofSlice]
          exact Nat.zero_le _
      · rw [if_neg h1, if_pos h2, List.map_append, fill_ofSlices, ← h w]
    · obtain ⟨T, hr, ho, hT, h⟩ := addLine_template s x1 x2
      refine ⟨T ++ tail.map SliceTemplate.ofSlice, ?_, ?_,
        by rw [inserted_append]; omega, fun w => ?_⟩
      · rw [List.map_append, kept_ofSlices]
        exact refines_append hr (refines_refl _)
      · intro p hp
        rcases List.mem_append.1 hp with hp | hp
        · exact ho p hp
        · obtain ⟨q, _, rfl⟩ := List.mem_map.1 hp
          rw [openSegments_ofSlice]
          exact Nat.zero_le _
      · rw [if_neg h1, if_neg h2, List.map_append, fill_ofSlices, ← h w]

theorem single_template (x1 y1 x2 y2 w : Int) :
    HorizontalSlice.single x1 y1 x2 y2 w
      = SliceTemplate.fill w { y1 := y1, y2 := y2, segments := [⟨x1, x2, none⟩] } := rfl

/-- The loop of `TrapezoidedPath::addLine` never reads the winding: its result is one
template filled with the winding.  Without its open segments the template is the chain
the loop started from, refined by the splits of the loop; every slice of the template has
at most one open segment, and the template has one when the loop is entered. -/
theorem walk_template (x2 y2 : Int) : ∀ (chain : List HorizontalSlice) (x1 y1 : Int),
    ∃ T : List SliceTemplate,
      Refines chain (T.map SliceTemplate.kept) ∧ (∀ p ∈ T, p.openSegments ≤ 1) ∧
      (y1 < y2 → 0 < SliceTemplate.inserted T) ∧
      ∀ w, TrapezoidedPath.walk w x2 y2 chain x1 y1 = T.map (SliceTemplate.fill w)
  | [], x1, y1 => by
    by_cases hy : y2 > y1
    · refine ⟨[{ y1 := y1, y2 := y2, segments := [⟨x1, x2, none⟩] }], ?_, ?_,
        fun _ => by simp [SliceTemplate.inserted], fun w => ?_⟩
      · exact .added _ rfl .nil
      · intro p hp
        rw [List.mem_singleton] at hp
        rw [hp]
        exact Nat.le_refl _
      · rw [TrapezoidedPath.walk, if_pos hy]
        rfl
    · refine ⟨[], .nil, fun p hp => by simp at hp, fun h => absurd h hy, fun w => ?_⟩
      rw [TrapezoidedPath.walk, if_neg hy]
      rfl
  | s :: tail, x1, y1 => by
    have hcont : ∀ a b, ∃ T : List SliceTemplate,
        Refines tail (T.map SliceTemplate.kept) ∧ (∀ p ∈ T, p.openSegments ≤ 1) ∧
        ∀ w, (fun w a b => TrapezoidedPath.walk w x2 y2 tail a b) w a b
          = T.map (SliceTemplate.fill w) := by
      intro a b
      obtain ⟨T, hr, ho, _, h⟩ := walk_template x2 y2 tail a b
      exact ⟨T, hr, ho, h⟩
    have hopen : ∀ (a b c d : Int) (p : SliceTemplate) (T : List SliceTemplate),
        (∀ q ∈ T, q.openSegments ≤ 1) →
        p ∈ ({ y1 := a, y2 := b, segments := [⟨c, d, none⟩] } : SliceTemplate) :: T →
        p.openSegments ≤ 1 := by
      intro a b c d p T hT hp
      rcases List.mem_cons.1 hp with rfl | hp
      · exact Nat.le_refl _
      · exact hT p hp
    have hkeep : ∀ (q : HorizontalSlice) (p : SliceTemplate) (T : List SliceTemplate),
        (∀ r ∈ T, r.openSegments ≤ 1) → p ∈ SliceTemplate.ofSlice q :: T →
        p.openSegments ≤ 1 := by
      intro q p T hT hp
      rcases List.mem_cons.1 hp with rfl | hp
      · rw [openSegments_ofSlice]; exact Nat.zero_le _
      · exact hT p hp
    by_cases hy : y2 > y1
    · by_cases h1 : s.y2 > y1
      · by_cases h2 : y1 < s.y1
        · by_cases h3 : y2 ≤ s.y1
          · refine ⟨{ y1 := y1, y2 := y2, segments := [⟨x1, x2, none⟩] } ::
              (s :: tail).map SliceTemplate.ofSlice, ?_, ?_, fun _ => ?_, fun w => ?_⟩
            · rw [List.map_cons, kept_ofSlices]
              exact .added _ rfl (refines_refl _)
            · intro p hp
              refine hopen _ _ _ _ p _ ?_ hp
              intro q hq
              obtain ⟨r, _, rfl⟩ := List.mem_map.1 hq
              rw [openSegments_ofSlice]
              exact Nat.zero_le _
            · rw [inserted_cons]; simp
            · rw [TrapezoidedPath.walk, if_pos hy, if_pos h1, if_pos h2, if_pos h3,
                List.map_cons, fill_ofSlices]
              rfl
          · by_cases h4 : s.y2 > s.y1
            · obtain ⟨T, hr, ho, _, h⟩ := aligned_template x2 y2 s tail
                (fun w a b => TrapezoidedPath.walk w x2 y2 tail a b)
                (x1 + Int.tdiv ((s.y1 - y1) * (x2 - x1)) (y2 - y1)) s.y1 (by omega) hcont
              refine ⟨{ y1 := y1, y2 := s.y1, segments := [⟨x1,
                x1 + Int.tdiv ((s.y1 - y1) * (x2 - x1)) (y2 - y1), none⟩] } :: T,
                ?_, fun p hp => hopen _ _ _ _ p _ ho hp, fun _ => ?_, fun w => ?_⟩
              · rw [List.map_cons]
                exact .added _ rfl hr
              · rw [inserted_cons]; simp
              · rw [TrapezoidedPath.walk, if_pos hy, if_pos h1, if_pos h2, if_neg h3]
                simp only
                rw [if_pos h4, List.map_cons, ← h w]
                rfl
            · obtain ⟨T, hr, ho, h⟩ := hcont
                (x1 + Int.tdiv ((s.y1 - y1) * (x2 - x1)) (y2 - y1)) s.y1
              refine ⟨{ y1 := y1, y2 := s.y1, segments := [⟨x1,
                x1 + Int.tdiv ((s.y1 - y1) * (x2 - x1)) (y2 - y1), none⟩] } ::
                SliceTemplate.ofSlice s :: T, ?_,
                fun p hp => hopen _ _ _ _ p _ (fun q hq => hkeep s q T ho hq) hp,
                fun _ => ?_, fun w => ?_⟩
              · rw [List.map_cons, List.map_cons, kept_ofSlice]
                exact .added _ rfl (.keep s hr)
              · rw [inserted_cons]; simp
              · rw [TrapezoidedPath.walk, if_pos hy, if_pos h1, if_pos h2, if_neg h3]
                simp only
                rw [if_neg h4, List.map_cons, List.map_cons, fill_ofSlice, ← h w]
                rfl
        · by_cases h3 : y1 > s.y1
          · obtain ⟨T, hr, ho, hT, h⟩ := aligned_template x2 y2 (s.split y1).2 tail
              (fun w a b => TrapezoidedPath.walk w x2 y2 tail a b) x1 y1
              (by rw [(split_snd_y s y1).1]; exact hy) hcont
            refine ⟨SliceTemplate.ofSlice (s.split y1).1 :: T, ?_,
              fun p hp => hkeep _ p T ho hp, fun _ => ?_, fun w => ?_⟩
            · rw [List.map_cons, kept_ofSlice]
              exact .split s y1 h3 h1 (.keep _ hr)
            · rw [inserted_cons]; omega
            · rw [TrapezoidedPath.walk, if_pos hy, if_pos h1, if_neg h2, if_pos h3]
              simp only
              rw [List.map_cons, fill_ofSlice, ← h w]
          · obtain ⟨T, hr, ho, hT, h⟩ := aligned_template x2 y2 s tail
              (fun w a b => TrapezoidedPath.walk w x2 y2 tail a b) x1 y1 (by omega) hcont
            refine ⟨T, hr, ho, fun _ => hT, fun w => ?_⟩
            rw [TrapezoidedPath.walk, if_pos hy, if_pos h1, if_neg h2, if_neg h3, ← h w]
      · obtain ⟨T, hr, ho, hT, h⟩ := walk_template x2 y2 tail x1 y1
        refine ⟨SliceTemplate.ofSlice s :: T, ?_, fun p hp => hkeep s p T ho hp,
          fun hlt => ?_, fun w => ?_⟩
        · rw [List.map_cons, kept_ofSlice]
          exact .keep s hr
        · rw [inserted_cons]
          have := hT hlt
          omega
        · rw [TrapezoidedPath.walk, if_pos hy, if_neg h1, List.map_cons, fill_ofSlice, ← h w]
    · refine ⟨(s :: tail).map SliceTemplate.ofSlice, ?_, ?_, fun h => absurd h hy,
        fun w => ?_⟩
      · rw [kept_ofSlices]
        exact refines_refl _
      · intro p hp
        obtain ⟨q, _, rfl⟩ := List.mem_map.1 hp
        rw [openSegments_ofSlice]
        exact Nat.zero_le _
      · rw [TrapezoidedPath.walk, if_neg hy, fill_ofSlices]

/-- C13. Edge direction only affects the winding sign.  For every slice chain and every
edge with `y1 ≠ y2` there is one chain of slices with some windings left open, such that:
`addLine (x1, y1, x2, y2)` leaves that chain with the open windings set to `+1` when
`y1 < y2` and to `-1` when `y2 < y1`; `addLine (x2, y2, x1, y1)` leaves the same chain
(same y ranges, same segment order, same x-endpoints, same windings of the other
segments) with the open windings negated; the open windings are those of the segments
the call inserts and no others, for without its open segments the chain is the chain
before the call, every slice of it kept as it was or split by `split`, and the slices it
has besides hold nothing but an open segment; every slice has at most one open segment,
and there is at least one in all. -/
theorem edge_direction_only_affects_winding (t : TrapezoidedPath) (x1 y1 x2 y2 : Int)
    (h : y1 ≠ y2) :
    ∃ template : List SliceTemplate, 0 < SliceTemplate.inserted template ∧
      (t.addLine x1 y1 x2 y2).firstSlice
        = template.map (SliceTemplate.fill (if y1 < y2 then 1 else -1)) ∧
      (t.addLine x2 y2 x1 y1).firstSlice
        = template.map (SliceTemplate.fill (if y1 < y2 then -1 else 1)) ∧
      (t.addLine x1 y1 x2 y2).windingMask = t.windingMask ∧
      (t.addLine x2 y2 x1 y1).windingMask = t.windingMask ∧
      Refines t.firstSlice (template.map SliceTemplate.kept) ∧
      ∀ p ∈ template, p.openSegments ≤ 1 := by
  rw [addLine_eq_walk, addLine_eq_walk]
  by_cases hlt : y1 < y2
  · obtain ⟨T, hr, ho, hT, hw⟩ := walk_template x2 y2 t.firstSlice x1 y1
    refine ⟨T, hT hlt, ?_⟩
    rw [if_neg (not_lt.2 (le_of_lt hlt)), if_pos hlt, if_pos hlt, if_pos hlt]
    exact ⟨hw 1, hw (-1), rfl, rfl, hr, ho⟩
  · have hgt : y2 < y1 := lt_of_le_of_ne (not_lt.1 hlt) (Ne.symm h)
    obtain ⟨T, hr, ho, hT, hw⟩ := walk_template x1 y1 t.firstSlice x2 y2
    refine ⟨T, hT hgt, ?_⟩
    rw [if_pos hgt, if_neg hlt, if_neg hlt, if_neg hlt]
    exact ⟨hw (-1), hw 1, rfl, rfl, hr, ho⟩

/-- Witness for C13: the edge `(3, 0) → (5, 10)` and its reverse, added to the chain of
the vertical edge `(0, 2) → (0, 6)`. -/
theorem edge_direction_witness :
    ∃ template : List SliceTemplate, 0 < SliceTemplate.inserted template ∧
      (TrapezoidedPath.addLine ⟨[⟨2, 6, [⟨0, 0, 1⟩]⟩], -1⟩ 3 0 5 10).firstSlice
        = template.map (SliceTemplate.fill (if (0 : Int) < 10 then 1 else -1)) ∧
      (TrapezoidedPath.addLine ⟨[⟨2, 6, [⟨0, 0, 1⟩]⟩], -1⟩ 5 10 3 0).firstSlice
        = template.map (SliceTemplate.fill (if (0 : Int) < 10 then -1 else 1)) ∧
      (TrapezoidedPath.addLine ⟨[⟨2, 6, [⟨0, 0, 1⟩]⟩], -1⟩ 3 0 5 10).windingMask = -1 ∧
      (TrapezoidedPath.addLine ⟨[⟨2, 6, [⟨0, 0, 1⟩]⟩], -1⟩ 5 10 3 0).windingMask = -1 ∧
      Refines [⟨2, 6, [⟨0, 0, 1⟩]⟩] (template.map SliceTemplate.kept) ∧
      ∀ p ∈ template, p.openSegments ≤ 1 :=
  edge_direction_only_affects_winding ⟨[⟨2, 6, [⟨0, 0, 1⟩]⟩], -1⟩ 3 0 5 10 (by decide)

/-! ## Assertions, divisors and termination of the decomposer -/

theorem splitSegments_eq (dy1 dy2 : Int) (h : dy2 ≠ 0) : ∀ segments : List LineSegment,
    HorizontalSlice.splitSegments dy1 dy2 segments
      = some (segments.map fun l => { l with x2 := l.x1 + Int.tdiv (dy1 * (l.x2 - l.x1)) dy2 },
          segments.map fun l => { l with x1 := l.x1 + Int.tdiv (dy1 * (l.x2 - l.x1)) dy2 })
  | [] => rfl
  | l :: rest => by
    simp [HorizontalSlice.splitSegments, checkedDiv, h, splitSegments_eq dy1 dy2 h rest]

theorem splitChecked_eq (s : HorizontalSlice) (newY : Int) (h1 : s.y1 < newY)
    (h2 : newY < s.y2) : s.splitChecked newY = some (s.split newY) := by
  unfold HorizontalSlice.splitChecked
  rw [if_pos ⟨h1, h2⟩, splitSegments_eq _ _ (by omega)]
  rfl

theorem placeChecked_eq (dy x1 x2 winding : Int) : ∀ segments : List LineSegment,
    HorizontalSlice.placeChecked dy x1 x2 winding segments
      = some (HorizontalSlice.place dy x1 x2 winding segments)
  | [] => rfl
  | l :: rest => by
    unfold HorizontalSlice.placeChecked HorizontalSlice.place
    simp only [placeChecked_eq dy x1 x2 winding rest]
    by_cases h1 : (l.x1 - x1 < 0 ↔ l.x2 - x2 > 0)
    · simp only [if_pos h1]
      by_cases h2 : x2 - x1 - (l.x2 - l.x1) ≠ 0
      · simp only [if_pos h2, checkedDiv, if_neg h2, Option.some_bind]
        by_cases h3 : Int.tdiv (dy * (l.x1 - x1)) (x2 - x1 - (l.x2 - l.x1)) > 0 ∧
            Int.tdiv (dy * (l.x1 - x1)) (x2 - x1 - (l.x2 - l.x1)) < dy
        · have hdy : ¬ dy = 0 := by omega
          simp only [if_pos h3, if_neg hdy, Option.map_some', Option.some_bind]
        · simp only [if_neg h3, Option.some_bind]
          split <;> rfl
      · simp only [if_neg h2, Option.some_bind]
        split <;> rfl
    · simp only [if_neg h1, Option.some_bind]
      split <;> rfl

/-- With a depth bound of at least the height of the slice, the checked
`HorizontalSlice::addLine` completes, and with the result of the embedding. -/
theorem addLineChecked_eq : ∀ (depth : Nat) (s : HorizontalSlice) (x1 x2 winding : Int),
    (s.y2 - s.y1).toNat ≤ depth →
    HorizontalSlice.addLineChecked depth s x1 x2 winding = some (s.addLine x1 x2 winding)
  | depth, s, x1, x2, winding, hd => by
    unfold HorizontalSlice.addLine
    rw [addLineFuel_budget _ depth s x1 x2 winding (le_refl _) hd]
    unfold HorizontalSlice.addLineChecked HorizontalSlice.addLineFuel
    rw [placeChecked_eq, Option.some_bind]
    cases hplace : HorizontalSlice.place (s.y2 - s.y1) x1 x2 winding s.segments with
    | placed segments => rfl
    | crossing iy ix =>
      have hb := place_crossing _ _ _ _ _ _ _ hplace
      cases depth with
      | zero => omega
      | succ depth =>
        simp only
        rw [splitChecked_eq s (iy + s.y1) (by omega) (by omega), Option.some_bind,
          addLineChecked_eq depth (s.split (iy + s.y1)).2 ix x2 winding
            (by rw [(split_snd_y _ _).1, (split_snd_y _ _).2]; omega),
          Option.some_bind,
          addLineChecked_eq depth (s.split (iy + s.y1)).1 x1 ix winding
            (by rw [(split_fst_y _ _).1, (split_fst_y _ _).2]; omega),
          Option.map_some']
        unfold HorizontalSlice.addLine
        rw [addLineFuel_budget _ depth (s.split (iy + s.y1)).1 x1 ix winding (le_refl _)
            (by rw [(split_fst_y _ _).1, (split_fst_y _ _).2]; omega),
          addLineFuel_budget _ depth (s.split (iy + s.y1)).2 ix x2 winding (le_refl _)
            (by rw [(split_snd_y _ _).1, (split_snd_y _ _).2]; omega)]

theorem loopChecked_skip (winding x2 y2 : Int) : ∀ (inserted : List HorizontalSlice)
    (budget : Nat) (before next : List HorizontalSlice) (x1 y1 : Int), y2 > y1 →
    (∀ p ∈ inserted, p.y2 ≤ y1) →
    TrapezoidedPath.loopChecked winding x2 y2 (inserted.length + budget) before
        (inserted ++ next) x1 y1
      = TrapezoidedPath.loopChecked winding x2 y2 budget (before ++ inserted) next x1 y1
  | [], budget, before, next, x1, y1, _, _ => by simp
  | p :: ps, budget, before, next, x1, y1, hy, hp => by
    have hlen : (p :: ps).length + budget = (ps.length + budget) + 1 := by
      simp only [List.length_cons]; omega
    have hpy : ¬ p.y2 > y1 := by have := hp p (by simp); omega
    rw [hlen, List.cons_append, TrapezoidedPath.loopChecked, if_pos hy]
    simp only [hpy, if_false]
    rw [loopChecked_skip winding x2 y2 ps budget (before ++ [p]) next x1 y1 hy
      (fun q hq => hp q (by simp [hq]))]
    simp

/-- The checked loop body behind the two `if`s on `y1` and `s->y1`, followed by the rest
of the loop, completes with `aligned`. -/
theorem loopChecked_aligned (winding x2 y2 : Int) (s : HorizontalSlice)
    (next before : List HorizontalSlice) (x1 y1 : Int) (budget : Nat)
    (hs1 : s.y1 = y1) (hs2 : s.y2 > y1) (hy : y2 > y1)
    (hbudget : 2 * next.length + (y2 - y1).toNat ≤ budget)
    (ih : ∀ (n : Nat) (before : List HorizontalSlice) (x1 y1 : Int),
      2 * next.length + (y2 - y1).toNat + 1 ≤ n →
      TrapezoidedPath.loopChecked winding x2 y2 n before next x1 y1
        = some (before ++ TrapezoidedPath.walk winding x2 y2 next x1 y1)) :
    (if y1 = s.y1 then
        if y2 > s.y2 then
          (checkedDiv ((s.y2 - y1) * (x2 - x1)) (y2 - y1)).bind fun q =>
            (s.addLineChecked (s.y2 - s.y1).toNat x1 (x1 + q) winding).bind fun
              | [] => none
              | first :: inserted =>
                TrapezoidedPath.loopChecked winding x2 y2 budget
                  (before ++ [first]) (inserted ++ next) (x1 + q) s.y2
        else
          (if y2 < s.y2 then
              (s.splitChecked y2).map fun halves => (halves.1, [halves.2])
            else some (s, [])).bind fun last =>
            if y2 = last.1.y2 then
              (last.1.addLineChecked (last.1.y2 - last.1.y1).toNat x1 x2 winding).map
                fun pieces => before ++ (pieces ++ (last.2 ++ next))
            else none
      else none)
      = some (before ++ TrapezoidedPath.aligned winding x2 y2 s next
          (fun a b => TrapezoidedPath.walk winding x2 y2 next a b) x1 y1) := by
  unfold TrapezoidedPath.aligned
  rw [if_pos hs1.symm]
  have hdiv : ¬ (y2 - y1 = 0) := by omega
  by_cases hbelow : y2 > s.y2
  · rw [if_pos hbelow, if_pos hbelow]
    simp only [checkedDiv, if_neg hdiv, Option.some_bind]
    rw [addLineChecked_eq _ _ _ _ _ (le_refl _), Option.some_bind]
    have hlen := addLineFuel_length (s.y2 - s.y1).toNat s x1
      (x1 + Int.tdiv ((s.y2 - y1) * (x2 - x1)) (y2 - y1)) winding
    have hup := addLineFuel_upper (s.y2 - s.y1).toNat s x1
      (x1 + Int.tdiv ((s.y2 - y1) * (x2 - x1)) (y2 - y1)) winding
    unfold HorizontalSlice.addLine
    cases hpieces : HorizontalSlice.addLineFuel (s.y2 - s.y1).toNat s x1
        (x1 + Int.tdiv ((s.y2 - y1) * (x2 - x1)) (y2 - y1)) winding with
    | nil => rw [hpieces] at hlen; simp at hlen
    | cons first inserted =>
      rw [hpieces] at hlen hup
      simp only [List.length_cons] at hlen
      simp only
      obtain ⟨j, hj⟩ : ∃ j, budget = inserted.length + j :=
        ⟨budget - inserted.length, by omega⟩
      rw [hj, loopChecked_skip winding x2 y2 inserted j _ next _ _ hbelow
        (fun p hp => hup p (by simp [hp])), ih j _ _ _ (by omega)]
      simp
  · rw [if_neg hbelow, if_neg hbelow]
    by_cases hlt : y2 < s.y2
    · rw [if_pos hlt, if_pos hlt, splitChecked_eq s y2 (by omega) hlt]
      simp only [Option.map_some', Option.some_bind]
      rw [if_pos (split_fst_y s y2).2.symm, addLineChecked_eq _ _ _ _ _ (le_refl _)]
      simp
    · rw [if_neg hlt, if_neg hlt]
      simp only [Option.some_bind]
      rw [if_pos (by omega), addLineChecked_eq _ _ _ _ _ (le_refl _)]
      simp

/-- With a budget of two iterations per slice and one per unit of height of the line the
checked loop completes, and with the result of the embedding. -/
theorem loopChecked_eq_walk (winding x2 y2 : Int) : ∀ (chain : List HorizontalSlice)
    (n : Nat) (before : List HorizontalSlice) (x1 y1 : Int),
    2 * chain.length + (y2 - y1).toNat + 1 ≤ n →
    TrapezoidedPath.loopChecked winding x2 y2 n before chain x1 y1
      = some (before ++ TrapezoidedPath.walk winding x2 y2 chain x1 y1)
  | [], n, before, x1, y1, hn => by
    obtain ⟨m, rfl⟩ : ∃ m, n = m + 1 := ⟨n - 1, by omega⟩
    rw [TrapezoidedPath.loopChecked, TrapezoidedPath.walk]
    by_cases hy : y2 > y1
    · simp [hy, HorizontalSlice.singleChecked]
    · simp [hy]
  | s :: next, n, before, x1, y1, hn => by
    have ih := loopChecked_eq_walk winding x2 y2 next
    simp only [List.length_cons] at hn
    obtain ⟨m, rfl⟩ : ∃ m, n = m + 1 := ⟨n - 1, by omega⟩
    rw [TrapezoidedPath.loopChecked, TrapezoidedPath.walk]
    by_cases hy : y2 > y1
    · rw [if_pos hy, if_pos hy]
      simp only
      by_cases hsy : s.y2 > y1
      · rw [if_pos hsy, if_pos hsy]
        by_cases hb : y1 < s.y1
        · rw [if_pos hb, if_pos hb]
          by_cases he : y2 ≤ s.y1
          · rw [if_pos he, if_pos he]
            simp [HorizontalSlice.singleChecked, hy]
          · rw [if_neg he, if_neg he]
            obtain ⟨k, rfl⟩ : ∃ k, m = k + 1 := ⟨m - 1, by omega⟩
            have hy2 : y2 > s.y1 := by omega
            have hdiv : ¬ (y2 - y1 = 0) := by omega
            have hb2 : s.y1 > y1 := hb
            simp only [checkedDiv, if_neg hdiv, Option.some_bind,
              HorizontalSlice.singleChecked, if_pos hb2]
            rw [TrapezoidedPath.loopChecked, if_pos hy2]
            by_cases hs : s.y2 > s.y1
            · rw [if_pos hs, if_pos hs, if_neg (lt_irrefl _)]
              simp only [gt_iff_lt, lt_self_iff_false, if_false, Option.some_bind]
              have := loopChecked_aligned winding x2 y2 s next
                (before ++ [HorizontalSlice.single x1 y1
                  (x1 + Int.tdiv ((s.y1 - y1) * (x2 - x1)) (y2 - y1)) s.y1 winding])
                (x1 + Int.tdiv ((s.y1 - y1) * (x2 - x1)) (y2 - y1)) s.y1 k rfl hs hy2
                (by omega) ih
              simp only [gt_iff_lt] at this
              rw [this]
              simp
            · rw [if_neg hs, if_neg hs, ih k _ _ _ (by omega)]
              simp
        · rw [if_neg hb, if_neg hb]
          by_cases hin : y1 > s.y1
          · simp only [if_pos hin]
            rw [splitChecked_eq s y1 hin hsy]
            simp only [Option.map_some', Option.some_bind, List.head?_cons]
            have := loopChecked_aligned winding x2 y2 (s.split y1).2 next
              (before ++ [(s.split y1).1]) x1 y1 m rfl hsy hy (by omega) ih
            rw [this]
            simp
          · simp only [if_neg hin, Option.some_bind]
            exact loopChecked_aligned winding x2 y2 s next before x1 y1 m (by omega) hsy hy
              (by omega) ih
      · rw [if_neg hsy, if_neg hsy, ih m _ _ _ (by omega)]
        simp
    · rw [if_neg hy, if_neg hy]

theorem addLineChecked_path_eq (t : TrapezoidedPath) (budget : Nat) (x1 y1 x2 y2 : Int)
    (h : 2 * t.firstSlice.length + (y2 - y1).natAbs + 1 ≤ budget) :
    t.addLineChecked budget x1 y1 x2 y2 = some (t.addLine x1 y1 x2 y2) := by
  rw [addLine_eq_walk]
  unfold TrapezoidedPath.addLineChecked
  split
  · rw [loopChecked_eq_walk _ _ _ _ _ _ _ _ (by omega)]
    rfl
  · rw [loopChecked_eq_walk _ _ _ _ _ _ _ _ (by omega)]
    rfl

theorem place_placed_ne_nil (dy x1 x2 winding : Int) : ∀ (segments new : List LineSegment),
    HorizontalSlice.place dy x1 x2 winding segments = .placed new → new ≠ []
  | [], new, h => by
    simp only [HorizontalSlice.place, Placement.placed.injEq] at h
    rw [← h]; simp
  | l :: rest, new, h => by
    unfold HorizontalSlice.place at h
    simp only at h
    split at h
    · cases h
    · split at h
      · cases h; simp
      · split at h
        · cases h
        · cases h; simp

theorem place_crossing_ne_nil (dy x1 x2 winding : Int) (segments : List LineSegment)
    (iy ix : Int) (h : HorizontalSlice.place dy x1 x2 winding segments = .crossing iy ix) :
    segments ≠ [] := by
  rintro rfl
  simp [HorizontalSlice.place] at h

theorem split_segments_ne_nil (s : HorizontalSlice) (newY : Int) (h : s.segments ≠ []) :
    (s.split newY).1.segments ≠ [] ∧ (s.split newY).2.segments ≠ [] := by
  simp [HorizontalSlice.split, h]

/-- Every slice `HorizontalSlice::addLine` leaves holds at least one segment. -/
theorem addLineFuel_segments_ne_nil : ∀ (fuel : Nat) (s : HorizontalSlice)
    (x1 x2 winding : Int),
    ∀ piece ∈ HorizontalSlice.addLineFuel fuel s x1 x2 winding, piece.segments ≠ []
  | fuel, s, x1, x2, winding, piece, hp => by
    unfold HorizontalSlice.addLineFuel at hp
    cases hplace : HorizontalSlice.place (s.y2 - s.y1) x1 x2 winding s.segments with
    | placed segments =>
      rw [hplace] at hp
      simp only [List.mem_singleton] at hp
      rw [hp]
      exact place_placed_ne_nil _ _ _ _ _ _ hplace
    | crossing iy ix =>
      rw [hplace] at hp
      have hs := place_crossing_ne_nil _ _ _ _ _ _ _ hplace
      cases fuel with
      | zero =>
        simp only [List.mem_singleton] at hp
        rw [hp]; exact hs
      | succ fuel =>
        simp only [List.mem_append] at hp
        rcases hp with hp | hp
        · exact addLineFuel_segments_ne_nil fuel _ _ _ _ piece hp
        · exact addLineFuel_segments_ne_nil fuel _ _ _ _ piece hp

theorem aligned_segments_ne_nil (winding x2 y2 : Int) (s : HorizontalSlice)
    (tail : List HorizontalSlice) (continueWith : Int → Int → List HorizontalSlice)
    (x1 y1 : Int) (hs : s.segments ≠ []) (htail : ∀ p ∈ tail, p.segments ≠ [])
    (hcont : ∀ a b, ∀ p ∈ continueWith a b, p.segments ≠ []) :
    ∀ p ∈ TrapezoidedPath.aligned winding x2 y2 s tail continueWith x1 y1,
      p.segments ≠ [] := by
  intro p hp
  unfold TrapezoidedPath.aligned at hp
  split at hp
  · rcases List.mem_append.1 hp with hp | hp
    · exact addLineFuel_segments_ne_nil _ _ _ _ _ p hp
    · exact hcont _ _ p hp
  · split at hp
    · rcases List.mem_append.1 hp with hp | hp
      · exact addLineFuel_segments_ne_nil _ _ _ _ _ p hp
      · rcases List.mem_cons.1 hp with rfl | hp
        · exact (split_segments_ne_nil s y2 hs).2
        · exact htail p hp
    · rcases List.mem_append.1 hp with hp | hp
      · exact addLineFuel_segments_ne_nil _ _ _ _ _ p hp
      · exact htail p hp

theorem walk_segments_ne_nil (winding x2 y2 : Int) : ∀ (chain : List HorizontalSlice)
    (x1 y1 : Int), (∀ p ∈ chain, p.segments ≠ []) →
    ∀ p ∈ TrapezoidedPath.walk winding x2 y2 chain x1 y1, p.segments ≠ []
  | [], x1, y1, _, p, hp => by
    unfold TrapezoidedPath.walk at hp
    split at hp
    · simp only [List.mem_singleton] at hp
      rw [hp]; simp [HorizontalSlice.single]
    · simp at hp
  | s :: tail, x1, y1, h, p, hp => by
    have hs : s.segments ≠ [] := h s (by simp)
    have htail : ∀ p ∈ tail, p.segments ≠ [] := fun p hp => h p (by simp [hp])
    have hcont : ∀ a b, ∀ p ∈ (fun a b => TrapezoidedPath.walk winding x2 y2 tail a b) a b,
        p.segments ≠ [] := fun a b => walk_segments_ne_nil winding x2 y2 tail a b htail
    unfold TrapezoidedPath.walk at hp
    split at hp
    · split at hp
      · split at hp
        · split at hp
          · rcases List.mem_cons.1 hp with rfl | hp
            · simp [HorizontalSlice.single]
            · exact h p hp
          · rcases List.mem_cons.1 hp with rfl | hp
            · simp [HorizontalSlice.single]
            · split at hp
              · exact aligned_segments_ne_nil _ _ _ _ _ _ _ _ hs htail hcont p hp
              · rcases List.mem_cons.1 hp with rfl | hp
                · exact hs
                · exact hcont _ _ p hp
        · split at hp
          · rcases List.mem_cons.1 hp with rfl | hp
            · exact (split_segments_ne_nil s y1 hs).1
            · exact aligned_segments_ne_nil _ _ _ _ _ _ _ _ (split_segments_ne_nil s y1 hs).2
                htail hcont p hp
          · exact aligned_segments_ne_nil _ _ _ _ _ _ _ _ hs htail hcont p hp
      · rcases List.mem_cons.1 hp with rfl | hp
        · exact hs
        · exact hcont _ _ p hp
    · exact h p hp

theorem addLine_segments_ne_nil (t : TrapezoidedPath) (x1 y1 x2 y2 : Int)
    (h : ∀ p ∈ t.firstSlice, p.segments ≠ []) :
    ∀ p ∈ (t.addLine x1 y1 x2 y2).firstSlice, p.segments ≠ [] := by
  rw [addLine_eq_walk]
  split
  · exact walk_segments_ne_nil _ _ _ _ _ _ h
  · exact walk_segments_ne_nil _ _ _ _ _ _ h

theorem addLines_segments_ne_nil : ∀ (lines : List Line) (t : TrapezoidedPath),
    (∀ p ∈ t.firstSlice, p.segments ≠ []) →
    ∀ p ∈ (t.addLines lines).firstSlice, p.segments ≠ []
  | [], _, h => h
  | l :: lines, t, h => by
    have := addLines_segments_ne_nil lines (t.addLine l.x1 l.y1 l.x2 l.y2)
      (addLine_segments_ne_nil t _ _ _ _ h)
    simpa [TrapezoidedPath.addLines] using this

theorem addLinesChecked_eq : ∀ (lines : List Line) (t : TrapezoidedPath),
    t.addLinesChecked lines = some (t.addLines lines)
  | [], _ => rfl
  | l :: lines, t => by
    rw [TrapezoidedPath.addLinesChecked, addLineChecked_path_eq t _ _ _ _ _ (le_refl _),
      Option.some_bind, addLinesChecked_eq lines]
    rfl

theorem iterateSlicesChecked_eq (mask : Int) : ∀ chain : List HorizontalSlice,
    (∀ p ∈ chain, p.segments ≠ []) →
    TrapezoidedPath.iterateSlicesChecked mask chain
      = some (chain.flatMap fun s => s.iterate mask)
  | [], _ => rfl
  | s :: next, h => by
    have hs : s.segments.length > 0 := List.length_pos.2 (h s (by simp))
    rw [TrapezoidedPath.iterateSlicesChecked, HorizontalSlice.iterateChecked, if_pos hs,
      Option.some_bind, iterateSlicesChecked_eq mask next (fun p hp => h p (by simp [hp]))]
    simp

/-- C15. The decomposer never fails on well-formed input: starting from the empty chain,
every sequence of `addLine` calls runs through with no assertion violated and no zero
divisor (the checked run returns the chain of the unchecked one), and the `iterate` that
follows meets `jassert (segments.size () > 0)` on every slice. -/
theorem decomposer_never_fails (windingMask : Int) (lines : List Line) :
    ∃ t, TrapezoidedPath.addLinesChecked { firstSlice := [], windingMask := windingMask } lines
        = some t ∧
      t = TrapezoidedPath.addLines { firstSlice := [], windingMask := windingMask } lines ∧
      t.iterateChecked = some t.iterate := by
  refine ⟨_, addLinesChecked_eq lines _, rfl, ?_⟩
  unfold TrapezoidedPath.iterateChecked TrapezoidedPath.iterate
  exact iterateSlicesChecked_eq _ _
    (addLines_segments_ne_nil lines _ (fun p hp => by simp at hp))

/-- C16. Decomposition terminates.  For every slice chain and every edge the loop of
`TrapezoidedPath::addLine` is through after at most two iterations per slice and one per
unit of height of the edge, plus one.  `HorizontalSlice::addLine` on a slice `s` completes
with its recursive calls nested no deeper than the height of `s`: when its loop finds a
crossing, the split it asks for is legal and both recursive calls (on the shortened slice
and on the split-off successor) are on a slice of height at least 1 and less than the
height of `s`. -/
theorem decomposition_terminates (t : TrapezoidedPath) (x1 y1 x2 y2 : Int)
    (s : HorizontalSlice) (a b winding : Int) :
    (∀ budget, 2 * t.firstSlice.length + (y2 - y1).natAbs + 1 ≤ budget →
      t.addLineChecked budget x1 y1 x2 y2 = some (t.addLine x1 y1 x2 y2)) ∧
    (∀ depth, (s.y2 - s.y1).toNat ≤ depth →
      HorizontalSlice.addLineChecked depth s a b winding = some (s.addLine a b winding)) ∧
    (∀ iy ix, HorizontalSlice.placeChecked (s.y2 - s.y1) a b winding s.segments
        = some (.crossing iy ix) →
      ∃ halves, s.splitChecked (iy + s.y1) = some halves ∧
        1 ≤ halves.1.y2 - halves.1.y1 ∧ halves.1.y2 - halves.1.y1 < s.y2 - s.y1 ∧
        1 ≤ halves.2.y2 - halves.2.y1 ∧ halves.2.y2 - halves.2.y1 < s.y2 - s.y1) := by
  refine ⟨fun budget h => addLineChecked_path_eq t budget x1 y1 x2 y2 h,
    fun depth h => addLineChecked_eq depth s a b winding h, fun iy ix h => ?_⟩
  rw [placeChecked_eq, Option.some.injEq] at h
  have hb := place_crossing _ _ _ _ _ _ _ h
  refine ⟨s.split (iy + s.y1), splitChecked_eq s _ (by omega) (by omega), ?_⟩
  rw [(split_fst_y s _).1, (split_fst_y s _).2, (split_snd_y s _).1, (split_snd_y s _).2]
  omega

/-- C18. The method `split (newY)` on a slice `[y1, y2)` with `y1 < newY < y2`: the call
is legal and divides by no zero; the slice becomes `[y1, newY)`, directly followed by a new
slice `[newY, y2)` whose successor is the old successor; both have as many segments as
before, and segment `i`, from `a` to `b` with winding `w`, becomes `(a, m)` in the first
and `(m, b)` in the second, both with winding `w`, where
`m = a + trunc ((newY - y1) * (b - a) / (y2 - y1))`, truncated toward zero. -/
theorem split_makes_two_slices (s : HorizontalSlice) (next : List HorizontalSlice)
    (newY : Int) (h1 : s.y1 < newY) (h2 : newY < s.y2) :
    ∃ first second, s.splitChecked newY = some (first, second) ∧
      HorizontalSlice.splitInChain (s :: next) newY = first :: second :: next ∧
      first.y1 = s.y1 ∧ first.y2 = newY ∧ second.y1 = newY ∧ second.y2 = s.y2 ∧
      first.segments.length = s.segments.length ∧
      second.segments.length = s.segments.length ∧
      ∀ i l, s.segments.get? i = some l →
        first.segments.get? i
          = some ⟨l.x1, l.x1 + Int.tdiv ((newY - s.y1) * (l.x2 - l.x1)) (s.y2 - s.y1),
              l.winding⟩ ∧
        second.segments.get? i
          = some ⟨l.x1 + Int.tdiv ((newY - s.y1) * (l.x2 - l.x1)) (s.y2 - s.y1), l.x2,
              l.winding⟩ := by
  refine ⟨(s.split newY).1, (s.split newY).2, splitChecked_eq s newY h1 h2, rfl, rfl, rfl,
    rfl, rfl, ?_, ?_, ?_⟩
  · simp [HorizontalSlice.split]
  · simp [HorizontalSlice.split]
  · intro i l hl
    simp only [List.get?_eq_getElem?] at hl
    simp [HorizontalSlice.split, List.getElem?_map, hl]

theorem split_witness :
    ∃ first second,
      HorizontalSlice.splitChecked ⟨0, 10, [⟨0, 10, 1⟩, ⟨20, 5, -1⟩]⟩ 3 = some (first, second) ∧
      HorizontalSlice.splitInChain [⟨0, 10, [⟨0, 10, 1⟩, ⟨20, 5, -1⟩]⟩] 3 = [first, second] ∧
      first.y1 = 0 ∧ first.y2 = 3 ∧ second.y1 = 3 ∧ second.y2 = 10 ∧
      first.segments.length = 2 ∧ second.segments.length = 2 ∧
      ∀ i l, [(⟨0, 10, 1⟩ : LineSegment), ⟨20, 5, -1⟩].get? i = some l →
        first.segments.get? i
          = some ⟨l.x1, l.x1 + Int.tdiv ((3 - 0) * (l.x2 - l.x1)) (10 - 0), l.winding⟩ ∧
        second.segments.get? i
          = some ⟨l.x1 + Int.tdiv ((3 - 0) * (l.x2 - l.x1)) (10 - 0), l.x2, l.winding⟩ :=
  split_makes_two_slices ⟨0, 10, [⟨0, 10, 1⟩, ⟨20, 5, -1⟩]⟩ [] 3 (by decide) (by decide)

/-! ## Degenerate primitives -/

theorem triangleArea_nonneg (x1 y1 x2 y2 x3 y3 : ℚ) : 0 ≤ triangleArea x1 y1 x2 y2 x3 y3 := by
  unfold triangleArea
  positivity

/-- The primitive `iterate` emits for two segments of a slice of positive height has zero
area exactly when the segments have the same `x1` and the same `x2`. -/
theorem emit_area_eq_zero (y1 y2 : Int) (a b : LineSegment) (h : y1 < y2) :
    (HorizontalSlice.emit y1 y2 a b).area = 0 ↔ a.x1 = b.x1 ∧ a.x2 = b.x2 := by
  have hy : ((y2 : ℚ) - y1) ≠ 0 := by
    have : ((y2 - y1 : Int) : ℚ) ≠ 0 := Int.cast_ne_zero.2 (by omega)
    simpa using this
  unfold HorizontalSlice.emit
  by_cases h1 : a.x1 = b.x1
  · rw [if_pos h1]
    simp only [ConsumerCall.area, triangleArea]
    have key : ((a.x2 : ℚ) - a.x1) * ((y2 : ℚ) - y1) - ((b.x2 : ℚ) - a.x1) * ((y2 : ℚ) - y1)
        = ((a.x2 : ℚ) - b.x2) * ((y2 : ℚ) - y1) := by ring
    rw [key, div_eq_zero_iff, abs_eq_zero, mul_eq_zero]
    constructor
    · rintro ((h2 | h2) | h2)
      · refine ⟨h1, ?_⟩
        have : ((a.x2 - b.x2 : Int) : ℚ) = 0 := by push_cast; exact h2
        have := Int.cast_eq_zero.1 this
        omega
      · exact absurd h2 hy
      · norm_num at h2
    · rintro ⟨_, h2⟩
      left; left
      rw [h2]; ring
  · rw [if_neg h1]
    have hx : ((b.x1 : ℚ) - a.x1) ≠ 0 := by
      have : ((b.x1 - a.x1 : Int) : ℚ) ≠ 0 := Int.cast_ne_zero.2 (by omega)
      simpa using this
    have hpos : 0 < |((b.x1 : ℚ) - a.x1) * ((y2 : ℚ) - y1)| / 2 := by
      have := abs_pos.2 (mul_ne_zero hx hy)
      positivity
    by_cases h2 : a.x2 = b.x2
    · rw [if_pos h2]
      simp only [ConsumerCall.area, triangleArea]
      have key : ((b.x1 : ℚ) - a.x1) * ((y2 : ℚ) - y1) - ((a.x2 : ℚ) - a.x1) * ((y1 : ℚ) - y1)
          = ((b.x1 : ℚ) - a.x1) * ((y2 : ℚ) - y1) := by ring
      rw [key]
      constructor
      · intro h0; rw [h0] at hpos; exact absurd hpos (lt_irrefl _)
      · rintro ⟨h3, _⟩; exact absurd h3 h1
    · rw [if_neg h2]
      simp only [ConsumerCall.area]
      have key : triangleArea a.x1 y1 a.x2 y2 b.x1 y1
          = |((b.x1 : ℚ) - a.x1) * ((y2 : ℚ) - y1)| / 2 := by
        unfold triangleArea
        have : ((a.x2 : ℚ) - a.x1) * ((y1 : ℚ) - y1) - ((b.x1 : ℚ) - a.x1) * ((y2 : ℚ) - y1)
            = -(((b.x1 : ℚ) - a.x1) * ((y2 : ℚ) - y1)) := by ring
        rw [this, abs_neg]
      have h0 := triangleArea_nonneg b.x2 y2 a.x2 y2 b.x1 y1
      rw [key]
      constructor
      · intro hsum
        exfalso
        linarith
      · rintro ⟨h3, _⟩; exact absurd h3 h1

theorem forall2_left {α β : Type} {R : α → β → Prop} {P : α → Prop}
    (hR : ∀ a b, R a b → P a) : ∀ {l1 : List α} {l2 : List β}, List.Forall₂ R l1 l2 →
    ∀ a ∈ l1, P a
  | _, _, .nil, a, ha => by simp at ha
  | _, _, .cons h t, a, ha => by
    rcases List.mem_cons.1 ha with rfl | ha
    · exact hR _ _ h
    · exact forall2_left hR t a ha

/-- Every call of `HorizontalSlice::iterate` is made for two segments of the slice. -/
theorem iterate_emits (s : HorizontalSlice) (mask : Int) :
    ∀ call ∈ s.iterate mask, ∃ a ∈ s.segments, ∃ b ∈ s.segments,
      call = HorizontalSlice.emit s.y1 s.y2 a b := by
  refine forall2_left ?_ (iterate_spans s mask)
  rintro call span ⟨_, a, b, ha, hb, hcall⟩
  exact ⟨a, List.get?_mem ha, b, List.get?_mem hb, hcall⟩

/-- An `int` of magnitude at most `2^24` is converted to `float` without rounding. -/
theorem roundToFloat_exact (n : Int) (h : |n| ≤ 16777216) : roundToFloat n = (n : ℚ) := by
  have hb := abs_le.1 h
  unfold roundToFloat
  simp only
  rw [if_pos (by omega)]

/-- For such an `int`, `intToFloat` is the exact quotient by the scale factor. -/
theorem intToFloat_exact (n : Int) (h : |n| ≤ 16777216) : intToFloat n = (n : ℚ) / 128 := by
  rw [intToFloat, roundToFloat_exact n h, factor]
  norm_num
  ring

/-- The binary exponent of `2^24 + 1`. -/
theorem log2_tie : Nat.log2 16777217 = 24 := by
  have h1 : 24 ≤ Nat.log2 16777217 := (Nat.le_log2 (by norm_num)).2 (by norm_num)
  have h2 : Nat.log2 16777217 < 25 := (Nat.log2_lt (by norm_num)).2 (by norm_num)
  omega

/-- The conversion of `2^24 + 1` to `float`: halfway between the two neighbouring floats
`2^24` and `2^24 + 2`, it is rounded to the even one, `2^24`. -/
theorem roundToFloat_tie : roundToFloat 16777217 = 16777216 := by
  have hn : (16777217 : Int).natAbs = 16777217 := by norm_num
  unfold roundToFloat
  simp only [hn]
  rw [log2_tie]
  have hs : Int.sign 16777217 = 1 := rfl
  norm_num [hs]

/-- Scaling all coordinates by `1 / 128` scales the area by `1 / 128^2`. -/
theorem triangleArea_scaled (x1 y1 x2 y2 x3 y3 : ℚ) :
    triangleArea (x1 / 128) (y1 / 128) (x2 / 128) (y2 / 128) (x3 / 128) (y3 / 128)
      = triangleArea x1 y1 x2 y2 x3 y3 / 16384 := by
  unfold triangleArea
  have e : (x2 / 128 - x1 / 128) * (y3 / 128 - y1 / 128)
      - (x3 / 128 - x1 / 128) * (y2 / 128 - y1 / 128)
      = ((x2 - x1) * (y3 - y1) - (x3 - x1) * (y2 - y1)) / 16384 := by ring
  rw [e, abs_div]
  norm_num
  ring

/-- The primitive of a call whose fixed-point coordinates are at most `2^24` in magnitude
reaches the consumer without rounding: its area is that of the fixed-point primitive, in
units of `1 / 128`. -/
theorem floatArea_exact (c : ConsumerCall Int) (h : ∀ v ∈ c.values, |v| ≤ 16777216) :
    c.toFloat.floatArea = c.area / 16384 := by
  cases c with
  | addTriangle x1 y1 x2 y2 x3 y3 =>
    simp only [ConsumerCall.values, List.mem_cons, List.mem_singleton, forall_eq_or_imp,
      forall_eq, List.not_mem_nil, false_implies, implies_true, and_true] at h
    obtain ⟨h1, h2, h3, h4, h5, h6⟩ := h
    simp only [ConsumerCall.toFloat, ConsumerCall.floatArea, ConsumerCall.area,
      intToFloat_exact _ h1, intToFloat_exact _ h2, intToFloat_exact _ h3,
      intToFloat_exact _ h4, intToFloat_exact _ h5, intToFloat_exact _ h6,
      triangleArea_scaled]
  | addTrapezoid y1 y2 x1 x2 x3 x4 =>
    simp only [ConsumerCall.values, List.mem_cons, List.mem_singleton, forall_eq_or_imp,
      forall_eq, List.not_mem_nil, false_implies, implies_true, and_true] at h
    obtain ⟨h1, h2, h3, h4, h5, _, h7, _⟩ := h
    simp only [ConsumerCall.toFloat, ConsumerCall.floatArea, ConsumerCall.area,
      intToFloat_exact _ h1, intToFloat_exact _ h2, intToFloat_exact _ h3,
      intToFloat_exact _ h4, intToFloat_exact _ h5, intToFloat_exact _ h7,
      triangleArea_scaled]
    ring

/-- C14, amended. For every slice chain built by `addLine` calls from the empty chain and
under either winding rule, every call `iterate` makes is made for two segments `a`, `b` of
a slice of positive height, and the primitive of its fixed-point coordinates has zero area
exactly when both x-endpoint pairs coincide (`a.x1 = b.x1` and `a.x2 = b.x2`).  The
consumer receives the `intToFloat` images of these coordinates: when every coordinate of
the call is at most `2^24` in magnitude the conversion is exact and the primitive the
consumer receives has zero area exactly when both pairs coincide as well.  So in that range
every trapezoid and every triangle with one coincident pair has non-zero area, and two
coincident segments give a zero-area triangle. -/
theorem degenerate_only_for_coincident_segments (windingMask : Int) (lines : List Line) :
    ∀ call ∈ (TrapezoidedPath.addLines
        { firstSlice := [], windingMask := windingMask } lines).iterate,
      ∃ s ∈ (TrapezoidedPath.addLines
          { firstSlice := [], windingMask := windingMask } lines).firstSlice,
        s.y1 < s.y2 ∧ ∃ a ∈ s.segments, ∃ b ∈ s.segments,
          call = HorizontalSlice.emit s.y1 s.y2 a b ∧
          (call.area = 0 ↔ a.x1 = b.x1 ∧ a.x2 = b.x2) ∧
          ((∀ v ∈ call.values, |v| ≤ 16777216) →
            (call.toFloat.floatArea = 0 ↔ a.x1 = b.x1 ∧ a.x2 = b.x2)) := by
  intro call hcall
  obtain ⟨lo, hi, hch⟩ := addLines_chained lines
    { firstSlice := [], windingMask := windingMask } ⟨0, 0, le_refl _⟩
  unfold TrapezoidedPath.iterate at hcall
  obtain ⟨s, hs, hcs⟩ := List.mem_flatMap.1 hcall
  have hpos := chained_positive hch s hs
  obtain ⟨a, ha, b, hb, he⟩ := iterate_emits s _ call hcs
  have harea : call.area = 0 ↔ a.x1 = b.x1 ∧ a.x2 = b.x2 := by
    rw [he]
    exact emit_area_eq_zero s.y1 s.y2 a b hpos
  refine ⟨s, hs, hpos, a, ha, b, hb, he, harea, fun hr => ?_⟩
  rw [floatArea_exact call hr, ← harea]
  constructor
  · intro h
    rcases div_eq_zero_iff.1 h with h | h
    · exact h
    · norm_num at h
  · intro h
    rw [h, zero_div]

/-- Witness for C14: the trapezoid between two vertical edges. -/
theorem degenerate_witness :
    ∃ s ∈ (TrapezoidedPath.addLines { firstSlice := [], windingMask := -1 }
          [⟨0, 0, 0, 10⟩, ⟨5, 10, 5, 0⟩]).firstSlice,
        s.y1 < s.y2 ∧ ∃ a ∈ s.segments, ∃ b ∈ s.segments,
          ConsumerCall.addTrapezoid 0 10 0 0 5 5 = HorizontalSlice.emit s.y1 s.y2 a b ∧
          ((ConsumerCall.addTrapezoid 0 10 0 0 5 5).area = 0 ↔ a.x1 = b.x1 ∧ a.x2 = b.x2) ∧
          ((∀ v ∈ (ConsumerCall.addTrapezoid (0 : Int) 10 0 0 5 5).values, |v| ≤ 16777216) →
            ((ConsumerCall.addTrapezoid 0 10 0 0 5 5).toFloat.floatArea = 0
              ↔ a.x1 = b.x1 ∧ a.x2 = b.x2)) :=
  degenerate_only_for_coincident_segments (-1) [⟨0, 0, 0, 10⟩, ⟨5, 10, 5, 0⟩]
    (.addTrapezoid 0 10 0 0 5 5) (by decide)

/-- C14, counterexample. The edge `(0, 0) → (0, 10)` added forth and back leaves one slice
with the segments `(0, 0, +1)` and `(0, 0, -1)`; under both winding rules `iterate` emits
the triangle `(0, 0) (0, 10) (0, 10)`, whose area is zero, in fixed-point coordinates and
as received by the consumer.  Beyond `2^24` the conversion to `float` rounds: for the
triangle `(16777216, 0) (16777218, 4) (16777216, 4)` and the rectangle `(0, 2)-(5, 3)` the
slice `[2, 3)` holds the distinct segments `x = 16777216` and `x = 16777217`, and the
trapezoid emitted between them reaches the consumer with all four x equal to `131072`,
so with zero area. -/
theorem retraced_edge_gives_zero_area_triangle :
    ¬ (∀ call ∈ (TrapezoidedPath.addLines { firstSlice := [], windingMask := -1 }
        [⟨0, 0, 0, 10⟩, ⟨0, 10, 0, 0⟩]).iterate,
        call.area ≠ 0 ∧ call.toFloat.floatArea ≠ 0) ∧
    ¬ (∀ call ∈ (TrapezoidedPath.addLines { firstSlice := [], windingMask := 1 }
        [⟨0, 0, 0, 10⟩, ⟨0, 10, 0, 0⟩]).iterate,
        call.area ≠ 0 ∧ call.toFloat.floatArea ≠ 0) ∧
    ¬ (∀ call ∈ (TrapezoidedPath.addLines { firstSlice := [], windingMask := -1 }
        [⟨16777216, 0, 16777218, 4⟩, ⟨16777218, 4, 16777216, 4⟩, ⟨16777216, 4, 16777216, 0⟩,
         ⟨0, 2, 5, 2⟩, ⟨5, 2, 5, 3⟩, ⟨5, 3, 0, 3⟩, ⟨0, 3, 0, 2⟩]).iterate,
        call.toFloat.floatArea ≠ 0) := by
  have harea : (ConsumerCall.addTriangle 0 0 0 10 0 10).area = 0 := by
    norm_num [ConsumerCall.area, triangleArea]
  have hfloat : (ConsumerCall.addTrapezoid 2 3 16777216 16777216 16777217
      16777217).toFloat.floatArea = 0 := by
    have h1 : intToFloat 16777217 = intToFloat 16777216 := by
      rw [intToFloat, intToFloat, roundToFloat_tie, roundToFloat_exact 16777216 (by norm_num)]
      norm_num
    simp only [ConsumerCall.toFloat, ConsumerCall.floatArea, triangleArea, h1]
    norm_num
  exact ⟨fun h => (h (.addTriangle 0 0 0 10 0 10) (by decide)).1 harea,
    fun h => (h (.addTriangle 0 0 0 10 0 10) (by decide)).1 harea,
    fun h => h (.addTrapezoid 2 3 16777216 16777216 16777217 16777217) (by decide) hfloat⟩

/-! ## Crossings and the order of the segments of a slice -/

/-- What the loop of `HorizontalSlice::addLine` does, by the segments it steps over: it
either stops at the first segment that passes the crossing test, all segments in front of
it failing the test and having `x1 + x2` not above that of the new interval, or it stores
the interval behind such segments and in front of a segment with a greater `x1 + x2` that
fails the test too (or at the end). -/
theorem place_cases (dy x1 x2 winding : Int) : ∀ segments : List LineSegment,
    (∃ front l rest, segments = front ++ l :: rest ∧
      (∀ k ∈ front, ¬ crossesInside dy x1 x2 k ∧ k.x1 + k.x2 ≤ x1 + x2) ∧
      crossesInside dy x1 x2 l ∧
      HorizontalSlice.place dy x1 x2 winding segments
        = .crossing (Int.tdiv (dy * (l.x1 - x1)) (x2 - x1 - (l.x2 - l.x1)))
            (x1 + Int.tdiv (wrap32 (Int.tdiv (dy * (l.x1 - x1)) (x2 - x1 - (l.x2 - l.x1))
              * (x2 - x1))) dy)) ∨
    (∃ front rest, segments = front ++ rest ∧
      (∀ k ∈ front, ¬ crossesInside dy x1 x2 k ∧ k.x1 + k.x2 ≤ x1 + x2) ∧
      (∀ l, rest.head? = some l → ¬ crossesInside dy x1 x2 l ∧ x1 + x2 < l.x1 + l.x2) ∧
      HorizontalSlice.place dy x1 x2 winding segments
        = .placed (front ++ ⟨x1, x2, winding⟩ :: rest))
  | [] => Or.inr ⟨[], [], rfl, by simp, by simp, rfl⟩
  | l :: rest => by
    by_cases hc : crossesInside dy x1 x2 l
    · exact Or.inl ⟨[], l, rest, rfl, by simp, hc, place_cons_crossing dy x1 x2 winding l rest hc⟩
    · by_cases hb : l.x1 - x1 + (l.x2 - x2) > 0
      · refine Or.inr ⟨[], l :: rest, rfl, by simp, ?_,
          place_cons_before dy x1 x2 winding l rest hc hb⟩
        intro k hk
        simp only [List.head?_cons, Option.some.injEq] at hk
        subst hk
        exact ⟨hc, by omega⟩
      · have hl : ¬ crossesInside dy x1 x2 l ∧ l.x1 + l.x2 ≤ x1 + x2 := ⟨hc, by omega⟩
        rcases place_cases dy x1 x2 winding rest with
          ⟨front, m, tail, hseg, hfront, hm, hplace⟩ | ⟨front, tail, hseg, hfront, htail, hplace⟩
        · refine Or.inl ⟨l :: front, m, tail, by rw [hseg]; rfl, ?_, hm, ?_⟩
          · intro k hk
            rcases List.mem_cons.1 hk with rfl | hk
            · exact hl
            · exact hfront k hk
          · rw [place_cons_skip dy x1 x2 winding l rest hc hb, hplace]
        · refine Or.inr ⟨l :: front, tail, by rw [hseg]; rfl, ?_, htail, ?_⟩
          · intro k hk
            rcases List.mem_cons.1 hk with rfl | hk
            · exact hl
            · exact hfront k hk
          · rw [place_cons_skip dy x1 x2 winding l rest hc hb, hplace]
            rfl

/-- C20, amended. When the loop of `HorizontalSlice::addLine` stores the interval
`(x1, x2)`, it puts it behind segments whose `x1 + x2` is at most `x1 + x2` of the interval
and in front of the first segment whose `x1 + x2` is greater: the segments are ordered by
`x1 + x2`, and a list ordered so stays ordered.  The start of a segment in front of the
interval is at most `x1` unless that segment crosses the interval strictly inside the
slice, and likewise for the segment right behind it. -/
theorem interval_is_stored_by_midpoint (dy x1 x2 winding : Int)
    (old new : List LineSegment)
    (h : HorizontalSlice.place dy x1 x2 winding old = .placed new) :
    ∃ front rest, old = front ++ rest ∧ new = front ++ ⟨x1, x2, winding⟩ :: rest ∧
      (∀ k ∈ front, k.x1 + k.x2 ≤ x1 + x2 ∧ (k.x1 ≤ x1 ∨ (x1 < k.x1 ∧ k.x2 < x2))) ∧
      (∀ l, rest.head? = some l →
        x1 + x2 < l.x1 + l.x2 ∧ (x1 ≤ l.x1 ∨ (l.x1 < x1 ∧ x2 < l.x2))) ∧
      (old.Pairwise (fun a b => a.x1 + a.x2 ≤ b.x1 + b.x2) →
        new.Pairwise (fun a b => a.x1 + a.x2 ≤ b.x1 + b.x2)) := by
  rcases place_cases dy x1 x2 winding old with
    ⟨front, l, rest, _, _, _, hplace⟩ | ⟨front, rest, hseg, hfront, hrest, hplace⟩
  · rw [hplace] at h; cases h
  · rw [hplace] at h
    cases h
    refine ⟨front, rest, hseg, rfl, ?_, ?_, ?_⟩
    · intro k hk
      have := (hfront k hk).2
      exact ⟨this, by omega⟩
    · intro l hl
      have := (hrest l hl).2
      exact ⟨this, by omega⟩
    · intro hsorted
      rw [hseg, List.pairwise_append] at hsorted
      obtain ⟨hf, hr, hfr⟩ := hsorted
      rw [List.pairwise_append]
      refine ⟨hf, List.pairwise_cons.2 ⟨?_, hr⟩, ?_⟩
      · intro b hb
        cases rest with
        | nil => simp at hb
        | cons l tail =>
          have hl := (hrest l rfl).2
          rcases List.mem_cons.1 hb with rfl | hb
          · exact le_of_lt hl
          · have := List.rel_of_pairwise_cons hr hb
            simp only at this ⊢
            omega
      · intro a ha b hb
        rcases List.mem_cons.1 hb with rfl | hb
        · exact (hfront a ha).2
        · exact hfr a ha b hb

/-- Witness for C20: the interval `(6, 0)` stored in front of the segment `(5, 5)`. -/
theorem stored_by_midpoint_witness :
    ∃ front rest, [(⟨5, 5, 1⟩ : LineSegment)] = front ++ rest ∧
      [(⟨6, 0, 1⟩ : LineSegment), ⟨5, 5, 1⟩] = front ++ ⟨6, 0, 1⟩ :: rest ∧
      (∀ k ∈ front, k.x1 + k.x2 ≤ 6 + 0 ∧ (k.x1 ≤ 6 ∨ (6 < k.x1 ∧ k.x2 < 0))) ∧
      (∀ l, rest.head? = some l →
        6 + 0 < l.x1 + l.x2 ∧ (6 ≤ l.x1 ∨ (l.x1 < 6 ∧ 0 < l.x2))) ∧
      ([(⟨5, 5, 1⟩ : LineSegment)].Pairwise (fun a b => a.x1 + a.x2 ≤ b.x1 + b.x2) →
        [(⟨6, 0, 1⟩ : LineSegment), ⟨5, 5, 1⟩].Pairwise
          (fun a b => a.x1 + a.x2 ≤ b.x1 + b.x2)) :=
  interval_is_stored_by_midpoint 1 6 0 1 [⟨5, 5, 1⟩] [⟨6, 0, 1⟩, ⟨5, 5, 1⟩] (by decide)

/-- C20, counterexample. The edges `(5, 0) → (5, 1)` and `(6, 0) → (0, 1)` leave one slice
`[0, 1)` holding the segments `(6, 0)` and `(5, 5)` in this order: the first starts at `6`,
its successor at `5`. -/
theorem interval_starts_can_decrease :
    ∃ s ∈ (TrapezoidedPath.addLines { firstSlice := [], windingMask := -1 }
        [⟨5, 0, 5, 1⟩, ⟨6, 0, 0, 1⟩]).firstSlice,
      ∃ i a b, s.segments.get? i = some a ∧ s.segments.get? (i + 1) = some b ∧
        ¬ a.x1 ≤ b.x1 :=
  ⟨⟨0, 1, [⟨6, 0, 1⟩, ⟨5, 5, 1⟩]⟩, by decide, 0, ⟨6, 0, 1⟩, ⟨5, 5, 1⟩, by decide, by decide,
    by decide⟩

/-! ## Shape and vertex layout of the emitted primitives -/

theorem take_set_same {α : Type} (l : List α) (i : Nat) (v : α) :
    (l.set i v).take i = l.take i := by
  apply List.ext_getElem?
  intro j
  rw [List.getElem?_take, List.getElem?_take]
  split
  · rw [List.getElem?_set_ne (by omega)]
  · rfl

theorem storeAll_take : ∀ (vs buffer : List GLfloat) (i : Nat) (w : List GLfloat),
    storeAll buffer i vs = some w → w.take (i + vs.length) = buffer.take i ++ vs
  | [], buffer, i, w, h => by
    simp only [storeAll, Option.some.injEq] at h
    simp [h]
  | v :: vs, buffer, i, w, h => by
    simp only [storeAll, storeAt] at h
    by_cases hi : i < buffer.length
    · rw [if_pos hi, Option.some_bind] at h
      have ih := storeAll_take vs (buffer.set i v) (i + 1) w h
      have e : i + (v :: vs).length = i + 1 + vs.length := by
        simp only [List.length_cons]; omega
      rw [e, ih, List.take_succ, take_set_same, List.getElem?_set_self hi]
      simp
    · rw [if_neg hi] at h
      simp at h


theorem stored_append_block (earlier : List TriangleBlock) (cur : TriangleBlock) :
    TriangulatedPath.stored { blocks := earlier ++ [cur], currentBlock := earlier.length }
      = TriangulatedPath.stored { blocks := earlier, currentBlock := 0 }
        ++ cur.triangles.take cur.numVertices := by
  simp [TriangulatedPath.stored, List.flatMap_append]

/-- Appending `vs` to a path whose current block is its last block puts `vs` behind the
floats in use. -/
theorem append_stored (earlier : List TriangleBlock) (cur : TriangleBlock)
    (vs : List GLfloat) (q : TriangulatedPath)
    (h : TriangulatedPath.append
      { blocks := earlier ++ [cur], currentBlock := earlier.length } vs = some q) :
    q.stored = TriangulatedPath.stored
      { blocks := earlier ++ [cur], currentBlock := earlier.length } ++ vs := by
  unfold TriangulatedPath.append at h
  simp only [List.get?_eq_getElem?, List.getElem?_concat_length, Option.some_bind] at h
  cases hw : storeAll cur.triangles cur.numVertices vs with
  | none => rw [hw] at h; simp at h
  | some w =>
    rw [hw] at h
    simp only [Option.map_some', Option.some.injEq] at h
    subst h
    have ht := storeAll_take vs cur.triangles cur.numVertices w hw
    have hset : (earlier ++ [cur]).set earlier.length
        { numVertices := cur.numVertices + vs.length, triangles := w }
        = earlier ++ [{ numVertices := cur.numVertices + vs.length, triangles := w }] := by
      simp
    simp only [hset]
    rw [stored_append_block, stored_append_block]
    simp only [ht, List.append_assoc]

theorem startNewBlock_stored (p : TriangulatedPath) :
    p.startNewBlock.stored = p.stored := by
  simp [TriangulatedPath.startNewBlock, TriangulatedPath.stored, List.flatMap_append,
    TriangleBlock.fresh]

/-- A consumer call on a path whose current block is its last block puts its values behind
the floats in use. -/
theorem call_stored (earlier : List TriangleBlock) (cur : TriangleBlock)
    (c : ConsumerCall GLfloat) (q : TriangulatedPath)
    (h : TriangulatedPath.call
      { blocks := earlier ++ [cur], currentBlock := earlier.length } c = some q) :
    q.stored = TriangulatedPath.stored
      { blocks := earlier ++ [cur], currentBlock := earlier.length } ++ c.values := by
  have hnew : TriangulatedPath.startNewBlock
      { blocks := earlier ++ [cur], currentBlock := earlier.length }
      = { blocks := (earlier ++ [cur]) ++ [TriangleBlock.fresh],
          currentBlock := (earlier ++ [cur]).length } := rfl
  cases c with
  | addTriangle x1 y1 x2 y2 x3 y3 =>
    simp only [TriangulatedPath.call, TriangulatedPath.addTriangle, List.get?_eq_getElem?,
      List.getElem?_concat_length, Option.some_bind] at h
    split at h
    · rw [hnew] at h
      rw [append_stored _ _ _ _ h, ← hnew, startNewBlock_stored]
      rfl
    · rw [append_stored _ _ _ _ h]
      rfl
  | addTrapezoid y1 y2 x1 x2 x3 x4 =>
    simp only [TriangulatedPath.call, TriangulatedPath.addTrapezoid, List.get?_eq_getElem?,
      List.getElem?_concat_length, Option.some_bind] at h
    split at h
    · rw [hnew] at h
      rw [append_stored _ _ _ _ h, ← hnew, startNewBlock_stored]
      rfl
    · rw [append_stored _ _ _ _ h]
      rfl

/-- On a well-formed path every consumer call succeeds and puts its values behind the
floats in use. -/
theorem call_wf_stored (p : TriangulatedPath) (hp : p.WF) (c : ConsumerCall GLfloat) :
    ∃ q, p.call c = some q ∧ q.stored = p.stored ++ c.values := by
  obtain ⟨q, hq, _, _⟩ := call_wf p hp c
  obtain ⟨⟨earlier, cur, hb, hc⟩, _⟩ := hp
  have hpeq : p = { blocks := earlier ++ [cur], currentBlock := earlier.length } := by
    cases p; simp_all
  subst hpeq
  exact ⟨q, hq, call_stored earlier cur c q hq⟩


/-- A value between `a` and `b` (in either order) is a convex combination of them. -/
theorem convex_of_between (a b x : ℚ) (h : (a ≤ x ∧ x ≤ b) ∨ (b ≤ x ∧ x ≤ a)) :
    ∃ v : ℚ, 0 ≤ v ∧ v ≤ 1 ∧ x = (1 - v) * a + v * b := by
  by_cases hab : a = b
  · subst hab
    refine ⟨0, le_refl _, zero_le_one, ?_⟩
    rcases h with ⟨h1, h2⟩ | ⟨h1, h2⟩ <;> linarith
  · have hne : b - a ≠ 0 := sub_ne_zero.2 (Ne.symm hab)
    refine ⟨(x - a) / (b - a), ?_, ?_, ?_⟩
    · rcases h with ⟨h1, h2⟩ | ⟨h1, h2⟩
      · exact div_nonneg (by linarith) (by linarith)
      · exact div_nonneg_of_nonpos (by linarith) (by linarith)
    · rcases h with ⟨h1, h2⟩ | ⟨h1, h2⟩
      · have hpos : 0 < b - a := lt_of_le_of_ne (by linarith) (Ne.symm hne)
        rw [div_le_one hpos]; linarith
      · have hneg : b - a < 0 := lt_of_le_of_ne (by linarith) hne
        rw [div_le_one_of_neg hneg]; linarith
    · field_simp
      ring

/-- A convex combination of `a` and `b` lies between them. -/
theorem between_of_convex (a b u : ℚ) (h0 : 0 ≤ u) (h1 : u ≤ 1) :
    (a ≤ (1 - u) * a + u * b ∧ (1 - u) * a + u * b ≤ b) ∨
      (b ≤ (1 - u) * a + u * b ∧ (1 - u) * a + u * b ≤ a) := by
  rcases le_total a b with hab | hab
  · left
    constructor <;> nlinarith
  · right
    constructor <;> nlinarith

/-- A convex combination of `l` and `r` is a convex combination of `l` and `d` or of `d`
and `r`, whatever `d` is. -/
theorem convex_through (l r d u : ℚ) (h0 : 0 ≤ u) (h1 : u ≤ 1) :
    (∃ v : ℚ, 0 ≤ v ∧ v ≤ 1 ∧ (1 - u) * l + u * r = (1 - v) * l + v * d) ∨
      (∃ v : ℚ, 0 ≤ v ∧ v ≤ 1 ∧ (1 - u) * l + u * r = (1 - v) * d + v * r) := by
  have hb := between_of_convex l r u h0 h1
  by_cases hld : (l ≤ (1 - u) * l + u * r ∧ (1 - u) * l + u * r ≤ d) ∨
      (d ≤ (1 - u) * l + u * r ∧ (1 - u) * l + u * r ≤ l)
  · exact Or.inl (convex_of_between l d _ hld)
  · right
    apply convex_of_between
    rw [not_or, not_and_or, not_and_or, not_le, not_le, not_le, not_le] at hld
    obtain ⟨h2, h3⟩ := hld
    rcases hb with ⟨h4, h5⟩ | ⟨h4, h5⟩
    · rcases h2 with h2 | h2
      · linarith
      · exact Or.inl ⟨le_of_lt h2, h5⟩
    · rcases h3 with h3 | h3
      · exact Or.inr ⟨h4, le_of_lt h3⟩
      · linarith

/-- The primitive `iterate` emits for the segments `s1`, `s2` covers the span between
them. -/
theorem emit_covers (y1 y2 : Int) (s1 s2 : LineSegment) (p : ℚ × ℚ)
    (h : betweenSegments y1 y2 s1 s2 p) :
    coveredBy ((HorizontalSlice.emit y1 y2 s1 s2).vertices.map
      fun v => ((v.1 : ℚ), (v.2 : ℚ))) p := by
  obtain ⟨t, u, ht0, ht1, hu0, hu1, hy, hx⟩ := h
  unfold HorizontalSlice.emit
  by_cases h1 : s1.x1 = s2.x1
  · rw [if_pos h1]
    simp only [ConsumerCall.vertices, ConsumerCall.values, vertexPairs, List.map_cons,
      List.map_nil, coveredBy]
    left
    refine ⟨1 - t, (1 - u) * t, u * t, by linarith, mul_nonneg (by linarith) ht0,
      mul_nonneg hu0 ht0, by ring, ?_, ?_⟩
    · rw [hx, ← h1]; simp only; ring
    · rw [hy]; simp only; ring
  · rw [if_neg h1]
    by_cases h2 : s1.x2 = s2.x2
    · rw [if_pos h2]
      simp only [ConsumerCall.vertices, ConsumerCall.values, vertexPairs, List.map_cons,
        List.map_nil, coveredBy]
      left
      refine ⟨(1 - u) * (1 - t), u * (1 - t), t, mul_nonneg (by linarith) (by linarith),
        mul_nonneg hu0 (by linarith), ht0, by ring, ?_, ?_⟩
      · rw [hx, ← h2]; simp only; ring
      · rw [hy]; simp only; ring
    · rw [if_neg h2]
      simp only [ConsumerCall.vertices, ConsumerCall.values, vertexPairs, List.map_cons,
        List.map_nil, coveredBy]
      rcases convex_through ((1 - t) * s1.x1 + t * s1.x2) ((1 - t) * s2.x1 + t * s2.x2)
        ((1 - t) * s2.x1 + t * s1.x2) u hu0 hu1 with ⟨v, hv0, hv1, hv⟩ | ⟨v, hv0, hv1, hv⟩
      · left
        refine ⟨(1 - v) * (1 - t), t, v * (1 - t), mul_nonneg (by linarith) (by linarith),
          ht0, mul_nonneg hv0 (by linarith), by ring, ?_, ?_⟩
        · rw [hx, hv]; simp only; ring
        · rw [hy]; simp only; ring
      · right; left
        refine ⟨v * t, (1 - v) * t, 1 - t, mul_nonneg hv0 ht0,
          mul_nonneg (by linarith) ht0, by linarith, by ring, ?_, ?_⟩
        · rw [hx, hv]; simp only; ring
        · rw [hy]; simp only; ring

theorem toFloat_values (c : ConsumerCall Int) :
    c.toFloat.values = c.vertices.flatMap fun v => [intToFloat v.1, intToFloat v.2] := by
  cases c <;> rfl

/-- C17. Primitive shape and vertex layout of a filled span.  Every call of `iterate` is
made for two segments `s1`, `s2` of the slice `[y1, y2)`.  The call is `addTriangle`
exactly when `s1.x1 = s2.x1` or `s1.x2 = s2.x2`.  Its stored vertices are
`(s1.x1, y1) (s1.x2, y2) (s2.x2, y2)` when `s1.x1 = s2.x1`, else
`(s1.x1, y1) (s2.x1, y1) (s1.x2, y2)` when `s1.x2 = s2.x2`, and else the six vertices
`(s1.x1, y1) (s1.x2, y2) (s2.x1, y1)` and `(s2.x2, y2) (s1.x2, y2) (s2.x1, y1)` of two
triangles; a well-formed `TriangulatedPath` stores them in this order, x before y, each
through `intToFloat`, behind the floats it holds.  The triangles cover the span: every
point of the slice between the two segments lies in one of them. -/
theorem emit_shape_and_layout (y1 y2 : Int) (s1 s2 : LineSegment) :
    (∀ (s : HorizontalSlice) (windingMask : Int), ∀ call ∈ s.iterate windingMask,
      ∃ a ∈ s.segments, ∃ b ∈ s.segments, call = HorizontalSlice.emit s.y1 s.y2 a b) ∧
    ((∃ a b c d e f, HorizontalSlice.emit y1 y2 s1 s2 = .addTriangle a b c d e f)
      ↔ (s1.x1 = s2.x1 ∨ s1.x2 = s2.x2)) ∧
    (s1.x1 = s2.x1 → (HorizontalSlice.emit y1 y2 s1 s2).vertices
      = [(s1.x1, y1), (s1.x2, y2), (s2.x2, y2)]) ∧
    (s1.x1 ≠ s2.x1 → s1.x2 = s2.x2 → (HorizontalSlice.emit y1 y2 s1 s2).vertices
      = [(s1.x1, y1), (s2.x1, y1), (s1.x2, y2)]) ∧
    (s1.x1 ≠ s2.x1 → s1.x2 ≠ s2.x2 → (HorizontalSlice.emit y1 y2 s1 s2).vertices
      = [(s1.x1, y1), (s1.x2, y2), (s2.x1, y1), (s2.x2, y2), (s1.x2, y2), (s2.x1, y1)]) ∧
    (∀ p : TriangulatedPath, p.WF →
      ∃ q, p.call (HorizontalSlice.emit y1 y2 s1 s2).toFloat = some q ∧
        q.stored = p.stored ++ (HorizontalSlice.emit y1 y2 s1 s2).vertices.flatMap
          fun v => [intToFloat v.1, intToFloat v.2]) ∧
    (∀ point, betweenSegments y1 y2 s1 s2 point →
      coveredBy ((HorizontalSlice.emit y1 y2 s1 s2).vertices.map
        fun v => ((v.1 : ℚ), (v.2 : ℚ))) point) := by
  refine ⟨fun s mask => iterate_emits s mask, ?_, ?_, ?_, ?_, ?_,
    fun point h => emit_covers y1 y2 s1 s2 point h⟩
  · unfold HorizontalSlice.emit
    by_cases h1 : s1.x1 = s2.x1
    · rw [if_pos h1]
      exact ⟨fun _ => Or.inl h1, fun _ => ⟨_, _, _, _, _, _, rfl⟩⟩
    · rw [if_neg h1]
      by_cases h2 : s1.x2 = s2.x2
      · rw [if_pos h2]
        exact ⟨fun _ => Or.inr h2, fun _ => ⟨_, _, _, _, _, _, rfl⟩⟩
      · rw [if_neg h2]
        constructor
        · rintro ⟨a, b, c, d, e, f, h⟩
          cases h
        · rintro (h | h)
          · exact absurd h h1
          · exact absurd h h2
  · intro h1
    rw [HorizontalSlice.emit, if_pos h1]
    rfl
  · intro h1 h2
    rw [HorizontalSlice.emit, if_neg h1, if_pos h2]
    rfl
  · intro h1 h2
    rw [HorizontalSlice.emit, if_neg h1, if_neg h2]
    rfl
  · intro p hp
    rw [← toFloat_values]
    exact call_wf_stored p hp _

/-! ## Spans emitted by `iterate` -/

/-- The loop of `iterate` emits at the segment `k` behind `s2` exactly when the running
winding through `k` passes the test `(winding & windingMask) == 0`. -/
theorem spans_ends (mask : Int) : ∀ (rest : List LineSegment) (s1 s2 : Nat) (w : Int) (k : Nat),
    (∃ span ∈ HorizontalSlice.spans mask rest s1 s2 w, span.2 = k) ↔
      (s2 < k ∧ k ≤ s2 + rest.length ∧ bitAnd (w + windingSum rest (k - s2)) mask = 0)
  | [], s1, s2, w, k => by
    simp only [HorizontalSlice.spans, List.not_mem_nil, false_and, exists_false,
      List.length_nil, Nat.add_zero, false_iff]
    omega
  | l :: rest, s1, s2, w, k => by
    have ih := spans_ends mask rest
    unfold HorizontalSlice.spans
    by_cases hk : k = s2 + 1
    · subst hk
      have hsum : windingSum (l :: rest) (s2 + 1 - s2) = l.winding := by
        rw [show s2 + 1 - s2 = 0 + 1 by omega, windingSum_cons, windingSum_zero, add_zero]
      rw [hsum]
      by_cases ht : bitAnd (w + l.winding) mask = 0
      · rw [if_pos ht]
        simp only [List.length_cons]
        exact ⟨fun _ => ⟨by omega, by omega, ht⟩, fun _ => ⟨_, List.mem_cons_self _ _, rfl⟩⟩
      · rw [if_neg ht]
        constructor
        · rintro ⟨span, hspan, h2⟩
          have := (ih _ _ _ (s2 + 1)).1 ⟨span, hspan, h2⟩
          omega
        · rintro ⟨_, _, h⟩
          exact absurd h ht
    · have hsum : s2 < k → windingSum (l :: rest) (k - s2)
          = l.winding + windingSum rest (k - (s2 + 1)) := by
        intro h
        rw [show k - s2 = (k - (s2 + 1)) + 1 by omega, windingSum_cons]
      by_cases ht : bitAnd (w + l.winding) mask = 0
      · rw [if_pos ht]
        constructor
        · rintro ⟨span, hspan, h2⟩
          rcases List.mem_cons.1 hspan with rfl | hspan
          · exact absurd h2.symm hk
          · have := (ih _ _ _ k).1 ⟨span, hspan, h2⟩
            simp only [List.length_cons]
            refine ⟨by omega, by omega, ?_⟩
            rw [hsum (by omega), ← add_assoc]
            exact this.2.2
        · rintro ⟨h1, h2, h3⟩
          simp only [List.length_cons] at h2
          rw [hsum h1, ← add_assoc] at h3
          obtain ⟨span, hspan, hs⟩ := (ih (s2 + 1 + 1) (s2 + 1) _ k).2 ⟨by omega, by omega, h3⟩
          exact ⟨span, List.mem_cons_of_mem _ hspan, hs⟩
      · rw [if_neg ht]
        constructor
        · rintro ⟨span, hspan, h2⟩
          have := (ih _ _ _ k).1 ⟨span, hspan, h2⟩
          simp only [List.length_cons]
          refine ⟨by omega, by omega, ?_⟩
          rw [hsum (by omega), ← add_assoc]
          exact this.2.2
        · rintro ⟨h1, h2, h3⟩
          simp only [List.length_cons] at h2
          rw [hsum h1, ← add_assoc] at h3
          exact (ih s1 (s2 + 1) _ k).2 ⟨by omega, by omega, h3⟩

/-- The first span of the loop of `iterate` starts at `s1`. -/
theorem spans_head (mask : Int) : ∀ (rest : List LineSegment) (s1 s2 : Nat) (w : Int),
    ∀ span ∈ (HorizontalSlice.spans mask rest s1 s2 w).head?, span.1 = s1
  | [], _, _, _, span, h => by simp [HorizontalSlice.spans] at h
  | l :: rest, s1, s2, w, span, h => by
    unfold HorizontalSlice.spans at h
    split at h
    · simp only [List.head?_cons, Option.mem_def, Option.some.injEq] at h
      rw [← h]
    · exact spans_head mask rest s1 (s2 + 1) _ span h

/-- Every span of the loop of `iterate` starts right behind the end of the span before
it. -/
theorem spans_chain (mask : Int) : ∀ (rest : List LineSegment) (s1 s2 : Nat) (w : Int),
    s1 ≤ s2 + 1 →
    List.Chain' (fun a b : Nat × Nat => b.1 = a.2 + 1 ∧ a.2 < b.2)
      (HorizontalSlice.spans mask rest s1 s2 w)
  | [], _, _, _, _ => by simp [HorizontalSlice.spans]
  | l :: rest, s1, s2, w, hle => by
    unfold HorizontalSlice.spans
    split
    · rw [List.chain'_cons']
      refine ⟨?_, spans_chain mask rest _ _ _ (by omega)⟩
      intro b hb
      have h1 := spans_head mask rest _ _ _ b hb
      have h2 := spans_bounds mask rest (s2 + 1 + 1) (s2 + 1) (w + l.winding) (by omega) b
        (List.mem_of_mem_head? hb)
      simp only
      omega
    · exact spans_chain mask rest _ _ _ (by omega)

/-- C21, amended. For every slice and every winding mask, `iterate` emits at the segment
`k ≥ 1` exactly when the running winding of the segments `0..k` passes the test
`(winding & windingMask) == 0`, and emits nothing else.  The primitive emitted at `k` has
segment `k` as its right edge; its left edge is segment `0` for the first primitive and
otherwise the segment right behind the right edge of the primitive before it, so the two
edges need not be neighbours in the list. -/
theorem iterate_emits_at_closing_intervals (s : HorizontalSlice) (windingMask : Int) :
    (∀ k, (∃ span ∈ s.iterateSpans windingMask, span.2 = k) ↔
      (1 ≤ k ∧ k < s.segments.length ∧
        bitAnd (windingSum s.segments (k + 1)) windingMask = 0)) ∧
    (∀ span ∈ (s.iterateSpans windingMask).head?, span.1 = 0) ∧
    List.Chain' (fun a b : Nat × Nat => b.1 = a.2 + 1 ∧ a.2 < b.2)
      (s.iterateSpans windingMask) ∧
    List.Forall₂
      (fun call span => span.1 ≤ span.2 ∧ ∃ a b, s.segments.get? span.1 = some a ∧
        s.segments.get? span.2 = some b ∧ call = HorizontalSlice.emit s.y1 s.y2 a b)
      (s.iterate windingMask) (s.iterateSpans windingMask) := by
  refine ⟨?_, ?_, ?_, iterate_spans s windingMask⟩
  · intro k
    unfold HorizontalSlice.iterateSpans
    cases hseg : s.segments with
    | nil => simp
    | cons l rest =>
      simp only
      rw [spans_ends windingMask rest 0 0 l.winding k, windingSum_cons, List.length_cons]
      simp only [Nat.sub_zero, Nat.zero_add]
      constructor
      · rintro ⟨h1, h2, h3⟩; exact ⟨h1, by omega, h3⟩
      · rintro ⟨h1, h2, h3⟩; exact ⟨h1, by omega, h3⟩
  · unfold HorizontalSlice.iterateSpans
    cases s.segments with
    | nil => simp
    | cons l rest => exact spans_head windingMask rest 0 0 l.winding
  · unfold HorizontalSlice.iterateSpans
    cases s.segments with
    | nil => simp
    | cons l rest => exact spans_chain windingMask rest 0 0 l.winding (by omega)

/-- C21, counterexample. Two nested contours of the same direction, with vertical edges at
`0`, `2`, `8`, `10` and windings `+1, +1, -1, -1`: under the non-zero rule `iterate`
emits the one trapezoid from `0` to `10`, bounded by the segments `0` and `3`, and this
call is the call of no pair of neighbouring segments. -/
theorem nested_contours_give_one_wide_span :
    ∃ s ∈ (TrapezoidedPath.addLines { firstSlice := [], windingMask := -1 }
        [⟨0, 0, 0, 10⟩, ⟨2, 0, 2, 10⟩, ⟨8, 10, 8, 0⟩, ⟨10, 10, 10, 0⟩]).firstSlice,
      ¬ (∀ call ∈ s.iterate (-1), ∃ i a b, s.segments.get? i = some a ∧
        s.segments.get? (i + 1) = some b ∧ call = HorizontalSlice.emit s.y1 s.y2 a b) := by
  refine ⟨⟨0, 10, [⟨0, 0, 1⟩, ⟨2, 2, 1⟩, ⟨8, 8, -1⟩, ⟨10, 10, -1⟩]⟩, by decide, ?_⟩
  intro h
  obtain ⟨i, a, b, ha, hb, he⟩ := h (.addTrapezoid 0 10 0 0 10 10) (by decide)
  match i, ha, hb with
  | 0, ha, hb =>
    simp only [List.get?_cons_zero, List.get?_cons_succ, Option.some.injEq] at ha hb
    subst ha hb
    exact absurd he (by decide)
  | 1, ha, hb =>
    simp only [List.get?_cons_zero, List.get?_cons_succ, Option.some.injEq] at ha hb
    subst ha hb
    exact absurd he (by decide)
  | 2, ha, hb =>
    simp only [List.get?_cons_zero, List.get?_cons_succ, Option.some.injEq] at ha hb
    subst ha hb
    exact absurd he (by decide)
  | i + 3, ha, hb => simp at hb

/-! ## The chain invariant -/

/-- A property of slices that the constructor gives, that `split` hands down to both
halves and that `HorizontalSlice::addLine` hands down to all slices it leaves, is kept by
the loop of `TrapezoidedPath::addLine`. -/
theorem walk_preserves (Q : HorizontalSlice → Prop) (winding x2 y2 : Int)
    (hsingle : ∀ a b c d, Q (HorizontalSlice.single a b c d winding))
    (hsplit : ∀ s y, Q s → Q (s.split y).1 ∧ Q (s.split y).2)
    (hadd : ∀ s a b, Q s → ∀ p ∈ s.addLine a b winding, Q p) :
    ∀ (chain : List HorizontalSlice) (x1 y1 : Int), (∀ p ∈ chain, Q p) →
      ∀ p ∈ TrapezoidedPath.walk winding x2 y2 chain x1 y1, Q p
  | [], x1, y1, _, p, hp => by
    unfold TrapezoidedPath.walk at hp
    split at hp
    · simp only [List.mem_singleton] at hp
      rw [hp]; exact hsingle _ _ _ _
    · simp at hp
  | s :: tail, x1, y1, h, p, hp => by
    have hs : Q s := h s (by simp)
    have htail : ∀ p ∈ tail, Q p := fun p hp => h p (by simp [hp])
    have hcont : ∀ a b, ∀ p ∈ TrapezoidedPath.walk winding x2 y2 tail a b, Q p :=
      fun a b => walk_preserves Q winding x2 y2 hsingle hsplit hadd tail a b htail
    have haligned : ∀ (s : HorizontalSlice) (a b : Int), Q s →
        ∀ p ∈ TrapezoidedPath.aligned winding x2 y2 s tail
          (fun a b => TrapezoidedPath.walk winding x2 y2 tail a b) a b, Q p := by
      intro s a b hs p hp
      unfold TrapezoidedPath.aligned at hp
      split at hp
      · rcases List.mem_append.1 hp with hp | hp
        · exact hadd _ _ _ hs p hp
        · exact hcont _ _ p hp
      · split at hp
        · rcases List.mem_append.1 hp with hp | hp
          · exact hadd _ _ _ (hsplit s y2 hs).1 p hp
          · rcases List.mem_cons.1 hp with rfl | hp
            · exact (hsplit s y2 hs).2
            · exact htail p hp
        · rcases List.mem_append.1 hp with hp | hp
          · exact hadd _ _ _ hs p hp
          · exact htail p hp
    unfold TrapezoidedPath.walk at hp
    split at hp
    · split at hp
      · split at hp
        · split at hp
          · rcases List.mem_cons.1 hp with rfl | hp
            · exact hsingle _ _ _ _
            · exact h p hp
          · rcases List.mem_cons.1 hp with rfl | hp
            · exact hsingle _ _ _ _
            · split at hp
              · exact haligned s _ _ hs p hp
              · rcases List.mem_cons.1 hp with rfl | hp
                · exact hs
                · exact hcont _ _ p hp
        · split at hp
          · rcases List.mem_cons.1 hp with rfl | hp
            · exact (hsplit s y1 hs).1
            · exact haligned _ _ _ (hsplit s y1 hs).2 p hp
          · exact haligned s _ _ hs p hp
      · rcases List.mem_cons.1 hp with rfl | hp
        · exact hs
        · exact hcont _ _ p hp
    · exact h p hp

/-- Every segment `HorizontalSlice::addLine` leaves is a segment of the slice, up to its
x-values, or the new one: a property of windings that the old segments and the new
winding have holds for all segments of the result. -/
theorem addLineFuel_windings (P : Int → Prop) (winding : Int) (hw : P winding) :
    ∀ (fuel : Nat) (s : HorizontalSlice) (x1 x2 : Int),
    (∀ l ∈ s.segments, P l.winding) →
    ∀ p ∈ HorizontalSlice.addLineFuel fuel s x1 x2 winding, ∀ l ∈ p.segments, P l.winding
  | fuel, s, x1, x2, hs, p, hp, l, hl => by
    have hsplit : ∀ y, (∀ l ∈ (s.split y).1.segments, P l.winding) ∧
        (∀ l ∈ (s.split y).2.segments, P l.winding) := by
      intro y
      constructor
      · intro l hl
        simp only [HorizontalSlice.split, List.mem_map] at hl
        obtain ⟨k, hk, rfl⟩ := hl
        exact hs k hk
      · intro l hl
        simp only [HorizontalSlice.split, List.mem_map] at hl
        obtain ⟨k, hk, rfl⟩ := hl
        exact hs k hk
    rcases place_cases (s.y2 - s.y1) x1 x2 winding s.segments with
      ⟨front, k, rest, hseg, _, _, hplace⟩ | ⟨front, rest, hseg, _, _, hplace⟩
    · cases fuel with
      | zero =>
        rw [HorizontalSlice.addLineFuel, hplace] at hp
        simp only [List.mem_singleton] at hp
        subst hp
        exact hs l hl
      | succ fuel =>
        rw [addLineFuel_crossing fuel s x1 x2 winding _ _ hplace] at hp
        rcases List.mem_append.1 hp with hp | hp
        · exact addLineFuel_windings P winding hw fuel _ _ _ (hsplit _).1 p hp l hl
        · exact addLineFuel_windings P winding hw fuel _ _ _ (hsplit _).2 p hp l hl
    · rw [HorizontalSlice.addLineFuel, hplace] at hp
      simp only [List.mem_singleton] at hp
      subst hp
      simp only [List.mem_append, List.mem_cons] at hl
      rcases hl with hl | rfl | hl
      · exact hs l (by rw [hseg]; simp [hl])
      · exact hw
      · exact hs l (by rw [hseg]; simp [hl])

theorem walk_windings (P : Int → Prop) (winding x2 y2 : Int) (hw : P winding)
    (chain : List HorizontalSlice) (x1 y1 : Int)
    (h : ∀ p ∈ chain, ∀ l ∈ p.segments, P l.winding) :
    ∀ p ∈ TrapezoidedPath.walk winding x2 y2 chain x1 y1, ∀ l ∈ p.segments, P l.winding := by
  refine walk_preserves (fun p => ∀ l ∈ p.segments, P l.winding) winding x2 y2 ?_ ?_ ?_
    chain x1 y1 h
  · intro a b c d l hl
    simp only [HorizontalSlice.single, List.mem_singleton] at hl
    subst hl
    exact hw
  · intro s y hs
    constructor
    · intro l hl
      simp only [HorizontalSlice.split, List.mem_map] at hl
      obtain ⟨k, hk, rfl⟩ := hl
      exact hs k hk
    · intro l hl
      simp only [HorizontalSlice.split, List.mem_map] at hl
      obtain ⟨k, hk, rfl⟩ := hl
      exact hs k hk
  · intro s a b hs p hp
    exact addLineFuel_windings P winding hw _ s a b hs p hp

theorem addLine_unit_windings (t : TrapezoidedPath) (x1 y1 x2 y2 : Int)
    (h : ∀ p ∈ t.firstSlice, ∀ l ∈ p.segments, l.winding = 1 ∨ l.winding = -1) :
    ∀ p ∈ (t.addLine x1 y1 x2 y2).firstSlice, ∀ l ∈ p.segments,
      l.winding = 1 ∨ l.winding = -1 := by
  rw [addLine_eq_walk]
  split
  · exact walk_windings (fun w => w = 1 ∨ w = -1) _ _ _ (Or.inr rfl) _ _ _ h
  · exact walk_windings (fun w => w = 1 ∨ w = -1) _ _ _ (Or.inl rfl) _ _ _ h

/-- A chain of slices of positive height in which every slice ends at or before the start
of its successor is ordered from any bound below its first slice. -/
theorem chained_of_successors : ∀ (chain : List HorizontalSlice) (lo : Int),
    (∀ s ∈ chain, s.y1 < s.y2) →
    (∀ (i : Nat) (a b : HorizontalSlice),
      chain.get? i = some a → chain.get? (i + 1) = some b → a.y2 ≤ b.y1) →
    (∀ s ∈ chain.head?, lo ≤ s.y1) → ∃ hi, Chained lo hi chain
  | [], lo, _, _, _ => ⟨lo, le_refl _⟩
  | s :: tail, lo, hpos, hsucc, hlo => by
    obtain ⟨hi, h⟩ := chained_of_successors tail s.y2 (fun p hp => hpos p (by simp [hp]))
      (fun i a b ha hb => hsucc (i + 1) a b ha hb)
      (fun p hp => by
        cases tail with
        | nil => simp at hp
        | cons q rest =>
          simp only [List.head?_cons, Option.mem_def, Option.some.injEq] at hp
          subst hp
          exact hsucc 0 s q rfl rfl)
    exact ⟨hi, hlo s (by simp), hpos s (by simp), h⟩

theorem chained_of_invariant (chain : List HorizontalSlice) (h : ChainInvariant chain) :
    ∃ lo hi, Chained lo hi chain := by
  cases chain with
  | nil => exact ⟨0, 0, le_refl _⟩
  | cons s tail =>
    obtain ⟨hi, hc⟩ := chained_of_successors (s :: tail) s.y1 (fun p hp => (h.1 p hp).1) h.2
      (fun p hp => by
        simp only [List.head?_cons, Option.mem_def, Option.some.injEq] at hp
        subst hp
        exact le_refl _)
    exact ⟨s.y1, hi, hc⟩

theorem addLine_invariant (t : TrapezoidedPath) (x1 y1 x2 y2 : Int)
    (h : ChainInvariant t.firstSlice) :
    ChainInvariant (t.addLine x1 y1 x2 y2).firstSlice := by
  obtain ⟨lo, hi, hc⟩ := addLine_chained_chain t x1 y1 x2 y2 (chained_of_invariant _ h)
  refine ⟨fun s hs => ⟨chained_positive hc s hs, ?_, ?_⟩, chained_successor hc⟩
  · exact addLine_segments_ne_nil t x1 y1 x2 y2 (fun p hp => (h.1 p hp).2.1) s hs
  · exact addLine_unit_windings t x1 y1 x2 y2 (fun p hp => (h.1 p hp).2.2) s hs

theorem addLines_invariant : ∀ (lines : List Line) (t : TrapezoidedPath),
    ChainInvariant t.firstSlice → ChainInvariant (t.addLines lines).firstSlice
  | [], _, h => h
  | l :: lines, t, h => by
    have := addLines_invariant lines (t.addLine l.x1 l.y1 l.x2 l.y2)
      (addLine_invariant t _ _ _ _ h)
    simpa [TrapezoidedPath.addLines] using this

theorem invariant_nil : ChainInvariant [] :=
  ⟨fun s hs => by simp at hs, fun i a b ha => by simp at ha⟩

/-- C23. The chain invariant.  After any sequence of `addLine` calls from the empty chain
every slice has `y1 < y2`, holds at least one segment and only segments of winding `+1`
or `-1`, and ends at or before the start of its successor; and one `addLine` call, with
the splits it makes, keeps this invariant on every chain that has it. -/
theorem chain_invariant_is_kept (windingMask : Int) (lines : List Line)
    (t : TrapezoidedPath) (x1 y1 x2 y2 : Int) :
    ((∀ s ∈ (TrapezoidedPath.addLines
        { firstSlice := [], windingMask := windingMask } lines).firstSlice,
        s.y1 < s.y2 ∧ s.segments ≠ [] ∧ ∀ l ∈ s.segments, l.winding = 1 ∨ l.winding = -1) ∧
      ∀ (i : Nat) (a b : HorizontalSlice),
        (TrapezoidedPath.addLines
          { firstSlice := [], windingMask := windingMask } lines).firstSlice.get? i = some a →
        (TrapezoidedPath.addLines
          { firstSlice := [], windingMask := windingMask } lines).firstSlice.get? (i + 1)
            = some b →
        a.y2 ≤ b.y1) ∧
    (ChainInvariant t.firstSlice → ChainInvariant (t.addLine x1 y1 x2 y2).firstSlice) :=
  ⟨addLines_invariant lines _ invariant_nil, addLine_invariant t x1 y1 x2 y2⟩

/-! ## Winding bookkeeping -/

theorem measureAt_append (g : Int → Int) (y : Int) : ∀ (a b : List HorizontalSlice),
    measureAt g (a ++ b) y = measureAt g a y + measureAt g b y
  | [], b => by simp [measureAt]
  | s :: a, b => by
    rw [List.cons_append, measureAt, measureAt, measureAt_append g y a b]
    omega

theorem sliceMeasure_split (g : Int → Int) (s : HorizontalSlice) (newY : Int) :
    sliceMeasure g (s.split newY).1 = sliceMeasure g s ∧
    sliceMeasure g (s.split newY).2 = sliceMeasure g s := by
  simp [sliceMeasure, HorizontalSlice.split, List.map_map, Function.comp_def]

theorem sliceMeasure_single (g : Int → Int) (x1 y1 x2 y2 winding : Int) :
    sliceMeasure g (HorizontalSlice.single x1 y1 x2 y2 winding) = g winding := by
  simp [sliceMeasure, HorizontalSlice.single]

theorem measureAt_single (g : Int → Int) (y x1 y1 x2 y2 winding : Int)
    (tail : List HorizontalSlice) :
    measureAt g (HorizontalSlice.single x1 y1 x2 y2 winding :: tail) y
      = (if y1 ≤ y ∧ y < y2 then g winding else 0) + measureAt g tail y := by
  rw [measureAt, sliceMeasure_single]
  rfl

/-- No slice of an ordered chain contains a `y` below the lower bound of the chain. -/
theorem measureAt_below (g : Int → Int) (y : Int) : ∀ (chain : List HorizontalSlice)
    (lo hi : Int), Chained lo hi chain → y < lo → measureAt g chain y = 0
  | [], _, _, _, _ => rfl
  | s :: tail, lo, hi, h, hy => by
    obtain ⟨h1, h2, h3⟩ := h
    rw [measureAt, measureAt_below g y tail s.y2 hi h3 (by omega), if_neg (by omega)]
    rfl

/-- What `HorizontalSlice::addLine` leaves in place of a slice holds, at every `y` of the
slice, the segments of the slice and the new one. -/
theorem addLineFuel_measure (g : Int → Int) (y : Int) : ∀ (fuel : Nat) (s : HorizontalSlice)
    (x1 x2 winding : Int), (s.y2 - s.y1).toNat ≤ fuel →
    measureAt g (HorizontalSlice.addLineFuel fuel s x1 x2 winding) y
      = if s.y1 ≤ y ∧ y < s.y2 then sliceMeasure g s + g winding else 0
  | fuel, s, x1, x2, winding, hf => by
    rcases place_cases (s.y2 - s.y1) x1 x2 winding s.segments with
      ⟨front, k, rest, hseg, _, _, hplace⟩ | ⟨front, rest, hseg, _, _, hplace⟩
    · have hb := place_crossing _ _ _ _ _ _ _ hplace
      cases fuel with
      | zero => omega
      | succ fuel =>
        rw [addLineFuel_crossing fuel s x1 x2 winding _ _ hplace, measureAt_append,
          addLineFuel_measure g y fuel _ _ _ _
            (by rw [(split_fst_y s _).1, (split_fst_y s _).2]; omega),
          addLineFuel_measure g y fuel _ _ _ _
            (by rw [(split_snd_y s _).1, (split_snd_y s _).2]; omega),
          (sliceMeasure_split g s _).1, (sliceMeasure_split g s _).2,
          (split_fst_y s _).1, (split_fst_y s _).2, (split_snd_y s _).1, (split_snd_y s _).2]
        split_ifs <;> omega
    · rw [HorizontalSlice.addLineFuel, hplace]
      simp only [measureAt, add_zero]
      have : sliceMeasure g { s with segments := front ++ ⟨x1, x2, winding⟩ :: rest }
          = sliceMeasure g s + g winding := by
        simp only [sliceMeasure, hseg, List.map_append, List.map_cons, List.sum_append,
          List.sum_cons]
        omega
      rw [this]

/-- The effect of the loop body behind the alignment on the measure at `y`. -/
theorem aligned_measure (g : Int → Int) (y winding x2 y2 : Int) (s : HorizontalSlice)
    (tail : List HorizontalSlice) (continueWith : Int → Int → List HorizontalSlice)
    (x1 y1 : Int) (hs1 : s.y1 = y1) (hs2 : y1 < s.y2) (hy : y1 < y2)
    (hcont : ∀ a, measureAt g (continueWith a s.y2) y
      = measureAt g tail y + if s.y2 ≤ y ∧ y < y2 then g winding else 0) :
    measureAt g (TrapezoidedPath.aligned winding x2 y2 s tail continueWith x1 y1) y
      = measureAt g (s :: tail) y + if y1 ≤ y ∧ y < y2 then g winding else 0 := by
  unfold TrapezoidedPath.aligned
  by_cases h1 : y2 > s.y2
  · rw [if_pos h1]
    simp only
    rw [measureAt_append, hcont, HorizontalSlice.addLine, addLineFuel_measure g y _ _ _ _ _
      (le_refl _), measureAt]
    split_ifs <;> omega
  · rw [if_neg h1]
    by_cases h2 : y2 < s.y2
    · rw [if_pos h2]
      simp only
      rw [measureAt_append, HorizontalSlice.addLine, addLineFuel_measure g y _ _ _ _ _
        (le_refl _), measureAt, measureAt, (sliceMeasure_split g s _).1,
        (sliceMeasure_split g s _).2, (split_fst_y s _).1, (split_fst_y s _).2,
        (split_snd_y s _).1, (split_snd_y s _).2]
      split_ifs <;> omega
    · rw [if_neg h2, measureAt_append, HorizontalSlice.addLine,
        addLineFuel_measure g y _ _ _ _ _ (le_refl _), measureAt]
      split_ifs <;> omega

/-- The effect of the loop of `TrapezoidedPath::addLine` on the measure at `y`: the new
winding is added exactly on the range `[y1, y2)` of the line. -/
theorem walk_measure (g : Int → Int) (y winding x2 y2 : Int) :
    ∀ (chain : List HorizontalSlice) (x1 y1 : Int),
    measureAt g (TrapezoidedPath.walk winding x2 y2 chain x1 y1) y
      = measureAt g chain y + if y1 ≤ y ∧ y < y2 then g winding else 0
  | [], x1, y1 => by
    unfold TrapezoidedPath.walk
    by_cases hy : y2 > y1
    · rw [if_pos hy, measureAt_single]
      simp only [measureAt]
      split_ifs <;> omega
    · rw [if_neg hy]
      simp only [measureAt]
      split_ifs <;> omega
  | s :: tail, x1, y1 => by
    have ih := walk_measure g y winding x2 y2 tail
    unfold TrapezoidedPath.walk
    by_cases hy : y2 > y1
    · rw [if_pos hy]
      by_cases h1 : s.y2 > y1
      · rw [if_pos h1]
        by_cases h2 : y1 < s.y1
        · rw [if_pos h2]
          by_cases h3 : y2 ≤ s.y1
          · rw [if_pos h3, measureAt_single]
            split_ifs <;> omega
          · rw [if_neg h3]
            simp only
            by_cases h4 : s.y2 > s.y1
            · rw [if_pos h4, measureAt_single,
                aligned_measure g y winding x2 y2 s tail _ _ s.y1 rfl h4 (by omega)
                  (fun a => ih a s.y2)]
              split_ifs <;> omega
            · rw [if_neg h4, measureAt_single, measureAt, ih, measureAt]
              split_ifs <;> omega
        · rw [if_neg h2]
          by_cases h3 : y1 > s.y1
          · rw [if_pos h3]
            simp only
            rw [measureAt, aligned_measure g y winding x2 y2 (s.split y1).2 tail _ x1 y1
              (split_snd_y s y1).1 (by rw [(split_snd_y s y1).2]; exact h1) hy
              (fun a => by rw [(split_snd_y s y1).2]; exact ih a s.y2)]
            simp only [measureAt, (sliceMeasure_split g s _).1, (sliceMeasure_split g s _).2,
              (split_fst_y s _).1, (split_fst_y s _).2, (split_snd_y s _).1,
              (split_snd_y s _).2]
            split_ifs <;> omega
          · rw [if_neg h3]
            exact aligned_measure g y winding x2 y2 s tail _ x1 y1 (by omega) h1 hy
              (fun a => ih a s.y2)
      · rw [if_neg h1, measureAt, ih, measureAt]
        omega
    · rw [if_neg hy]
      split_ifs <;> omega


/-- In an ordered chain at most one slice contains `y`, so the measure at `y` is that of
the slice found there. -/
theorem measureAt_sliceAt (g : Int → Int) (y : Int) : ∀ (chain : List HorizontalSlice)
    (lo hi : Int), Chained lo hi chain →
    measureAt g chain y = match sliceAt chain y with
      | some s => sliceMeasure g s
      | none => 0
  | [], _, _, _ => rfl
  | s :: tail, lo, hi, h => by
    obtain ⟨_, _, h3⟩ := h
    by_cases hc : s.y1 ≤ y ∧ y < s.y2
    · have hfind : sliceAt (s :: tail) y = some s := by
        simp [sliceAt, List.find?_cons, hc]
      rw [hfind, measureAt, if_pos hc, measureAt_below g y tail s.y2 hi h3 hc.2, add_zero]
    · have hfind : sliceAt (s :: tail) y = sliceAt tail y := by
        simp only [sliceAt, List.find?_cons, decide_eq_false hc]
      rw [hfind, measureAt, if_neg hc, zero_add, measureAt_sliceAt g y tail s.y2 hi h3]

theorem windingAt_eq_measureAt (chain : List HorizontalSlice) (y : Int)
    (h : ∃ lo hi, Chained lo hi chain) :
    windingAt chain y = measureAt (fun w => w) chain y := by
  obtain ⟨lo, hi, h⟩ := h
  rw [measureAt_sliceAt _ y chain lo hi h, windingAt]
  cases sliceAt chain y with
  | none => rfl
  | some s => rfl

theorem segmentsAt_eq_measureAt (chain : List HorizontalSlice) (y : Int)
    (h : ∃ lo hi, Chained lo hi chain) :
    (segmentsAt chain y : Int) = measureAt (fun _ => 1) chain y := by
  obtain ⟨lo, hi, h⟩ := h
  rw [measureAt_sliceAt _ y chain lo hi h, segmentsAt]
  cases sliceAt chain y with
  | none => rfl
  | some s => simp [sliceMeasure]

/-- The effect of `TrapezoidedPath::addLine` on the measure at `y`, for any chain. -/
theorem addLine_measure (g : Int → Int) (t : TrapezoidedPath) (x1 y1 x2 y2 y : Int) :
    measureAt g (t.addLine x1 y1 x2 y2).firstSlice y
      = measureAt g t.firstSlice y +
        if y1 ≤ y ∧ y < y2 then g 1 else if y2 ≤ y ∧ y < y1 then g (-1) else 0 := by
  rw [addLine_eq_walk]
  by_cases h : y2 < y1
  · rw [if_pos h]
    simp only
    rw [walk_measure]
    split_ifs <;> omega
  · rw [if_neg h]
    simp only
    rw [walk_measure]
    split_ifs <;> omega

/-- C24. Winding bookkeeping of one edge.  With `W (chain, y)` the sum of the windings of
the segments of the slice that contains `y` (`0` when there is none): for every chain with
the chain invariant, `addLine (x1, y1, x2, y2)` adds `+1` to `W` at every `y` with
`y1 ≤ y < y2` (an edge given downwards), `-1` at every `y` with `y2 ≤ y < y1` (an edge
given upwards, swapped by the call), and leaves `W` unchanged at every other `y`; the
number of segments of the slice containing `y` grows by exactly `1` at the `y` of the
range of the edge and is unchanged elsewhere. -/
theorem addLine_winding_bookkeeping (t : TrapezoidedPath) (x1 y1 x2 y2 y : Int)
    (h : ChainInvariant t.firstSlice) :
    windingAt (t.addLine x1 y1 x2 y2).firstSlice y
      = windingAt t.firstSlice y +
        (if y1 ≤ y ∧ y < y2 then 1 else if y2 ≤ y ∧ y < y1 then -1 else 0) ∧
    segmentsAt (t.addLine x1 y1 x2 y2).firstSlice y
      = segmentsAt t.firstSlice y +
        (if (y1 ≤ y ∧ y < y2) ∨ (y2 ≤ y ∧ y < y1) then 1 else 0) := by
  have hc := chained_of_invariant _ h
  have hc2 := addLine_chained_chain t x1 y1 x2 y2 hc
  constructor
  · rw [windingAt_eq_measureAt _ y hc, windingAt_eq_measureAt _ y hc2, addLine_measure]
  · have h1 := segmentsAt_eq_measureAt _ y hc
    have h2 := segmentsAt_eq_measureAt _ y hc2
    rw [addLine_measure] at h2
    split_ifs at h2 ⊢ <;> omega

/-- Witness for C24: an upward edge over `[3, 8)` added to the chain of one vertical edge
over `[0, 10)`, seen at `y = 4`. -/
theorem winding_bookkeeping_witness :
    windingAt ((TrapezoidedPath.addLines ⟨[], -1⟩ [⟨0, 0, 0, 10⟩]).addLine 5 8 7 3).firstSlice 4
      = windingAt (TrapezoidedPath.addLines ⟨[], -1⟩ [⟨0, 0, 0, 10⟩]).firstSlice 4 +
        (if (8 : Int) ≤ 4 ∧ (4 : Int) < 3 then 1 else if (3 : Int) ≤ 4 ∧ (4 : Int) < 8 then -1
          else 0) ∧
    segmentsAt ((TrapezoidedPath.addLines ⟨[], -1⟩ [⟨0, 0, 0, 10⟩]).addLine 5 8 7 3).firstSlice 4
      = segmentsAt (TrapezoidedPath.addLines ⟨[], -1⟩ [⟨0, 0, 0, 10⟩]).firstSlice 4 +
        (if ((8 : Int) ≤ 4 ∧ (4 : Int) < 3) ∨ ((3 : Int) ≤ 4 ∧ (4 : Int) < 8) then 1 else 0) :=
  addLine_winding_bookkeeping (TrapezoidedPath.addLines ⟨[], -1⟩ [⟨0, 0, 0, 10⟩]) 5 8 7 3 4
    (addLines_invariant _ _ invariant_nil)

/-! ## Closed contours -/

theorem addLines_measure (g : Int → Int) (y : Int) : ∀ (lines : List Line)
    (t : TrapezoidedPath),
    measureAt g (t.addLines lines).firstSlice y
      = measureAt g t.firstSlice y + (lines.map (contribution g y)).sum
  | [], t => by simp [TrapezoidedPath.addLines]
  | l :: lines, t => by
    have ih := addLines_measure g y lines (t.addLine l.x1 l.y1 l.x2 l.y2)
    have hfold : t.addLines (l :: lines)
        = (t.addLine l.x1 l.y1 l.x2 l.y2).addLines lines := rfl
    rw [hfold, ih, addLine_measure, List.map_cons, List.sum_cons, contribution]
    omega

/-- Along a path the windings that the edges add at `y` sum to the difference of `below`
between its last and its first vertex, and the number of edges over `y` has the parity of
that difference. -/
theorem pathEdges_sum (y : Int) : ∀ (vs : List (Int × Int)) (a : Int × Int),
    ((pathEdges (a :: vs)).map (contribution (fun w => w) y)).sum
      = below y (vs.getLastD a) - below y a ∧
    (((pathEdges (a :: vs)).map (contribution (fun _ => 1) y)).sum
      - (below y (vs.getLastD a) - below y a)) % 2 = 0
  | [], a => by simp [pathEdges]
  | b :: rest, a => by
    obtain ⟨ih1, ih2⟩ := pathEdges_sum y rest b
    have hlast : (b :: rest).getLastD a = rest.getLastD b := by
      cases rest <;> simp [List.getLastD]
    rw [hlast]
    simp only [pathEdges, List.map_cons, List.sum_cons]
    constructor
    · rw [ih1]
      simp only [contribution, below]
      split_ifs <;> omega
    · revert ih2
      generalize ((pathEdges (b :: rest)).map (contribution (fun _ => 1) y)).sum = n
      simp only [contribution, below]
      split_ifs <;> omega

theorem getLastD_cons_cons {α : Type} (a b : α) (l : List α) :
    (b :: l).getLastD a = l.getLastD b := by
  cases l <;> simp [List.getLastD]

theorem getLastD_concat {α : Type} : ∀ (l : List α) (v d : α), (l ++ [v]).getLastD d = v
  | [], _, _ => rfl
  | b :: l, v, d => by
    rw [List.cons_append, getLastD_cons_cons, getLastD_concat l v b]

theorem closedEdges_sum (y : Int) (vs : List (Int × Int)) :
    ((closedEdges vs).map (contribution (fun w => w) y)).sum = 0 ∧
    ((closedEdges vs).map (contribution (fun _ => 1) y)).sum % 2 = 0 := by
  cases vs with
  | nil => simp [closedEdges]
  | cons v rest =>
    obtain ⟨h1, h2⟩ := pathEdges_sum y (rest ++ [v]) v
    have hlast : (rest ++ [v]).getLastD v = v := getLastD_concat rest v v
    rw [hlast] at h1 h2
    simp only [closedEdges, List.cons_append]
    constructor
    · rw [h1]; omega
    · omega

theorem polygons_sum (y : Int) : ∀ polygons : List (List (Int × Int)),
    (((polygons.flatMap closedEdges)).map (contribution (fun w => w) y)).sum = 0 ∧
    (((polygons.flatMap closedEdges)).map (contribution (fun _ => 1) y)).sum % 2 = 0
  | [] => by simp
  | p :: ps => by
    obtain ⟨h1, h2⟩ := closedEdges_sum y p
    obtain ⟨h3, h4⟩ := polygons_sum y ps
    simp only [List.flatMap_cons, List.map_append, List.sum_append]
    constructor <;> omega

theorem chained_mem_lower : ∀ {chain : List HorizontalSlice} {lo hi : Int},
    Chained lo hi chain → ∀ s ∈ chain, lo ≤ s.y1
  | [], _, _, _, s, hs => by simp at hs
  | a :: tail, lo, hi, h, s, hs => by
    obtain ⟨h1, h2, h3⟩ := h
    rcases List.mem_cons.1 hs with rfl | hs
    · exact h1
    · have := chained_mem_lower h3 s hs
      omega

/-- In an ordered chain the measure at a `y` of a slice is that of the slice. -/
theorem measureAt_mem (g : Int → Int) (y : Int) : ∀ (chain : List HorizontalSlice)
    (lo hi : Int), Chained lo hi chain → ∀ s ∈ chain, s.y1 ≤ y → y < s.y2 →
    measureAt g chain y = sliceMeasure g s
  | [], _, _, _, s, hs, _, _ => by simp at hs
  | a :: tail, lo, hi, h, s, hs, h1, h2 => by
    obtain ⟨_, ha, h3⟩ := h
    rcases List.mem_cons.1 hs with rfl | hs
    · rw [measureAt, if_pos ⟨h1, h2⟩, measureAt_below g y tail _ hi h3 h2, add_zero]
    · have hlow := chained_mem_lower h3 s hs
      rw [measureAt, if_neg (by omega), zero_add, measureAt_mem g y tail _ hi h3 s hs h1 h2]

/-- When the running winding is back at a value that passes the test at the last segment,
the spans of the loop of `iterate` leave no segment out. -/
theorem spans_tile (mask : Int) : ∀ (rest : List LineSegment) (s1 s2 : Nat) (w : Int),
    (bitAnd w mask = 0 → s1 = s2 + 1) →
    bitAnd (w + windingSum rest rest.length) mask = 0 →
    ∀ k, s1 ≤ k → k ≤ s2 + rest.length →
      ∃ span ∈ HorizontalSlice.spans mask rest s1 s2 w, span.1 ≤ k ∧ k ≤ span.2
  | [], s1, s2, w, hclosed, hfinal, k, h1, h2 => by
    have hw : bitAnd w mask = 0 := by simpa [windingSum] using hfinal
    have := hclosed hw
    simp only [List.length_nil, Nat.add_zero] at h2
    omega
  | l :: rest, s1, s2, w, hclosed, hfinal, k, h1, h2 => by
    rw [List.length_cons, windingSum_cons, ← add_assoc] at hfinal
    simp only [List.length_cons] at h2
    unfold HorizontalSlice.spans
    by_cases ht : bitAnd (w + l.winding) mask = 0
    · rw [if_pos ht]
      by_cases hk : k ≤ s2 + 1
      · exact ⟨(s1, s2 + 1), List.mem_cons_self _ _, h1, hk⟩
      · obtain ⟨span, hspan, h⟩ := spans_tile mask rest (s2 + 1 + 1) (s2 + 1) (w + l.winding)
          (fun _ => rfl) hfinal k (by omega) (by omega)
        exact ⟨span, List.mem_cons_of_mem _ hspan, h⟩
    · rw [if_neg ht]
      exact spans_tile mask rest s1 (s2 + 1) (w + l.winding) (fun h => absurd h ht) hfinal k
        h1 (by omega)

/-- C25. Closed contours balance in every slice.  For every list of closed polygons, when
the directed edges of all of them, closing edges included, are passed to `addLine` in any
order on the empty chain, every slice of the resulting chain has an even number of
segments and windings that sum to zero; so under the non-zero rule the spans of `iterate`
leave no segment of the slice out: no span stays open at the end of the slice. -/
theorem closed_contours_balance (windingMask : Int) (polygons : List (List (Int × Int)))
    (lines : List Line) (hlines : lines.Perm (polygons.flatMap closedEdges)) :
    ∀ s ∈ (TrapezoidedPath.addLines
        { firstSlice := [], windingMask := windingMask } lines).firstSlice,
      s.segments.length % 2 = 0 ∧ windingSum s.segments s.segments.length = 0 ∧
      ∀ k < s.segments.length, ∃ span ∈ s.iterateSpans (-1), span.1 ≤ k ∧ k ≤ span.2 := by
  intro s hs
  have hinv := addLines_invariant lines { firstSlice := [], windingMask := windingMask }
    invariant_nil
  obtain ⟨lo, hi, hc⟩ := chained_of_invariant _ hinv
  obtain ⟨hpos, hne, hunit⟩ := hinv.1 s hs
  have hsum : ∀ g : Int → Int, sliceMeasure g s
      = ((polygons.flatMap closedEdges).map (contribution g s.y1)).sum := by
    intro g
    rw [← measureAt_mem g s.y1 _ lo hi hc s hs (le_refl _) hpos, addLines_measure]
    simp only [measureAt, zero_add]
    exact (hlines.map _).sum_eq
  have hw : windingSum s.segments s.segments.length = 0 := by
    have := hsum (fun w => w)
    rw [(polygons_sum s.y1 polygons).1] at this
    simpa [windingSum, sliceMeasure] using this
  have hn : s.segments.length % 2 = 0 := by
    have := hsum (fun _ => 1)
    have h2 := (polygons_sum s.y1 polygons).2
    rw [← this] at h2
    have hlen : sliceMeasure (fun _ => 1) s = (s.segments.length : Int) := by
      simp [sliceMeasure]
    rw [hlen] at h2
    omega
  refine ⟨hn, hw, ?_⟩
  intro k hk
  unfold HorizontalSlice.iterateSpans
  cases hseg : s.segments with
  | nil => exact absurd hseg hne
  | cons l rest =>
    rw [hseg] at hw hk hunit
    rw [List.length_cons, windingSum_cons] at hw
    simp only [List.length_cons] at hk
    simp only
    refine spans_tile (-1) rest 0 0 l.winding ?_ (by rw [hw]; rfl) k (Nat.zero_le _) (by omega)
    intro h0
    rw [bitAnd_neg_one] at h0
    rcases hunit l (List.mem_cons_self _ _) with h | h <;> omega

/-- Witness for C25: the rectangle `(0, 0) (10, 0) (10, 5) (0, 5)` and its one slice. -/
theorem closed_contours_witness :
    (⟨0, 5, [⟨0, 0, -1⟩, ⟨10, 10, 1⟩]⟩ : HorizontalSlice).segments.length % 2 = 0 ∧
    windingSum (⟨0, 5, [⟨0, 0, -1⟩, ⟨10, 10, 1⟩]⟩ : HorizontalSlice).segments
      (⟨0, 5, [⟨0, 0, -1⟩, ⟨10, 10, 1⟩]⟩ : HorizontalSlice).segments.length = 0 ∧
    ∀ k < (⟨0, 5, [⟨0, 0, -1⟩, ⟨10, 10, 1⟩]⟩ : HorizontalSlice).segments.length,
      ∃ span ∈ HorizontalSlice.iterateSpans ⟨0, 5, [⟨0, 0, -1⟩, ⟨10, 10, 1⟩]⟩ (-1),
        span.1 ≤ k ∧ k ≤ span.2 :=
  closed_contours_balance (-1) [[(0, 0), (10, 0), (10, 5), (0, 5)]]
    (closedEdges [(0, 0), (10, 0), (10, 5), (0, 5)]) (by simp)
    ⟨0, 5, [⟨0, 0, -1⟩, ⟨10, 10, 1⟩]⟩ (by decide)

/-! ## Content of the vertex blocks -/

theorem forall2_concat {α β : Type} {R : α → β → Prop} : ∀ {l1 : List α} {l2 : List β}
    {a : α} {b : β}, List.Forall₂ R l1 l2 → R a b → List.Forall₂ R (l1 ++ [a]) (l2 ++ [b])
  | _, _, _, _, .nil, h => .cons h .nil
  | _, _, _, _, .cons h t, h2 => .cons h (forall2_concat t h2)

/-- One consumer call on a path whose blocks hold groups of calls: the call joins the
group of the current block, or it makes the one group of a new current block. -/
theorem call_groups (earlier : List TriangleBlock) (cur : TriangleBlock)
    (c : ConsumerCall GLfloat) (ge : List (List (ConsumerCall GLfloat)))
    (gc : List (ConsumerCall GLfloat)) (hcur : cur.WF)
    (hge : List.Forall₂ TriangleBlock.holds earlier ge) (hgc : cur.holds gc) :
    ∃ earlier2 cur2 ge2 gc2,
      TriangulatedPath.call { blocks := earlier ++ [cur], currentBlock := earlier.length } c
        = some { blocks := earlier2 ++ [cur2], currentBlock := earlier2.length } ∧
      cur2.WF ∧ List.Forall₂ TriangleBlock.holds earlier2 ge2 ∧ cur2.holds gc2 ∧
      (ge2 ++ [gc2]).flatten = (ge ++ [gc]).flatten ++ [c] := by
  obtain ⟨w, hw, hcall⟩ := call_last earlier cur c hcur
  have hsz : c.size % 6 = 0 ∧ c.size ≤ TriangleBlock.maxVerticesPerBlock := by
    cases c <;> simp [ConsumerCall.size, TriangleBlock.maxVerticesPerBlock]
  have hstored := call_stored earlier cur c _ hcall
  by_cases hfit : cur.numVertices + c.size ≤ TriangleBlock.maxVerticesPerBlock
  · rw [if_pos hfit] at hcall hstored
    rw [stored_append_block, stored_append_block, List.append_assoc] at hstored
    have hcontent := List.append_cancel_left hstored
    simp only at hcontent
    refine ⟨earlier, { numVertices := cur.numVertices + c.size, triangles := w }, ge,
      gc ++ [c], hcall, ⟨by have := hcur.1; simp only; omega, hfit, hw⟩, hge, ?_, by simp⟩
    unfold TriangleBlock.holds at hgc ⊢
    simp only
    rw [hcontent, hgc]
    simp
  · rw [if_neg hfit] at hcall hstored
    have hlen : (earlier ++ [cur]).length = earlier.length + 1 := by simp
    have hstored2 : TriangulatedPath.stored
        { blocks := (earlier ++ [cur]) ++ [{ numVertices := c.size, triangles := w }],
          currentBlock := earlier.length + 1 }
        = TriangulatedPath.stored { blocks := earlier ++ [cur], currentBlock := earlier.length }
          ++ w.take c.size := by
      simp [TriangulatedPath.stored, List.flatMap_append]
    rw [hstored2] at hstored
    have hcontent := List.append_cancel_left hstored
    refine ⟨earlier ++ [cur], { numVertices := c.size, triangles := w }, ge ++ [gc], [c],
      by rw [hcall, hlen], ⟨hsz.1, hsz.2, hw⟩, forall2_concat hge hgc, ?_, by simp⟩
    unfold TriangleBlock.holds
    simp only
    rw [hcontent]
    simp

/-- A sequence of consumer calls on a path whose blocks hold groups of calls. -/
theorem calls_groups : ∀ (cs : List (ConsumerCall GLfloat)) (earlier : List TriangleBlock)
    (cur : TriangleBlock) (ge : List (List (ConsumerCall GLfloat)))
    (gc : List (ConsumerCall GLfloat)), cur.WF →
    List.Forall₂ TriangleBlock.holds earlier ge → cur.holds gc →
    ∃ earlier2 cur2 ge2 gc2,
      TriangulatedPath.calls { blocks := earlier ++ [cur], currentBlock := earlier.length } cs
        = some { blocks := earlier2 ++ [cur2], currentBlock := earlier2.length } ∧
      List.Forall₂ TriangleBlock.holds earlier2 ge2 ∧ cur2.holds gc2 ∧
      (ge2 ++ [gc2]).flatten = (ge ++ [gc]).flatten ++ cs
  | [], earlier, cur, ge, gc, _, hge, hgc => ⟨earlier, cur, ge, gc, rfl, hge, hgc, by simp⟩
  | c :: cs, earlier, cur, ge, gc, hcur, hge, hgc => by
    obtain ⟨e1, c1, g1, k1, hcall, hwf1, hg1, hk1, hf1⟩ :=
      call_groups earlier cur c ge gc hcur hge hgc
    obtain ⟨e2, c2, g2, k2, hcalls, hg2, hk2, hf2⟩ := calls_groups cs e1 c1 g1 k1 hwf1 hg1 hk1
    refine ⟨e2, c2, g2, k2, ?_, hg2, hk2, ?_⟩
    · rw [TriangulatedPath.calls, hcall, Option.some_bind, hcalls]
    · rw [hf2, hf1, List.append_assoc]
      rfl

theorem stored_of_groups : ∀ (blocks : List TriangleBlock)
    (groups : List (List (ConsumerCall GLfloat))),
    List.Forall₂ TriangleBlock.holds blocks groups →
    (blocks.flatMap fun b => b.triangles.take b.numVertices)
      = groups.flatten.flatMap ConsumerCall.values
  | _, _, .nil => rfl
  | _, _, .cons h t => by
    rw [List.flatMap_cons, List.flatten_cons, List.flatMap_append, stored_of_groups _ _ t]
    unfold TriangleBlock.holds at h
    rw [h]

/-- C26. Blocks store the emitted primitives in order and never split one.  For every
sequence of `addTriangle` and `addTrapezoid` calls on a freshly constructed
`TriangulatedPath` the calls all succeed; the first `numVertices` floats of the blocks, in
block order, are the coordinate lists of the calls in call order; and the calls fall into
consecutive groups, one per block, such that the floats in use of each block are the
coordinate lists of the calls of its group: the 6 or 12 values of one call lie together
in one block. -/
theorem blocks_store_calls_in_order (cs : List (ConsumerCall GLfloat)) :
    ∃ q, TriangulatedPath.fresh.calls cs = some q ∧
      (q.blocks.flatMap fun b => b.triangles.take b.numVertices)
        = cs.flatMap ConsumerCall.values ∧
      ∃ groups : List (List (ConsumerCall GLfloat)), groups.flatten = cs ∧
        List.Forall₂
          (fun (b : TriangleBlock) group =>
            b.triangles.take b.numVertices = group.flatMap ConsumerCall.values)
          q.blocks groups := by
  obtain ⟨e, c, ge, gc, hcalls, hge, hgc, hflat⟩ :=
    calls_groups cs [] TriangleBlock.fresh [] [] block_fresh_wf .nil rfl
  have hall : List.Forall₂ TriangleBlock.holds (e ++ [c]) (ge ++ [gc]) := forall2_concat hge hgc
  have hflat2 : (ge ++ [gc]).flatten = cs := by simpa using hflat
  refine ⟨_, hcalls, ?_, ge ++ [gc], hflat2, hall⟩
  rw [← hflat2]
  exact stored_of_groups _ _ hall

/-! ## Width of the interpolations -/

theorem wrap64_of_range (n : Int)
    (h : -9223372036854775808 ≤ n ∧ n < 9223372036854775808) : wrap64 n = n := by
  unfold wrap64
  omega

/-- The product of two `int` values fits in 64 bits. -/
theorem mul_fits_64 (a b : Int) (ha : -2147483648 ≤ a ∧ a < 2147483648)
    (hb : -2147483648 ≤ b ∧ b < 2147483648) :
    -9223372036854775808 ≤ a * b ∧ a * b < 9223372036854775808 := by
  have h1 : (a * b).natAbs = a.natAbs * b.natAbs := Int.natAbs_mul a b
  have h2 : a.natAbs * b.natAbs ≤ 2147483648 * 2147483648 :=
    Nat.mul_le_mul (by omega) (by omega)
  omega

/-- A truncated quotient `n * p / q` with `|p| ≤ |q|` is no larger than `n` in absolute
value. -/
theorem natAbs_tdiv_scaled (n p q : Int) (hpq : p.natAbs ≤ q.natAbs) :
    (Int.tdiv (n * p) q).natAbs ≤ n.natAbs := by
  rw [Int.natAbs_tdiv, Int.natAbs_mul]
  apply Nat.div_le_of_le_mul
  calc n.natAbs * p.natAbs ≤ n.natAbs * q.natAbs := Nat.mul_le_mul_left _ hpq
    _ = q.natAbs * n.natAbs := Nat.mul_comm _ _

/-- The wide interpolation `x1 + (int) (a * (int64) b / c)` is exact: for `int` values
with `0 ≤ a ≤ c`, `0 < c` and `x1 + b` an `int` it is `x1 + a * b / c` of unbounded
arithmetic. -/
theorem newX32_exact (x1 a b c : Int) (hx1 : -2147483648 ≤ x1 ∧ x1 < 2147483648)
    (hb : -2147483648 ≤ b ∧ b < 2147483648) (hc : -2147483648 ≤ c ∧ c < 2147483648)
    (hx2 : -2147483648 ≤ x1 + b ∧ x1 + b < 2147483648) (ha0 : 0 ≤ a) (hac : a ≤ c)
    (hc0 : 0 < c) : newX32 x1 a b c = x1 + Int.tdiv (a * b) c := by
  have hprod := mul_fits_64 a b (by omega) hb
  have hq : (Int.tdiv (b * a) c).natAbs ≤ b.natAbs :=
    natAbs_tdiv_scaled b a c (by omega)
  rw [mul_comm b a] at hq
  have hqb : (0 ≤ Int.tdiv (a * b) c ∧ Int.tdiv (a * b) c ≤ b) ∨
      (b ≤ Int.tdiv (a * b) c ∧ Int.tdiv (a * b) c ≤ 0) := by
    rcases le_total 0 b with h | h
    · have := Int.tdiv_nonneg (mul_nonneg ha0 h) (le_of_lt hc0)
      left; omega
    · have e : a * b = -(a * -b) := by ring
      have := Int.tdiv_nonneg (mul_nonneg ha0 (by omega : 0 ≤ -b)) (le_of_lt hc0)
      rw [e, Int.neg_tdiv] at hq ⊢
      right; omega
  have e1 := wrap64_of_range _ hprod
  have e2 := wrap64_of_range (Int.tdiv (a * b) c) (by omega)
  have e3 := wrap32_of_range (Int.tdiv (a * b) c) (by omega)
  have e4 := wrap32_of_range (x1 + Int.tdiv (a * b) c) (by omega)
  unfold newX32
  rw [e1, e2, e3, e4]

/-- The wide quotient `(int) ((dy * (int64) diff1) / dxDiff)` is exact for `int` values
that pass the test in front of it, when `dxDiff` is the difference of `diff1` and `diff2`
without wrap-around. -/
theorem intersectionY32_exact (dy diff1 diff2 dxDiff : Int)
    (hdy : 0 ≤ dy ∧ dy < 2147483648) (h1 : -2147483648 ≤ diff1 ∧ diff1 < 2147483648)
    (hside : diff1 < 0 ↔ diff2 > 0) (hd : dxDiff = diff1 - diff2) (hne : dxDiff ≠ 0) :
    intersectionY32 dy diff1 dxDiff = Int.tdiv (dy * diff1) dxDiff := by
  have hprod := mul_fits_64 dy diff1 (by omega) h1
  have hq := natAbs_tdiv_scaled dy diff1 dxDiff (by omega)
  have e1 := wrap64_of_range _ hprod
  have e2 := wrap64_of_range (Int.tdiv (dy * diff1) dxDiff) (by omega)
  have e3 := wrap32_of_range (Int.tdiv (dy * diff1) dxDiff) (by omega)
  unfold intersectionY32
  rw [e1, e2, e3]

/-- C22, at the failing input. The interpolations with an `(int64)` operand are exact:
`newX` of `TrapezoidedPath::addLine` and of `split`, and `intersectionY`, give the value
of the same formula in unbounded arithmetic for all `int` inputs in the ranges the code
reaches them with.  The product `intersectionY * dx2` of `intersectionX` has no `(int64)`
operand and is taken in 32 bits: for the edge `(-50000, 0) → (50000, 100000)` added to
the slice of the vertical edge `(0, 0) → (0, 100000)` it is `5000000000`, it wraps, and
the loop (with every operation wrapped, `place32`, and as embedded, `place`) finds the
crossing at `x = -42950` where unbounded arithmetic gives `0`. -/
theorem intersectionX_product_is_narrow :
    (∀ x1 a b c : Int, (-2147483648 ≤ x1 ∧ x1 < 2147483648) →
      (-2147483648 ≤ b ∧ b < 2147483648) → (-2147483648 ≤ c ∧ c < 2147483648) →
      (-2147483648 ≤ x1 + b ∧ x1 + b < 2147483648) → 0 ≤ a → a ≤ c → 0 < c →
      newX32 x1 a b c = x1 + Int.tdiv (a * b) c) ∧
    (∀ dy diff1 diff2 dxDiff : Int, (0 ≤ dy ∧ dy < 2147483648) →
      (-2147483648 ≤ diff1 ∧ diff1 < 2147483648) → (diff1 < 0 ↔ diff2 > 0) →
      dxDiff = diff1 - diff2 → dxDiff ≠ 0 →
      intersectionY32 dy diff1 dxDiff = Int.tdiv (dy * diff1) dxDiff) ∧
    (TrapezoidedPath.addLines { firstSlice := [], windingMask := -1 }
        [⟨0, 0, 0, 100000⟩]).firstSlice = [⟨0, 100000, [⟨0, 0, 1⟩]⟩] ∧
    HorizontalSlice.place32 (100000 - 0) (-50000) 50000 1 [⟨0, 0, 1⟩]
      = .crossing 50000 (-42950) ∧
    HorizontalSlice.place (100000 - 0) (-50000) 50000 1 [⟨0, 0, 1⟩]
      = .crossing 50000 (-42950) ∧
    intersectionX32 (-50000) 50000 100000 100000 = -42950 ∧
    -50000 + Int.tdiv (50000 * 100000) 100000 = 0 :=
  ⟨newX32_exact, intersectionY32_exact, by decide, by decide, by decide, by decide, by decide⟩

end Juce
